import Mathlib

/-!
Verification of the augmented-treap CIDR routing table (package cidrtree,
file treap.go) against its specification.

The embedding is value-level: Go pointers to `node` become an inductive tree,
`netip.Addr` and `netip.Prefix` become records over `Nat`, the random priority
drawn from `mrand.Uint64` becomes an explicit parameter, and the multi-value
returns `(lpm, value, ok)` become `Option (Prefix × α)` (where `none` models
the zero `netip.Prefix`, `nil` value and `false` of the source).  A separate
heap model at the end of the file gives the copy-on-write (immutable) variants
their store semantics.
-/

set_option maxHeartbeats 1000000

namespace Cidrtree

variable {α : Type}

/-- Model of `netip.Addr`: an IP address of either family.  `is4` is true for
an IPv4 address; `val` is the numeric value of the address (below `2 ^ 32` for
IPv4 and below `2 ^ 128` for IPv6). -/
structure Addr where
  is4 : Bool
  val : Nat
deriving DecidableEq, Repr

/-- Bit width of the address family. -/
def Addr.width (a : Addr) : Nat := if a.is4 then 32 else 128

/-- Three-way comparison of naturals with Go's minus-one / zero / one convention. -/
def cmpNat (x y : Nat) : Int := if x < y then -1 else if y < x then 1 else 0

/-- Model of `netip.Addr.Compare`: IPv4 addresses sort before IPv6 addresses,
addresses of one family compare by numeric value. -/
def Addr.compare (a b : Addr) : Int :=
  if a.is4 = b.is4 then cmpNat a.val b.val
  else if a.is4 then -1 else 1

/-- Model of `netip.Prefix`: an address plus a bit length. -/
structure Prefix where
  addr : Addr
  bits : Nat
deriving DecidableEq, Repr

/-- Number of host bits of a prefix. -/
def Prefix.host (p : Prefix) : Nat := p.addr.width - p.bits

/-- Model of `netip.Prefix.Masked`: canonicalize the prefix by zeroing its host
bits. -/
def Prefix.masked (p : Prefix) : Prefix :=
  ⟨⟨p.addr.is4, p.addr.val / 2 ^ p.host * 2 ^ p.host⟩, p.bits⟩

/-- First address of the range covered by a prefix, as in `extnetip.Range`. -/
def Prefix.first (p : Prefix) : Nat := p.addr.val / 2 ^ p.host * 2 ^ p.host

/-- Last address of the range covered by a prefix, as in `extnetip.Range`. -/
def Prefix.last (p : Prefix) : Nat := p.first + (2 ^ p.host - 1)

/-- The last address of the range, as an address of the same family. -/
def Prefix.lastIP (p : Prefix) : Addr := ⟨p.addr.is4, p.last⟩

/-- Model of `netip.Prefix.Contains`: the address has the family of the prefix
and agrees with it on the network bits. -/
def Prefix.containsAddr (p : Prefix) (ip : Addr) : Bool :=
  p.addr.is4 == ip.is4 && ip.val / 2 ^ p.host == p.addr.val / 2 ^ p.host

/-- A prefix as Go's `netip` hands it to this package: the bit length fits the
family and the address value fits its width. -/
def Prefix.valid (p : Prefix) : Bool :=
  p.bits ≤ p.addr.width && p.addr.val < 2 ^ p.addr.width

/-- A canonical (masked) prefix: valid with all host bits zero.  `makeNode` and
`Delete` canonicalize with `Masked`, so every prefix stored in a treap is
canonical. -/
def Prefix.isCanon (p : Prefix) : Bool :=
  p.valid && p.addr.val % 2 ^ p.host == 0

/-- Model of `compare` in treap.go: compare two prefixes by the left address of
their ranges and, at equal left address, sort the superset (smaller bit count)
to the left. -/
def compare (a b : Prefix) : Int :=
  if a = b then 0
  else
    let ll := a.addr.compare b.addr
    if ll ≠ 0 then ll
    else cmpNat a.bits b.bits

/-- Model of `cmpRR` in treap.go: compare the last addresses of two prefixes. -/
def cmpRR (a b : Prefix) : Int :=
  if a = b then 0 else a.lastIP.compare b.lastIP

/-- Model of `ipTooBig` in treap.go: the address is beyond the last address of
the prefix. -/
def ipTooBig (ip : Addr) (other : Prefix) : Bool :=
  decide (ip.compare other.lastIP > 0)

/-- Model of `pfxTooBig` in treap.go: the last address of `pfx` is beyond the
last address of `other`. -/
def pfxTooBig (pfx : Prefix) (other : Prefix) : Bool :=
  ipTooBig pfx.lastIP other

/-- Model of the treap `node` of treap.go.  The source's `maxUpper` field is a
pointer to a node of the subtree, but every use reads only its `cidr`, so the
model stores that prefix. -/
inductive Node (α : Type) where
  | nil : Node α
  | node (maxUpper : Prefix) (left : Node α) (right : Node α) (value : α)
      (cidr : Prefix) (prio : Nat) : Node α
deriving DecidableEq, Repr

/-- The `maxUpper` value that `node.recalc` computes: start from the node's own
cidr, then take the right child's `maxUpper` if it compares strictly greater
under `cmpRR`, then likewise the left child's, exactly in the source's order. -/
def calcMaxUpper (l : Node α) (c : Prefix) (r : Node α) : Prefix :=
  let m1 : Prefix := c
  let m2 : Prefix :=
    match r with
    | .nil => m1
    | .node rmU _ _ _ _ _ => if cmpRR rmU m1 > 0 then rmU else m1
  match l with
  | .nil => m2
  | .node lmU _ _ _ _ _ => if cmpRR lmU m2 > 0 then lmU else m2

/-- Model of `node.recalc`: recompute the root's augmented `maxUpper` field from
the (already correct) fields of its direct children. -/
def Node.recalc : Node α → Node α
  | .nil => .nil
  | .node _ l r v c p => .node (calcMaxUpper l c r) l r v c p

/-- Assemble a node from children and payload and `recalc` it, the combination
the source performs after every structural change. -/
def newNode (l r : Node α) (v : α) (c : Prefix) (p : Nat) : Node α :=
  Node.recalc (.node c l r v c p)

/-- Model of `makeNode`: the prefix is stored in canonical (masked) form; the
priority, drawn from `mrand.Uint64()` in the source, is an explicit parameter. -/
def makeNode (pfx : Prefix) (v : α) (prio : Nat) : Node α :=
  newNode .nil .nil v pfx.masked prio

/-- Number of nodes of a treap (for termination measures). -/
def Node.size : Node α → Nat
  | .nil => 0
  | .node _ l r _ _ _ => l.size + r.size + 1

/-- Model of `node.split`: partition a treap into the parts strictly below,
equal to, and strictly above the given prefix.  The source's `immutable` flag
only controls copy-on-write aliasing and never the computed value, so it is
dropped here (the heap model below keeps it). -/
def Node.split : Node α → Prefix → Node α × Node α × Node α
  | .nil, _ => (.nil, .nil, .nil)
  | .node _ nl nr v c p, cidr =>
    let cmp := compare c cidr
    if cmp < 0 then
      let t := nr.split cidr
      (newNode nl t.1 v c p, t.2.1, t.2.2)
    else if cmp > 0 then
      let t := nl.split cidr
      (t.1, t.2.1, newNode t.2.2 nr v c p)
    else
      (nl, newNode .nil .nil v c p, nr)

theorem Node.size_recalc (n : Node α) : n.recalc.size = n.size := by
  cases n <;> rfl

theorem Node.size_newNode (l r : Node α) (v : α) (c : Prefix) (p : Nat) :
    (newNode l r v c p).size = l.size + r.size + 1 := by
  simp [newNode, Node.size_recalc, Node.size]

theorem Node.size_split (n : Node α) (c : Prefix) :
    (n.split c).1.size + ((n.split c).2.1.size + (n.split c).2.2.size) = n.size := by
  induction n with
  | nil => simp [Node.split, Node.size]
  | node mU l r v c' p ihl ihr =>
    simp only [Node.split]
    rcases lt_trichotomy (compare c' c) 0 with h | h | h
    · simp [h, Node.size_newNode, Node.size]; omega
    · simp [h, Node.size_newNode, Node.size]; omega
    · have h1 : ¬ compare c' c < 0 := by omega
      simp [h1, h, Node.size_newNode, Node.size]; omega

/-- Model of `node.join`: merge two treaps, all keys of the first below all keys
of the second; the root of higher priority wins (ties go to the second, as in
the source where `n.prio > m.prio` fails on equality). -/
def Node.join : Node α → Node α → Node α
  | .nil, m => m
  | n, .nil => n
  | .node nmU nl nr nv nc np, .node mmU ml mr mv mc mp =>
    if np > mp then
      newNode nl (nr.join (.node mmU ml mr mv mc mp)) nv nc np
    else
      newNode ((Node.node nmU nl nr nv nc np).join ml) mr mv mc mp
termination_by n m => n.size + m.size
decreasing_by
  · simp [Node.size]; omega
  · simp [Node.size]; omega

/-- Model of `node.insert`: insert a freshly made node `m` into the treap.  The
`m = nil` case never arises in the source (callers pass `makeNode` results) and
is a no-op here. -/
def Node.insert : Node α → Node α → Node α
  | .nil, m => m
  | n@(.node _ _ _ _ _ _), .nil => n
  | .node nmU nl nr nv nc np, .node mmU ml mr mv mc mp =>
    if mp ≥ np then
      let t := (Node.node nmU nl nr nv nc np : Node α).split mc
      match t.2.1 with
      | .node _ _ _ _ _ _ => t.1.join ((Node.node mmU ml mr mv mc mp).join t.2.2)
      | .nil => newNode t.1 t.2.2 mv mc mp
    else
      let cmp := compare mc nc
      if cmp = 0 then nl.join ((Node.node mmU ml mr mv mc mp).join nr)
      else if cmp < 0 then newNode (nl.insert (.node mmU ml mr mv mc mp)) nr nv nc np
      else newNode nl (nr.insert (.node mmU ml mr mv mc mp)) nv nc np

/-- The replacement prefix for a union root when a duplicate was split out: the
source's `if overwrite && dupe != nil` assignment to `n.cidr`. -/
def dupeCidr (dupe : Node α) (c : Prefix) (ow : Bool) : Prefix :=
  match dupe with
  | .node _ _ _ _ dc _ => if ow then dc else c
  | .nil => c

/-- The replacement value for a union root when a duplicate was split out: the
source's `if overwrite && dupe != nil` assignment to `n.value`. -/
def dupeVal (dupe : Node α) (v : α) (ow : Bool) : α :=
  match dupe with
  | .node _ _ _ dv _ _ => if ow then dv else v
  | .nil => v

/-- Model of `node.union`: the root of higher priority survives (the receiver on
ties); when the treaps are swapped the `overwrite` flag is flipped, exactly as
in the source. -/
def Node.union : Node α → Node α → Bool → Node α
  | .nil, b, _ => b
  | n@(.node _ _ _ _ _ _), .nil, _ => n
  | .node nmU nl nr nv nc np, .node bmU bl br bv bc bp, overwrite =>
    if np < bp then
      newNode
        (bl.union ((Node.node nmU nl nr nv nc np : Node α).split bc).1 (!overwrite))
        (br.union ((Node.node nmU nl nr nv nc np : Node α).split bc).2.2 (!overwrite))
        (dupeVal ((Node.node nmU nl nr nv nc np : Node α).split bc).2.1 bv (!overwrite))
        (dupeCidr ((Node.node nmU nl nr nv nc np : Node α).split bc).2.1 bc (!overwrite))
        bp
    else
      newNode
        (nl.union ((Node.node bmU bl br bv bc bp : Node α).split nc).1 overwrite)
        (nr.union ((Node.node bmU bl br bv bc bp : Node α).split nc).2.2 overwrite)
        (dupeVal ((Node.node bmU bl br bv bc bp : Node α).split nc).2.1 nv overwrite)
        (dupeCidr ((Node.node bmU bl br bv bc bp : Node α).split nc).2.1 nc overwrite)
        np
termination_by n b _ => n.size + b.size
decreasing_by
  · have h := Node.size_split (Node.node nmU nl nr nv nc np : Node α) bc
    simp [Node.size] at h ⊢; omega
  · have h := Node.size_split (Node.node nmU nl nr nv nc np : Node α) bc
    simp [Node.size] at h ⊢; omega
  · have h := Node.size_split (Node.node bmU bl br bv bc bp : Node α) nc
    simp [Node.size] at h ⊢; omega
  · have h := Node.size_split (Node.node bmU bl br bv bc bp : Node α) nc
    simp [Node.size] at h ⊢; omega

/-- Model of `node.lpmIP`.  The source's iterative descent loop (go left while
the node's address is above `ip`) is the tail `else` branch; the `depth`
counter, discarded by `Lookup`, is omitted. -/
def Node.lpmIP : Node α → Addr → Option (Prefix × α)
  | .nil, _ => none
  | .node mU l r v c _, ip =>
    if ipTooBig ip mU then none
    else if c.addr.compare ip ≤ 0 then
      match r.lpmIP ip with
      | some res => some res
      | none => if c.containsAddr ip then some (c, v) else l.lpmIP ip
    else
      l.lpmIP ip

/-- Model of `node.lpmCIDR`, with the same loop-to-recursion reading as
`lpmIP`; the exact-equality case short-circuits inside the loop. -/
def Node.lpmCIDR : Node α → Prefix → Option (Prefix × α)
  | .nil, _ => none
  | .node mU l r v c _, pfx =>
    if pfxTooBig pfx mU then none
    else
      let cmp := compare c pfx
      if cmp = 0 then some (c, v)
      else if cmp < 0 then
        match r.lpmCIDR pfx with
        | some res => some res
        | none =>
          if c = pfx then some (c, v)
          else if c.containsAddr pfx.addr then some (c, v)
          else l.lpmCIDR pfx
      else
        l.lpmCIDR pfx

/-- Model of `node.walk`: in-order traversal with early exit.  The callback is
modelled with explicit state threading so that the sequence of callback
invocations is observable; the boolean is the source's return value. -/
def Node.walk {σ : Type} (cb : σ → Prefix → α → σ × Bool) : Node α → σ → σ × Bool
  | .nil, s => (s, true)
  | .node _ l r v c _, s =>
    let t1 := l.walk cb s
    if !t1.2 then (t1.1, false)
    else
      let t2 := cb t1.1 c v
      if !t2.2 then (t2.1, false)
      else r.walk cb t2.1

/-- Model of `node.clone`: deep copy; each copied node is `recalc`ed. -/
def Node.clone : Node α → Node α
  | .nil => .nil
  | .node _ l r v c p => newNode l.clone r.clone v c p

/-- Whether a node pointer is `nil` (Go's `m != nil` tests). -/
def Node.isNil : Node α → Bool
  | .nil => true
  | .node _ _ _ _ _ _ => false

/-- Model of the `Table` struct: one treap per IP family. -/
structure Table (α : Type) where
  root4 : Node α
  root6 : Node α
deriving DecidableEq, Repr

/-- The zero value of `Table`: both roots nil. -/
def Table.empty : Table α := ⟨.nil, .nil⟩

/-- Model of `Table.Insert` (the in-place variant): dispatch on the family of
the prefix. -/
def Table.Insert (t : Table α) (pfx : Prefix) (val : α) (prio : Nat) : Table α :=
  if pfx.addr.is4 then ⟨t.root4.insert (makeNode pfx val prio), t.root6⟩
  else ⟨t.root4, t.root6.insert (makeNode pfx val prio)⟩

/-- Model of `Table.InsertImmutable`.  At the value level it computes the same
table as `Insert`; the copy-on-write flag it passes in the source only affects
node sharing, which the heap model at the end of this file captures. -/
def Table.InsertImmutable (t : Table α) (pfx : Prefix) (val : α) (prio : Nat) : Table α :=
  if pfx.addr.is4 then ⟨t.root4.insert (makeNode pfx val prio), t.root6⟩
  else ⟨t.root4, t.root6.insert (makeNode pfx val prio)⟩

/-- Model of `Table.Delete`: canonicalize, split around the prefix, join the
outer parts back; found means the middle part is not nil. -/
def Table.Delete (t : Table α) (pfx : Prefix) : Table α × Bool :=
  let q := pfx.masked
  let n := if q.addr.is4 then t.root4 else t.root6
  let s := n.split q
  let n2 := s.1.join s.2.2
  (if q.addr.is4 then ⟨n2, t.root6⟩ else ⟨t.root4, n2⟩, !s.2.1.isNil)

/-- Model of `Table.DeleteImmutable`; at the value level identical to `Delete`. -/
def Table.DeleteImmutable (t : Table α) (pfx : Prefix) : Table α × Bool :=
  let q := pfx.masked
  let n := if q.addr.is4 then t.root4 else t.root6
  let s := n.split q
  let n2 := s.1.join s.2.2
  (if q.addr.is4 then ⟨n2, t.root6⟩ else ⟨t.root4, n2⟩, !s.2.1.isNil)

/-- Model of `Table.Union`: per-family union with `overwrite = true` (duplicate
values are taken from the other table). -/
def Table.Union (t other : Table α) : Table α :=
  ⟨t.root4.union other.root4 true, t.root6.union other.root6 true⟩

/-- Model of `Table.UnionImmutable`; at the value level identical to `Union`. -/
def Table.UnionImmutable (t other : Table α) : Table α :=
  ⟨t.root4.union other.root4 true, t.root6.union other.root6 true⟩

/-- Model of `Table.Clone`. -/
def Table.Clone (t : Table α) : Table α :=
  ⟨t.root4.clone, t.root6.clone⟩

/-- Model of `Table.Lookup`: longest-prefix match for an address, on the root
of the address's family. -/
def Table.Lookup (t : Table α) (ip : Addr) : Option (Prefix × α) :=
  if ip.is4 then t.root4.lpmIP ip else t.root6.lpmIP ip

/-- Model of `Table.LookupPrefix`: longest-prefix match for a prefix, on the
root of the prefix's family. -/
def Table.LookupPrefix (t : Table α) (pfx : Prefix) : Option (Prefix × α) :=
  if pfx.addr.is4 then t.root4.lpmCIDR pfx else t.root6.lpmCIDR pfx

/-- Model of `Table.Walk`: walk the IPv4 treap, and the IPv6 treap only if the
callback did not abort. -/
def Table.Walk {σ : Type} (t : Table α) (cb : σ → Prefix → α → σ × Bool) (s : σ) : σ × Bool :=
  let t4 := t.root4.walk cb s
  if !t4.2 then (t4.1, false) else t.root6.walk cb t4.1

/-! ### Order lemmas for the comparison functions -/

theorem cmpNat_lt_iff {x y : Nat} : cmpNat x y < 0 ↔ x < y := by
  simp only [cmpNat]; split <;> (try split) <;> omega

theorem cmpNat_pos_iff {x y : Nat} : 0 < cmpNat x y ↔ y < x := by
  simp only [cmpNat]; split <;> (try split) <;> omega

theorem cmpNat_eq_zero_iff {x y : Nat} : cmpNat x y = 0 ↔ x = y := by
  simp only [cmpNat]; split <;> (try split) <;> omega

theorem cmpNat_neg (x y : Nat) : cmpNat x y = -cmpNat y x := by
  simp only [cmpNat]; split <;> (try split) <;> (try split) <;> (try split) <;> omega

theorem Addr.cmp_lt_iff {a b : Addr} :
    a.compare b < 0 ↔ (a.is4 = true ∧ b.is4 = false) ∨ (a.is4 = b.is4 ∧ a.val < b.val) := by
  obtain ⟨a4, av⟩ := a; obtain ⟨b4, bv⟩ := b
  cases a4 <;> cases b4 <;> simp [Addr.compare, cmpNat_lt_iff]

theorem Addr.cmp_eq_zero_iff {a b : Addr} : a.compare b = 0 ↔ a = b := by
  obtain ⟨a4, av⟩ := a; obtain ⟨b4, bv⟩ := b
  cases a4 <;> cases b4 <;> simp [Addr.compare, cmpNat_eq_zero_iff, Addr.mk.injEq]

theorem Addr.cmp_neg (a b : Addr) : a.compare b = -(b.compare a) := by
  obtain ⟨a4, av⟩ := a; obtain ⟨b4, bv⟩ := b
  cases a4 <;> cases b4 <;> simp [Addr.compare] <;> exact cmpNat_neg _ _

theorem Addr.cmp_pos_iff {a b : Addr} : 0 < a.compare b ↔ b.compare a < 0 := by
  rw [Addr.cmp_neg a b]; omega

theorem Addr.cmp_self (a : Addr) : a.compare a = 0 := Addr.cmp_eq_zero_iff.mpr rfl

theorem Addr.cmp_lt_trans {a b c : Addr} (h1 : a.compare b < 0) (h2 : b.compare c < 0) :
    a.compare c < 0 := by
  rw [Addr.cmp_lt_iff] at h1 h2 ⊢
  rcases h1 with ⟨h1a, h1b⟩ | ⟨h1a, h1b⟩ <;> rcases h2 with ⟨h2a, h2b⟩ | ⟨h2a, h2b⟩ <;>
    simp_all <;> omega

theorem Addr.cmp_le_trans {a b c : Addr} (h1 : a.compare b ≤ 0) (h2 : b.compare c ≤ 0) :
    a.compare c ≤ 0 := by
  rcases (le_iff_lt_or_eq.mp h1) with h | h
  · rcases (le_iff_lt_or_eq.mp h2) with h' | h'
    · exact le_of_lt (Addr.cmp_lt_trans h h')
    · rw [Addr.cmp_eq_zero_iff.mp h'] at h; exact le_of_lt h
  · rw [Addr.cmp_eq_zero_iff.mp h]; exact h2

theorem compare_eq_zero_iff {a b : Prefix} : compare a b = 0 ↔ a = b := by
  simp only [compare]
  split
  · simp_all
  · rename_i hne
    constructor
    · intro h
      split at h
      · exact absurd h (by assumption)
      · rename_i hll
        have haddr : a.addr = b.addr := Addr.cmp_eq_zero_iff.mp (by omega)
        have hbits : a.bits = b.bits := cmpNat_eq_zero_iff.mp h
        have : a = b := by cases a; cases b; simp_all
        exact absurd this hne
    · intro h; exact absurd h hne

theorem compare_self (a : Prefix) : compare a a = 0 := compare_eq_zero_iff.mpr rfl

theorem compare_lt_iff {a b : Prefix} :
    compare a b < 0 ↔ a.addr.compare b.addr < 0 ∨ (a.addr = b.addr ∧ a.bits < b.bits) := by
  simp only [compare]
  split
  · rename_i h; subst h
    simp [Addr.cmp_self]
  · rename_i hne
    split
    · rename_i hll
      constructor
      · intro h; exact Or.inl h
      · rintro (h | ⟨h, _⟩)
        · exact h
        · rw [h, Addr.cmp_self] at hll; exact absurd rfl hll
    · rename_i hll
      push_neg at hll
      have haddr : a.addr = b.addr := Addr.cmp_eq_zero_iff.mp hll
      simp [haddr, Addr.cmp_self, cmpNat_lt_iff]

theorem compare_neg (a b : Prefix) : compare a b = -(compare b a) := by
  simp only [compare]
  split
  · rename_i h; subst h; simp
  · rename_i hne
    have hne' : ¬ b = a := fun h => hne h.symm
    simp only [hne', if_false]
    rw [Addr.cmp_neg a.addr b.addr]
    split
    · rename_i h
      have : ¬ (b.addr.compare a.addr = 0) := by omega
      simp [this]
    · rename_i h
      have h0 : b.addr.compare a.addr = 0 := by omega
      simp [h0, cmpNat_neg a.bits b.bits]

theorem compare_pos_iff {a b : Prefix} : 0 < compare a b ↔ compare b a < 0 := by
  rw [compare_neg a b]; omega

theorem compare_lt_trans {a b c : Prefix} (h1 : compare a b < 0) (h2 : compare b c < 0) :
    compare a c < 0 := by
  rw [compare_lt_iff] at h1 h2 ⊢
  rcases h1 with h1 | ⟨h1, h1'⟩ <;> rcases h2 with h2 | ⟨h2, h2'⟩
  · exact Or.inl (Addr.cmp_lt_trans h1 h2)
  · rw [← h2]; exact Or.inl h1
  · rw [h1]; exact Or.inl h2
  · exact Or.inr ⟨h1.trans h2, h1'.trans h2'⟩

theorem cmpRR_le_last {a b : Prefix} (h : cmpRR a b ≤ 0) : a.lastIP.compare b.lastIP ≤ 0 := by
  simp only [cmpRR] at h
  split at h
  · rename_i he; subst he; simp [Addr.cmp_self]
  · exact h

theorem cmpRR_not_pos_le {a b : Prefix} (h : ¬ cmpRR a b > 0) :
    a.lastIP.compare b.lastIP ≤ 0 := cmpRR_le_last (by omega)

/-! ### Dyadic range arithmetic -/

theorem two_pow_pos (h : Nat) : 0 < 2 ^ h := Nat.pos_pow_of_pos _ (by omega)

/-- Arithmetic core of block nesting: a multiple `B` of `m` lying inside the
aligned block of size `m * e` starting at `A` fits entirely, with room for a
sub-block of size `m`. -/
theorem block_nested {m e A B : Nat} (hm : 0 < m) (he : 0 < e)
    (hA : m * e ∣ A) (hB : m ∣ B) (h1 : A ≤ B) (h2 : B ≤ A + (m * e - 1)) :
    B + (m - 1) ≤ A + (m * e - 1) := by
  obtain ⟨a, ha⟩ := hA
  obtain ⟨b, hb⟩ := hB
  have hme : 0 < m * e := by positivity
  have hblt : m * b < m * (e * a + e) := by
    have hring : m * (e * a + e) = m * e * a + m * e := by ring
    omega
  have hb' : b < e * a + e := Nat.lt_of_mul_lt_mul_left hblt
  have hmono : m * (b + 1) ≤ m * (e * a + e) := Nat.mul_le_mul_left m hb'
  have hr1 : m * (b + 1) = m * b + m := by ring
  have hr2 : m * (e * a + e) = m * e * a + m * e := by ring
  omega

/-- Arithmetic core of block alignment: two distinct multiples of `m` are at
least `m` apart, so the later one cannot lie inside the block of the earlier. -/
theorem block_start_apart {m A B : Nat} (hm : 0 < m) (hA : m ∣ A) (hB : m ∣ B)
    (h1 : A < B) (h2 : B ≤ A + (m - 1)) : False := by
  obtain ⟨a, ha⟩ := hA
  obtain ⟨b, hb⟩ := hB
  have hab : a < b := by
    by_contra hcon
    push_neg at hcon
    have : m * b ≤ m * a := Nat.mul_le_mul_left m hcon
    omega
  have : m * (a + 1) ≤ m * b := Nat.mul_le_mul_left m hab
  have hr : m * (a + 1) = m * a + m := by ring
  omega

theorem Prefix.first_eq_of_isCanon {p : Prefix} (h : p.isCanon = true) :
    p.first = p.addr.val := by
  simp only [Prefix.isCanon, Prefix.valid, Bool.and_eq_true, beq_iff_eq,
    decide_eq_true_eq] at h
  have hdvd : 2 ^ p.host ∣ p.addr.val := Nat.dvd_of_mod_eq_zero h.2
  simp only [Prefix.first]
  exact Nat.div_mul_cancel hdvd

theorem Prefix.first_le_last (p : Prefix) : p.first ≤ p.last := by
  simp only [Prefix.last]; omega

theorem Prefix.last_eq (p : Prefix) : p.last = p.first + (2 ^ p.host - 1) := rfl

theorem Prefix.pow_dvd_first (p : Prefix) : 2 ^ p.host ∣ p.first :=
  ⟨p.addr.val / 2 ^ p.host, by simp only [Prefix.first]; ring⟩

/-- Division-range characterization of `containsAddr`: for same-family
addresses, containment is membership of the address value in the interval from
the first to the last covered address. -/
theorem Prefix.containsAddr_iff {p : Prefix} {ip : Addr} (hfam : p.addr.is4 = ip.is4) :
    p.containsAddr ip = true ↔ p.first ≤ ip.val ∧ ip.val ≤ p.last := by
  have hpos : 0 < 2 ^ p.host := two_pow_pos _
  simp only [Prefix.containsAddr, Bool.and_eq_true, beq_iff_eq, hfam, true_and,
    Prefix.first, Prefix.last]
  constructor
  · intro h'
    constructor
    · rw [← h']; exact Nat.div_mul_le_self _ _
    · rw [← h']
      have e1 := Nat.div_add_mod ip.val (2 ^ p.host)
      have e2 : ip.val % 2 ^ p.host < 2 ^ p.host := Nat.mod_lt _ hpos
      have e3 : 2 ^ p.host * (ip.val / 2 ^ p.host) = ip.val / 2 ^ p.host * 2 ^ p.host := by
        ring
      omega
  · rintro ⟨h1, h2⟩
    have hr : (p.addr.val / 2 ^ p.host + 1) * 2 ^ p.host
        = p.addr.val / 2 ^ p.host * 2 ^ p.host + 2 ^ p.host := by ring
    have hup : ip.val < (p.addr.val / 2 ^ p.host + 1) * 2 ^ p.host := by omega
    have := Nat.div_eq_of_lt_le h1 hup
    simp [this]

/-- Block nesting at the prefix level: if the no-longer prefix `c` covers the
first address of `q`, it covers the whole range of `q` (same family). -/
theorem Prefix.nested_of_first_mem {c q : Prefix} (hfam : c.addr.is4 = q.addr.is4)
    (hbits : c.bits ≤ q.bits) (h1 : c.first ≤ q.first) (h2 : q.first ≤ c.last) :
    q.last ≤ c.last := by
  have hw : c.addr.width = q.addr.width := by simp [Addr.width, hfam]
  have hhost : q.host ≤ c.host := by
    simp only [Prefix.host, hw]; omega
  obtain ⟨e, he⟩ : 2 ^ q.host ∣ 2 ^ c.host := pow_dvd_pow 2 hhost
  have hqpos : 0 < 2 ^ q.host := two_pow_pos _
  have hcpos : 0 < 2 ^ c.host := two_pow_pos _
  have hepos : 0 < e := by
    rcases Nat.eq_zero_or_pos e with h | h
    · rw [h, Nat.mul_zero] at he; omega
    · exact h
  have hA : 2 ^ q.host * e ∣ c.first := by rw [← he]; exact c.pow_dvd_first
  have key := block_nested hqpos hepos hA q.pow_dvd_first h1 (by rw [c.last_eq, he] at h2; exact h2)
  rw [c.last_eq, q.last_eq, he]
  exact key

/-- Block alignment at the prefix level: a strictly longer prefix `c` starting
before `q` cannot cover the first address of `q` (same family). -/
theorem Prefix.not_small_covers_start {c q : Prefix} (hfam : c.addr.is4 = q.addr.is4)
    (hbits : q.bits < c.bits) (h1 : c.first < q.first) (h2 : q.first ≤ c.last) :
    False := by
  have hw : c.addr.width = q.addr.width := by simp [Addr.width, hfam]
  have hhost : c.host ≤ q.host := by
    simp only [Prefix.host, hw]; omega
  have hcpos : 0 < 2 ^ c.host := two_pow_pos _
  have hB : 2 ^ c.host ∣ q.first := dvd_trans (pow_dvd_pow 2 hhost) q.pow_dvd_first
  exact block_start_apart hcpos c.pow_dvd_first hB h1 (by rw [c.last_eq] at h2; exact h2)

/-- A range-superset has no more bits than its subset (same family, bit lengths
within the family width). -/
theorem Prefix.bits_le_of_rangeSub {c q : Prefix} (hfam : c.addr.is4 = q.addr.is4)
    (hcv : c.bits ≤ c.addr.width) (hqv : q.bits ≤ q.addr.width)
    (h1 : c.first ≤ q.first) (h2 : q.last ≤ c.last) : c.bits ≤ q.bits := by
  have hw : c.addr.width = q.addr.width := by simp [Addr.width, hfam]
  have hqpos : 0 < 2 ^ q.host := two_pow_pos _
  have hcpos : 0 < 2 ^ c.host := two_pow_pos _
  have hql := q.last_eq
  have hcl := c.last_eq
  have hpow : 2 ^ q.host ≤ 2 ^ c.host := by omega
  have hhost : q.host ≤ c.host := (Nat.pow_le_pow_iff_right (by omega)).mp hpow
  simp only [Prefix.host, hw] at hhost
  omega

/-! ### Observable contents and structural invariants -/

/-- The entries of a treap in symmetric (in-order, hence ascending) order: the
pairs an aborting-free `Walk` visits. -/
def Node.entries : Node α → List (Prefix × α)
  | .nil => []
  | .node _ l r v c _ => l.entries ++ (c, v) :: r.entries

/-- The stored prefixes, in symmetric order. -/
def Node.keys (n : Node α) : List Prefix := n.entries.map Prod.fst

/-- All stored prefixes satisfy `f`. -/
def Node.allKeys (f : Prefix → Bool) : Node α → Bool
  | .nil => true
  | .node _ l r _ c _ => f c && l.allKeys f && r.allKeys f

/-- Binary-search-tree invariant under `compare`: at every node, all keys of
the left subtree compare less than the node's key and all keys of the right
subtree compare greater. -/
def Node.bstOk : Node α → Bool
  | .nil => true
  | .node _ l r _ c _ =>
      l.allKeys (fun k => decide (compare k c < 0)) &&
      r.allKeys (fun k => decide (compare c k < 0)) &&
      l.bstOk && r.bstOk

/-- The root's priority (if any) is at most `k`. -/
def Node.prioLe (k : Nat) : Node α → Bool
  | .nil => true
  | .node _ _ _ _ _ p => decide (p ≤ k)

/-- Max-heap invariant on priorities: every node's priority is at least the
priority of each direct child. -/
def Node.heapOk : Node α → Bool
  | .nil => true
  | .node _ l r _ _ p => l.prioLe p && r.prioLe p && l.heapOk && r.heapOk

/-- Local augmentation invariant: at every node the stored `maxUpper` equals
what `recalc` computes from the children. -/
def Node.augOk : Node α → Bool
  | .nil => true
  | .node mU l r _ c _ => decide (mU = calcMaxUpper l c r) && l.augOk && r.augOk

/-- Global augmentation property, as the specification states it: at every node
the stored `maxUpper` is the prefix of a node of the subtree, and no prefix of
the subtree has a larger last address. -/
def Node.augMaxOk : Node α → Bool
  | .nil => true
  | .node mU l r _ c _ =>
      ((l.keys ++ c :: r.keys).contains mU) &&
      ((l.keys ++ c :: r.keys).all fun k => decide (k.lastIP.compare mU.lastIP ≤ 0)) &&
      l.augMaxOk && r.augMaxOk

/-- All stored prefixes are canonical. -/
def Node.canonOk : Node α → Bool := Node.allKeys Prefix.isCanon

/-- All stored prefixes belong to the family `b` (true for IPv4). -/
def Node.famOk (b : Bool) : Node α → Bool := Node.allKeys (fun k => k.addr.is4 == b)

/-- The bundled invariant of a per-family treap root. -/
def Node.inv (b : Bool) (n : Node α) : Bool :=
  n.bstOk && n.heapOk && n.augOk && n.canonOk && n.famOk b

/-- The bundled invariant of a table: each root holds its family's invariant. -/
def Table.inv (t : Table α) : Bool :=
  t.root4.inv true && t.root6.inv false

theorem Node.entries_recalc (n : Node α) : n.recalc.entries = n.entries := by
  cases n <;> rfl

theorem Node.entries_newNode (l r : Node α) (v : α) (c : Prefix) (p : Nat) :
    (newNode l r v c p).entries = l.entries ++ (c, v) :: r.entries := rfl

theorem Node.keys_node (mU : Prefix) (l r : Node α) (v : α) (c : Prefix) (p : Nat) :
    (Node.node mU l r v c p : Node α).keys = l.keys ++ c :: r.keys := by
  simp [Node.keys, Node.entries]

theorem Node.keys_newNode (l r : Node α) (v : α) (c : Prefix) (p : Nat) :
    (newNode l r v c p).keys = l.keys ++ c :: r.keys := by
  simp [newNode, Node.recalc, Node.keys_node]

theorem Node.allKeys_iff {f : Prefix → Bool} {n : Node α} :
    n.allKeys f = true ↔ ∀ k ∈ n.keys, f k = true := by
  induction n with
  | nil => simp [Node.allKeys, Node.keys, Node.entries]
  | node mU l r v c p ihl ihr =>
    simp only [Node.allKeys, Bool.and_eq_true, ihl, ihr, Node.keys_node,
      List.mem_append, List.mem_cons]
    constructor
    · rintro ⟨⟨hc, hl⟩, hr⟩ k hk
      rcases hk with hk | hk | hk
      · exact hl k hk
      · rw [hk]; exact hc
      · exact hr k hk
    · intro h
      exact ⟨⟨h c (Or.inr (Or.inl rfl)), fun k hk => h k (Or.inl hk)⟩,
        fun k hk => h k (Or.inr (Or.inr hk))⟩

theorem Node.allKeys_newNode {f : Prefix → Bool} {l r : Node α} {v : α} {c : Prefix}
    {p : Nat} :
    (newNode l r v c p).allKeys f = (f c && l.allKeys f && r.allKeys f) := by
  simp [newNode, Node.recalc, Node.allKeys]

theorem Node.allKeys_mono {f g : Prefix → Bool} {n : Node α}
    (h : ∀ k, f k = true → g k = true) (hf : n.allKeys f = true) :
    n.allKeys g = true :=
  Node.allKeys_iff.mpr (fun k hk => h k (Node.allKeys_iff.mp hf k hk))

theorem Node.allKeys_of_sub {f : Prefix → Bool} {n m : Node α}
    (hsub : ∀ k, k ∈ n.keys → k ∈ m.keys) (hf : m.allKeys f = true) :
    n.allKeys f = true :=
  Node.allKeys_iff.mpr (fun k hk => Node.allKeys_iff.mp hf k (hsub k hk))

theorem Node.prioLe_mono {j k : Nat} {n : Node α} (h : j ≤ k)
    (hp : n.prioLe j = true) : n.prioLe k = true := by
  cases n <;> simp [Node.prioLe] at * <;> omega

theorem Node.prioLe_newNode {l r : Node α} {v : α} {c : Prefix} {p k : Nat} :
    (newNode l r v c p).prioLe k = decide (p ≤ k) := by
  simp [newNode, Node.recalc, Node.prioLe]

theorem Node.heapOk_newNode {l r : Node α} {v : α} {c : Prefix} {p : Nat}
    (hl : l.heapOk = true) (hr : r.heapOk = true)
    (hlp : l.prioLe p = true) (hrp : r.prioLe p = true) :
    (newNode l r v c p).heapOk = true := by
  simp [newNode, Node.recalc, Node.heapOk, hl, hr, hlp, hrp]

theorem Node.augOk_newNode {l r : Node α} {v : α} {c : Prefix} {p : Nat}
    (hl : l.augOk = true) (hr : r.augOk = true) :
    (newNode l r v c p).augOk = true := by
  simp [newNode, Node.recalc, Node.augOk, hl, hr]

theorem Node.bstOk_newNode {l r : Node α} {v : α} {c : Prefix} {p : Nat}
    (hl : l.bstOk = true) (hr : r.bstOk = true)
    (hlk : l.allKeys (fun k => decide (compare k c < 0)) = true)
    (hrk : r.allKeys (fun k => decide (compare c k < 0)) = true) :
    (newNode l r v c p).bstOk = true := by
  simp [newNode, Node.recalc, Node.bstOk, hl, hr, hlk, hrk]

theorem Node.pairwise_entries {n : Node α} (h : n.bstOk = true) :
    n.entries.Pairwise (fun a b => compare a.1 b.1 < 0) := by
  induction n with
  | nil => simp [Node.entries]
  | node mU l r v c p ihl ihr =>
    simp only [Node.bstOk, Bool.and_eq_true] at h
    obtain ⟨⟨⟨hlk, hrk⟩, hbl⟩, hbr⟩ := h
    simp only [Node.entries]
    rw [List.pairwise_append]
    refine ⟨ihl hbl, ?_, ?_⟩
    · rw [List.pairwise_cons]
      refine ⟨?_, ihr hbr⟩
      intro b hb
      have hmem : b.1 ∈ r.keys := List.mem_map_of_mem Prod.fst hb
      simpa using Node.allKeys_iff.mp hrk b.1 hmem
    · intro a ha b hb
      have hac : compare a.1 c < 0 := by
        have hmem : a.1 ∈ l.keys := List.mem_map_of_mem Prod.fst ha
        simpa using Node.allKeys_iff.mp hlk a.1 hmem
      rcases List.mem_cons.mp hb with hbc | hbr'
      · rw [hbc]; exact hac
      · have hcb : compare c b.1 < 0 := by
          have hmem : b.1 ∈ r.keys := List.mem_map_of_mem Prod.fst hbr'
          simpa using Node.allKeys_iff.mp hrk b.1 hmem
        exact compare_lt_trans hac hcb

/-! ### The split suite -/

/-- Entry predicate: the key compares below `c`. -/
def ltE (c : Prefix) (e : Prefix × α) : Bool := decide (compare e.1 c < 0)

/-- Entry predicate: the key equals `c`. -/
def eqE (c : Prefix) (e : Prefix × α) : Bool := decide (compare e.1 c = 0)

/-- Entry predicate: the key compares above `c`. -/
def gtE (c : Prefix) (e : Prefix × α) : Bool := decide (compare c e.1 < 0)

theorem Node.keys_of_entries_sub {n m : Node α}
    (h : ∀ e, e ∈ n.entries → e ∈ m.entries) : ∀ k, k ∈ n.keys → k ∈ m.keys := by
  intro k hk
  simp only [Node.keys, List.mem_map] at hk ⊢
  obtain ⟨e, he, hek⟩ := hk
  exact ⟨e, h e he, hek⟩

theorem Node.entries_nil_iff {n : Node α} : n.entries = [] ↔ n = .nil := by
  cases n <;> simp [Node.entries]

/-- The full specification of `split` over a BST: the three parts carry exactly
the entries below, at, and above the split key, and each part is again a BST. -/
theorem Node.split_spec {c : Prefix} : ∀ {n : Node α}, n.bstOk = true →
    (n.split c).1.entries = n.entries.filter (ltE c) ∧
    (n.split c).2.1.entries = n.entries.filter (eqE c) ∧
    (n.split c).2.2.entries = n.entries.filter (gtE c) ∧
    (n.split c).1.bstOk = true ∧ (n.split c).2.1.bstOk = true ∧
    (n.split c).2.2.bstOk = true := by
  intro n
  induction n with
  | nil => intro _; simp [Node.split, Node.entries, Node.bstOk]
  | node mU l r v c0 p ihl ihr =>
    intro hb
    simp only [Node.bstOk, Bool.and_eq_true] at hb
    obtain ⟨⟨⟨hlk, hrk⟩, hbl⟩, hbr⟩ := hb
    have hel : ∀ e ∈ l.entries, compare e.1 c0 < 0 := by
      intro e he
      simpa using Node.allKeys_iff.mp hlk e.1 (List.mem_map_of_mem Prod.fst he)
    have her : ∀ e ∈ r.entries, compare c0 e.1 < 0 := by
      intro e he
      simpa using Node.allKeys_iff.mp hrk e.1 (List.mem_map_of_mem Prod.fst he)
    simp only [Node.split]
    rcases lt_trichotomy (compare c0 c) 0 with hcmp | hcmp | hcmp
    · -- node key below the split key: recurse right
      obtain ⟨ih1, ih2, ih3, ihb1, ihb2, ihb3⟩ := ihr hbr
      have hlt : ¬ (0 : Int) ≤ compare c0 c := by omega
      simp only [hcmp, if_pos, Node.entries, Node.entries_newNode]
      have hfl : l.entries.filter (ltE c) = l.entries :=
        List.filter_eq_self.mpr (fun e he => by
          simpa [ltE] using compare_lt_trans (hel e he) hcmp)
      have hfl0 : l.entries.filter (eqE c) = [] :=
        List.filter_eq_nil_iff.mpr (fun e he => by
          have := compare_lt_trans (hel e he) hcmp
          simp [eqE]; omega)
      have hfl2 : l.entries.filter (gtE c) = [] :=
        List.filter_eq_nil_iff.mpr (fun e he => by
          have h1 := compare_lt_trans (hel e he) hcmp
          have h2 := compare_neg e.1 c
          simp [gtE, compare_pos_iff]; omega)
      have hsubr : ∀ k, k ∈ (r.split c).1.keys → k ∈ r.keys := by
        apply Node.keys_of_entries_sub
        intro e he; rw [ih1] at he; exact List.mem_of_mem_filter he
      refine ⟨?_, ?_, ?_, ?_, ihb2, ihb3⟩
      · simp [List.filter_append, hfl, ih1, ltE, hcmp]
      · have hne : compare c0 c ≠ 0 := by omega
        simp [List.filter_append, hfl0, ih2, eqE, hne]
      · have : ¬ compare c c0 < 0 := by
          have := compare_neg c c0; omega
        simp [List.filter_append, hfl2, ih3, gtE, this]
      · exact Node.bstOk_newNode hbl ihb1 hlk
          (Node.allKeys_of_sub hsubr hrk)
    · -- node key equals the split key
      have h0 : ¬ compare c0 c < 0 := by omega
      have h1 : ¬ 0 < compare c0 c := by omega
      have hceq : c0 = c := compare_eq_zero_iff.mp hcmp
      simp only [h0, h1, if_neg, if_false, Node.entries]
      have hfl : l.entries.filter (ltE c) = l.entries :=
        List.filter_eq_self.mpr (fun e he => by
          have := hel e he; rw [hceq] at this; simpa [ltE] using this)
      have hfl0 : l.entries.filter (eqE c) = [] :=
        List.filter_eq_nil_iff.mpr (fun e he => by
          have := hel e he; rw [hceq] at this; simp [eqE]; omega)
      have hfl2 : l.entries.filter (gtE c) = [] :=
        List.filter_eq_nil_iff.mpr (fun e he => by
          have h1' := hel e he; rw [hceq] at h1'
          have h2 := compare_neg e.1 c
          simp [gtE, compare_pos_iff]; omega)
      have hfr : r.entries.filter (gtE c) = r.entries :=
        List.filter_eq_self.mpr (fun e he => by
          have := her e he; rw [hceq] at this; simpa [gtE] using this)
      have hfr0 : r.entries.filter (eqE c) = [] :=
        List.filter_eq_nil_iff.mpr (fun e he => by
          have h1' := her e he; rw [hceq] at h1'
          have h2 := compare_neg e.1 c
          simp [eqE]; omega)
      have hfr1 : r.entries.filter (ltE c) = [] :=
        List.filter_eq_nil_iff.mpr (fun e he => by
          have h1' := her e he; rw [hceq] at h1'
          have h2 := compare_neg e.1 c
          simp [ltE]; omega)
      refine ⟨?_, ?_, ?_, hbl, ?_, hbr⟩
      · simp [List.filter_append, hfl, hfr1, ltE, hcmp]
      · simp [List.filter_append, hfl0, hfr0, Node.entries_newNode, Node.entries,
          eqE, hcmp]
      · have : ¬ compare c c0 < 0 := by
          have := compare_neg c c0; omega
        simp [List.filter_append, hfl2, hfr, gtE, this]
      · simp [newNode, Node.recalc, Node.bstOk, Node.allKeys]
    · -- node key above the split key: recurse left
      obtain ⟨ih1, ih2, ih3, ihb1, ihb2, ihb3⟩ := ihl hbl
      have h0 : ¬ compare c0 c < 0 := by omega
      simp only [h0, hcmp, if_neg, if_pos, if_false, Node.entries, Node.entries_newNode]
      have hfr : r.entries.filter (gtE c) = r.entries :=
        List.filter_eq_self.mpr (fun e he => by
          simpa [gtE] using compare_lt_trans ((compare_pos_iff).mp hcmp) (her e he))
      have hfr0 : r.entries.filter (eqE c) = [] :=
        List.filter_eq_nil_iff.mpr (fun e he => by
          have h1' := compare_lt_trans ((compare_pos_iff).mp hcmp) (her e he)
          have h2 := compare_neg e.1 c
          simp [eqE]; omega)
      have hfr1 : r.entries.filter (ltE c) = [] :=
        List.filter_eq_nil_iff.mpr (fun e he => by
          have h1' := compare_lt_trans ((compare_pos_iff).mp hcmp) (her e he)
          have h2 := compare_neg e.1 c
          simp [ltE]; omega)
      have hsubl : ∀ k, k ∈ (l.split c).2.2.keys → k ∈ l.keys := by
        apply Node.keys_of_entries_sub
        intro e he; rw [ih3] at he; exact List.mem_of_mem_filter he
      refine ⟨?_, ?_, ?_, ihb1, ihb2, ?_⟩
      · have : ¬ compare c0 c < 0 := h0
        simp [List.filter_append, hfr1, ih1, ltE, this]
      · have : compare c0 c ≠ 0 := by omega
        simp [List.filter_append, hfr0, ih2, eqE, this]
      · have : compare c c0 < 0 := (compare_pos_iff).mp hcmp
        simp [List.filter_append, hfr, ih3, gtE, this]
      · exact Node.bstOk_newNode ihb3 hbr
          (Node.allKeys_of_sub hsubl hlk) hrk

theorem Node.split_augOk {c : Prefix} : ∀ {n : Node α}, n.augOk = true →
    (n.split c).1.augOk = true ∧ (n.split c).2.1.augOk = true ∧
    (n.split c).2.2.augOk = true := by
  intro n
  induction n with
  | nil => intro _; simp [Node.split, Node.augOk]
  | node mU l r v c0 p ihl ihr =>
    intro h
    simp only [Node.augOk, Bool.and_eq_true, decide_eq_true_eq] at h
    obtain ⟨⟨hm, hal⟩, har⟩ := h
    simp only [Node.split]
    rcases lt_trichotomy (compare c0 c) 0 with hcmp | hcmp | hcmp
    · obtain ⟨ih1, ih2, ih3⟩ := ihr har
      simp only [hcmp, if_pos]
      exact ⟨Node.augOk_newNode hal ih1, ih2, ih3⟩
    · have h0 : ¬ compare c0 c < 0 := by omega
      have h1 : ¬ 0 < compare c0 c := by omega
      simp only [h0, h1, if_neg, if_false]
      refine ⟨hal, ?_, har⟩
      exact Node.augOk_newNode (by simp [Node.augOk]) (by simp [Node.augOk])
    · obtain ⟨ih1, ih2, ih3⟩ := ihl hal
      have h0 : ¬ compare c0 c < 0 := by omega
      simp only [h0, hcmp, if_neg, if_pos, if_false]
      exact ⟨ih1, ih2, Node.augOk_newNode ih3 har⟩

theorem Node.split_heap {c : Prefix} : ∀ {n : Node α}, n.heapOk = true →
    ((n.split c).1.heapOk = true ∧ (n.split c).2.1.heapOk = true ∧
      (n.split c).2.2.heapOk = true) ∧
    ∀ k, n.prioLe k = true →
      (n.split c).1.prioLe k = true ∧ (n.split c).2.1.prioLe k = true ∧
      (n.split c).2.2.prioLe k = true := by
  intro n
  induction n with
  | nil =>
    intro _
    simp [Node.split, Node.heapOk, Node.prioLe]
  | node mU l r v c0 p ihl ihr =>
    intro h
    simp only [Node.heapOk, Bool.and_eq_true] at h
    obtain ⟨⟨⟨hlp, hrp⟩, hhl⟩, hhr⟩ := h
    simp only [Node.split]
    rcases lt_trichotomy (compare c0 c) 0 with hcmp | hcmp | hcmp
    · obtain ⟨⟨ih1, ih2, ih3⟩, ihk⟩ := ihr hhr
      simp only [hcmp, if_pos]
      obtain ⟨ihp1, ihp2, ihp3⟩ := ihk p hrp
      refine ⟨⟨Node.heapOk_newNode hhl ih1 hlp ihp1, ih2, ih3⟩, ?_⟩
      intro k hk
      simp only [Node.prioLe, decide_eq_true_eq] at hk
      obtain ⟨ihq1, ihq2, ihq3⟩ := ihk k (Node.prioLe_mono hk hrp)
      refine ⟨?_, ihq2, ihq3⟩
      rw [Node.prioLe_newNode]; simpa using hk
    · have h0 : ¬ compare c0 c < 0 := by omega
      have h1 : ¬ 0 < compare c0 c := by omega
      simp only [h0, h1, if_neg, if_false]
      refine ⟨⟨hhl, ?_, hhr⟩, ?_⟩
      · exact Node.heapOk_newNode (by simp [Node.heapOk]) (by simp [Node.heapOk])
          (by simp [Node.prioLe]) (by simp [Node.prioLe])
      · intro k hk
        simp only [Node.prioLe, decide_eq_true_eq] at hk
        refine ⟨Node.prioLe_mono hk hlp, ?_, Node.prioLe_mono hk hrp⟩
        rw [Node.prioLe_newNode]; simpa using hk
    · obtain ⟨⟨ih1, ih2, ih3⟩, ihk⟩ := ihl hhl
      have h0 : ¬ compare c0 c < 0 := by omega
      simp only [h0, hcmp, if_neg, if_pos, if_false]
      obtain ⟨ihp1, ihp2, ihp3⟩ := ihk p hlp
      refine ⟨⟨ih1, ih2, Node.heapOk_newNode ih3 hhr ihp3 hrp⟩, ?_⟩
      intro k hk
      simp only [Node.prioLe, decide_eq_true_eq] at hk
      obtain ⟨ihq1, ihq2, ihq3⟩ := ihk k (Node.prioLe_mono hk hlp)
      refine ⟨ihq1, ihq2, ?_⟩
      rw [Node.prioLe_newNode]; simpa using hk

/-! ### The join suite -/

theorem Node.join_entries (n m : Node α) :
    (n.join m).entries = n.entries ++ m.entries := by
  induction n, m using Node.join.induct with
  | case1 m => simp [Node.join, Node.entries]
  | case2 n h => cases n <;> simp [Node.join, Node.entries]
  | case3 nmU nl nr nv nc np mmU ml mr mv mc mp hgt ih =>
    rw [Node.join]
    simp only [hgt, if_pos, Node.entries_newNode, Node.entries, ih]
    simp
  | case4 nmU nl nr nv nc np mmU ml mr mv mc mp hle ih =>
    rw [Node.join]
    simp only [hle, if_neg, Node.entries_newNode, Node.entries, ih]
    simp

theorem Node.keys_join (n m : Node α) : (n.join m).keys = n.keys ++ m.keys := by
  simp [Node.keys, Node.join_entries]

/-- Preservation of all structural invariants by `join`, given the key
separation the source documents as `join`'s unchecked precondition. -/
theorem Node.join_pres : ∀ {n m : Node α}, n.bstOk = true → m.bstOk = true →
    n.heapOk = true → m.heapOk = true → n.augOk = true → m.augOk = true →
    (∀ kn ∈ n.keys, ∀ km ∈ m.keys, compare kn km < 0) →
    (n.join m).bstOk = true ∧ (n.join m).heapOk = true ∧ (n.join m).augOk = true ∧
    ∀ k, n.prioLe k = true → m.prioLe k = true → (n.join m).prioLe k = true := by
  intro n m
  induction n, m using Node.join.induct with
  | case1 m =>
    intro _ hbm _ hhm _ ham _
    simp only [Node.join]
    exact ⟨hbm, hhm, ham, fun k _ h => h⟩
  | case2 n h =>
    intro hbn _ hhn _ han _ _
    cases n <;> simp only [Node.join] <;> exact ⟨hbn, hhn, han, fun k h _ => h⟩
  | case3 nmU nl nr nv nc np mmU ml mr mv mc mp hgt ih =>
    intro hbn hbm hhn hhm han ham hsep
    simp only [Node.bstOk, Bool.and_eq_true] at hbn
    obtain ⟨⟨⟨hlk, hrk⟩, hbnl⟩, hbnr⟩ := hbn
    simp only [Node.heapOk, Bool.and_eq_true] at hhn
    obtain ⟨⟨⟨hlp, hrp⟩, hhnl⟩, hhnr⟩ := hhn
    simp only [Node.augOk, Bool.and_eq_true, decide_eq_true_eq] at han
    obtain ⟨⟨hmU, hanl⟩, hanr⟩ := han
    have hsep' : ∀ kn ∈ nr.keys, ∀ km ∈ (Node.node mmU ml mr mv mc mp : Node α).keys,
        compare kn km < 0 := by
      intro kn hkn km hkm
      exact hsep kn (by simp [Node.keys_node, hkn]) km hkm
    obtain ⟨ihb, ihh, iha, ihp⟩ := ih hbnr hbm hhnr hhm hanr ham hsep'
    have hjk : (nr.join (Node.node mmU ml mr mv mc mp : Node α)).keys
        = nr.keys ++ (Node.node mmU ml mr mv mc mp : Node α).keys := Node.keys_join _ _
    rw [Node.join, if_pos hgt]
    have hja : (nr.join (Node.node mmU ml mr mv mc mp : Node α)).allKeys
        (fun k => decide (compare nc k < 0)) = true := by
      rw [Node.allKeys_iff]
      intro k hk
      rw [hjk, List.mem_append] at hk
      rcases hk with hk | hk
      · exact Node.allKeys_iff.mp hrk k hk
      · have := hsep nc (by simp [Node.keys_node]) k hk
        simpa using this
    have hjp : (nr.join (Node.node mmU ml mr mv mc mp : Node α)).prioLe np = true := by
      exact ihp np hrp (by simp [Node.prioLe]; omega)
    refine ⟨Node.bstOk_newNode hbnl ihb hlk hja,
      Node.heapOk_newNode hhnl ihh hlp hjp,
      Node.augOk_newNode hanl iha, ?_⟩
    intro k hk _
    rw [Node.prioLe_newNode]
    simp only [Node.prioLe, decide_eq_true_eq] at hk
    simpa using hk
  | case4 nmU nl nr nv nc np mmU ml mr mv mc mp hle ih =>
    intro hbn hbm hhn hhm han ham hsep
    simp only [Node.bstOk, Bool.and_eq_true] at hbm
    obtain ⟨⟨⟨hlk, hrk⟩, hbml⟩, hbmr⟩ := hbm
    simp only [Node.heapOk, Bool.and_eq_true] at hhm
    obtain ⟨⟨⟨hlp, hrp⟩, hhml⟩, hhmr⟩ := hhm
    simp only [Node.augOk, Bool.and_eq_true, decide_eq_true_eq] at ham
    obtain ⟨⟨hmU, haml⟩, hamr⟩ := ham
    have hsep' : ∀ kn ∈ (Node.node nmU nl nr nv nc np : Node α).keys,
        ∀ km ∈ ml.keys, compare kn km < 0 := by
      intro kn hkn km hkm
      exact hsep kn hkn km (by simp [Node.keys_node, hkm])
    obtain ⟨ihb, ihh, iha, ihp⟩ := ih hbn hbml hhn hhml han haml hsep'
    have hjk : ((Node.node nmU nl nr nv nc np : Node α).join ml).keys
        = (Node.node nmU nl nr nv nc np : Node α).keys ++ ml.keys := Node.keys_join _ _
    rw [Node.join, if_neg hle]
    have hja : ((Node.node nmU nl nr nv nc np : Node α).join ml).allKeys
        (fun k => decide (compare k mc < 0)) = true := by
      rw [Node.allKeys_iff]
      intro k hk
      rw [hjk, List.mem_append] at hk
      rcases hk with hk | hk
      · have := hsep k hk mc (by simp [Node.keys_node])
        simpa using this
      · exact Node.allKeys_iff.mp hlk k hk
    have hjp : ((Node.node nmU nl nr nv nc np : Node α).join ml).prioLe mp = true := by
      refine ihp mp ?_ hlp
      simp [Node.prioLe]; omega
    refine ⟨Node.bstOk_newNode ihb hbmr hja hrk,
      Node.heapOk_newNode ihh hhmr hjp hrp,
      Node.augOk_newNode iha hamr, ?_⟩
    intro k _ hk
    rw [Node.prioLe_newNode]
    simp only [Node.prioLe, decide_eq_true_eq] at hk
    simpa using hk

/-! ### The insert suite -/

/-- Specification-level insert-or-replace on an association list sorted by
`compare` on keys. -/
def upsertE (c : Prefix) (v : α) : List (Prefix × α) → List (Prefix × α)
  | [] => [(c, v)]
  | (k, w) :: rest =>
    if compare c k < 0 then (c, v) :: (k, w) :: rest
    else if compare c k = 0 then (c, v) :: rest
    else (k, w) :: upsertE c v rest

theorem upsertE_stop {c : Prefix} {v : α} {ys : List (Prefix × α)}
    (hys : ∀ e ∈ ys, compare c e.1 < 0) (xs : List (Prefix × α)) :
    upsertE c v (xs ++ ys) = upsertE c v xs ++ ys := by
  induction xs with
  | nil =>
    cases ys with
    | nil => simp [upsertE]
    | cons y t =>
      have hy : compare c y.1 < 0 := hys y (by simp)
      obtain ⟨k, w⟩ := y
      simp only [List.nil_append, upsertE]
      rw [if_pos hy]
      simp
  | cons x xs ih =>
    obtain ⟨k, w⟩ := x
    by_cases h1 : compare c k < 0
    · simp [upsertE, h1]
    · by_cases h2 : compare c k = 0
      · simp [upsertE, h1, h2]
      · have ih' := ih
        simp only [List.cons_append, upsertE, h1, h2, if_neg, if_false]
        exact congrArg (fun z => (k, w) :: z) ih'

theorem upsertE_skip {c : Prefix} {v : α} {xs : List (Prefix × α)}
    (hxs : ∀ e ∈ xs, 0 < compare c e.1) (ys : List (Prefix × α)) :
    upsertE c v (xs ++ ys) = xs ++ upsertE c v ys := by
  induction xs with
  | nil => simp
  | cons x xs ih =>
    obtain ⟨k, w⟩ := x
    have hx : 0 < compare c k := hxs (k, w) (by simp)
    have h1 : ¬ compare c k < 0 := by omega
    have h2 : ¬ compare c k = 0 := by omega
    have ih' := ih (fun e he => hxs e (by simp [he]))
    simp only [List.cons_append, upsertE, h1, h2, if_neg, if_false]
    exact congrArg (fun z => (k, w) :: z) ih'

theorem upsertE_eq_filter {c : Prefix} {v : α} : ∀ {es : List (Prefix × α)},
    es.Pairwise (fun a b => compare a.1 b.1 < 0) →
    upsertE c v es = es.filter (ltE c) ++ (c, v) :: es.filter (gtE c) := by
  intro es
  induction es with
  | nil => intro _; simp [upsertE, ltE, gtE]
  | cons e rest ih =>
    intro h
    obtain ⟨hhead, htail⟩ := List.pairwise_cons.mp h
    obtain ⟨k, w⟩ := e
    have hhead' : ∀ e ∈ rest, compare k e.1 < 0 := fun e he => hhead e he
    rcases lt_trichotomy (compare c k) 0 with h1 | h1 | h1
    · -- new key below the head: everything stays to the right
      have hkc : ¬ compare k c < 0 := by
        have := compare_neg k c; omega
      have hltr : rest.filter (ltE c) = [] :=
        List.filter_eq_nil_iff.mpr (fun e he => by
          have h2 := hhead' e he
          have h3 := compare_lt_trans h1 h2
          have h4 := compare_neg e.1 c
          simp [ltE]; omega)
      have hgtr : rest.filter (gtE c) = rest :=
        List.filter_eq_self.mpr (fun e he => by
          simpa [gtE] using compare_lt_trans h1 (hhead' e he))
      simp [upsertE, h1, ltE, gtE, hkc, hltr, hgtr]
    · -- equal keys: replace the head
      have hkeq : c = k := compare_eq_zero_iff.mp h1
      have hkc : ¬ compare k c < 0 := by
        have := compare_neg k c; omega
      have hltr : rest.filter (ltE c) = [] :=
        List.filter_eq_nil_iff.mpr (fun e he => by
          have h2 := hhead' e he
          rw [← hkeq] at h2
          have h4 := compare_neg e.1 c
          simp [ltE]; omega)
      have hgtr : rest.filter (gtE c) = rest :=
        List.filter_eq_self.mpr (fun e he => by
          have h2 := hhead' e he
          rw [← hkeq] at h2
          simpa [gtE] using h2)
      have h1' : ¬ compare c k < 0 := by omega
      have hkc0 : compare k c ≠ 0 ∨ compare k c = 0 := by omega
      have hkceq : compare k c = 0 := by
        rw [hkeq] at h1 ⊢; exact h1
      simp [upsertE, h1, h1', ltE, gtE, hkc, hkceq, hltr, hgtr]
    · -- new key above the head: keep the head, recurse
      have hck : compare k c < 0 := by
        have := compare_neg k c; omega
      have h1' : ¬ compare c k < 0 := by omega
      have h1'' : ¬ compare c k = 0 := by omega
      simp only [upsertE, h1', h1'', if_neg, if_false, ih htail]
      simp [ltE, gtE, hck, h1']

theorem mem_keys_upsertE {k c : Prefix} {v : α} {es : List (Prefix × α)} :
    k ∈ (upsertE c v es).map Prod.fst ↔ k = c ∨ k ∈ es.map Prod.fst := by
  induction es with
  | nil => simp [upsertE]
  | cons e rest ih =>
    obtain ⟨k', w⟩ := e
    by_cases h1 : compare c k' < 0
    · simp only [upsertE, h1, if_pos]
      simp
    · by_cases h2 : compare c k' = 0
      · have hck : c = k' := compare_eq_zero_iff.mp h2
        subst hck
        simp only [upsertE, h1, h2, if_neg, if_pos, if_false]
        simp
      · simp only [upsertE, h1, h2, if_neg, if_false]
        simp only [List.map_cons, List.mem_cons, ih]
        tauto

theorem Node.split_keys_lt {n : Node α} {c : Prefix} (hb : n.bstOk = true) :
    ∀ k ∈ (n.split c).1.keys, compare k c < 0 := by
  intro k hk
  obtain ⟨h1, _, _, _, _, _⟩ := Node.split_spec (c := c) hb
  simp only [Node.keys, h1, List.mem_map] at hk
  obtain ⟨e, he, hek⟩ := hk
  have := List.of_mem_filter he
  rw [← hek]
  simpa [ltE] using this

theorem Node.split_keys_gt {n : Node α} {c : Prefix} (hb : n.bstOk = true) :
    ∀ k ∈ (n.split c).2.2.keys, compare c k < 0 := by
  intro k hk
  obtain ⟨_, _, h3, _, _, _⟩ := Node.split_spec (c := c) hb
  simp only [Node.keys, h3, List.mem_map] at hk
  obtain ⟨e, he, hek⟩ := hk
  have := List.of_mem_filter he
  rw [← hek]
  simpa [gtE] using this

theorem Node.split_keys_sub {n : Node α} {c : Prefix} (hb : n.bstOk = true) :
    (∀ k ∈ (n.split c).1.keys, k ∈ n.keys) ∧
    (∀ k ∈ (n.split c).2.1.keys, k ∈ n.keys) ∧
    (∀ k ∈ (n.split c).2.2.keys, k ∈ n.keys) := by
  obtain ⟨h1, h2, h3, _, _, _⟩ := Node.split_spec (c := c) hb
  refine ⟨?_, ?_, ?_⟩
  · apply Node.keys_of_entries_sub
    intro e he; rw [h1] at he; exact List.mem_of_mem_filter he
  · apply Node.keys_of_entries_sub
    intro e he; rw [h2] at he; exact List.mem_of_mem_filter he
  · apply Node.keys_of_entries_sub
    intro e he; rw [h3] at he; exact List.mem_of_mem_filter he

/-- `insert` of a fresh single node: effect on the entry list is exactly
`upsertE`. -/
theorem Node.entries_insert {c : Prefix} {v : α} {p : Nat} {mU : Prefix} :
    ∀ {n : Node α}, n.bstOk = true →
    (n.insert (Node.node mU .nil .nil v c p)).entries = upsertE c v n.entries := by
  intro n
  induction n with
  | nil => intro _; simp [Node.insert, Node.entries, upsertE]
  | node nmU nl nr nv nc np ihl ihr =>
    intro hbst
    have hpair := Node.pairwise_entries hbst
    have hb' := hbst
    simp only [Node.bstOk, Bool.and_eq_true] at hb'
    obtain ⟨⟨⟨hlk, hrk⟩, hbl⟩, hbr⟩ := hb'
    have hel : ∀ e ∈ nl.entries, compare e.1 nc < 0 := by
      intro e he
      simpa using Node.allKeys_iff.mp hlk e.1 (List.mem_map_of_mem Prod.fst he)
    have her : ∀ e ∈ nr.entries, compare nc e.1 < 0 := by
      intro e he
      simpa using Node.allKeys_iff.mp hrk e.1 (List.mem_map_of_mem Prod.fst he)
    simp only [Node.insert]
    by_cases hp : p ≥ np
    · -- the new node becomes the root after a split
      obtain ⟨h1, h2, h3, hb1, hb2, hb3⟩ := Node.split_spec (c := c) hbst
      rw [if_pos hp]
      rcases hsp : ((Node.node nmU nl nr nv nc np : Node α).split c).2.1 with
        _ | ⟨dmU, dl, dr, dv, dc, dp⟩
      · rw [Node.entries_newNode, h1, h3, upsertE_eq_filter hpair]
      · rw [Node.join_entries, Node.join_entries, h1, h3, upsertE_eq_filter hpair]
        simp [Node.entries]
    · rw [if_neg hp]
      rcases lt_trichotomy (compare c nc) 0 with hcmp | hcmp | hcmp
      · have h0 : compare c nc ≠ 0 := by omega
        rw [if_neg h0, if_pos hcmp]
        rw [Node.entries_newNode, ihl hbl]
        have hys : ∀ e ∈ (nc, nv) :: nr.entries, compare c e.1 < 0 := by
          intro e he
          rcases List.mem_cons.mp he with he | he
          · rw [he]; exact hcmp
          · exact compare_lt_trans hcmp (her e he)
        show upsertE c v nl.entries ++ (nc, nv) :: nr.entries
            = upsertE c v (nl.entries ++ (nc, nv) :: nr.entries)
        rw [upsertE_stop hys]
      · rw [if_pos hcmp]
        rw [Node.join_entries, Node.join_entries]
        have hxs : ∀ e ∈ nl.entries, 0 < compare c e.1 := by
          intro e he
          have h1 := hel e he
          have hceq : c = nc := compare_eq_zero_iff.mp hcmp
          rw [← hceq] at h1
          have := compare_neg e.1 c
          omega
        show nl.entries ++ ((Node.node mU Node.nil Node.nil v c p : Node α).entries ++ nr.entries)
            = upsertE c v (nl.entries ++ (nc, nv) :: nr.entries)
        rw [upsertE_skip hxs]
        have h1 : ¬ compare c nc < 0 := by omega
        simp [upsertE, Node.entries, h1, hcmp]
      · have h0 : compare c nc ≠ 0 := by omega
        have h1 : ¬ compare c nc < 0 := by omega
        rw [if_neg h0, if_neg h1]
        rw [Node.entries_newNode, ihr hbr]
        have hxs : ∀ e ∈ nl.entries ++ [(nc, nv)], 0 < compare c e.1 := by
          intro e he
          rcases List.mem_append.mp he with he | he
          · have h2 := hel e he
            have h3 : compare nc c < 0 := (compare_pos_iff).mp hcmp
            have h4 := compare_lt_trans h2 h3
            have := compare_neg e.1 c
            omega
          · simp only [List.mem_singleton] at he
            rw [he]
            exact hcmp
        have hsk := upsertE_skip (c := c) (v := v) hxs nr.entries
        show nl.entries ++ (nc, nv) :: (upsertE c v nr.entries)
            = upsertE c v (nl.entries ++ (nc, nv) :: nr.entries)
        have hass : nl.entries ++ (nc, nv) :: nr.entries
            = (nl.entries ++ [(nc, nv)]) ++ nr.entries := by simp
        rw [hass, hsk]
        simp

theorem Node.keys_insert_sub {mU c : Prefix} {v : α} {p : Nat} {n : Node α}
    (hb : n.bstOk = true) :
    ∀ k ∈ (n.insert (Node.node mU .nil .nil v c p)).keys, k = c ∨ k ∈ n.keys := by
  intro k hk
  simp only [Node.keys, Node.entries_insert hb] at hk
  exact mem_keys_upsertE.mp hk

theorem Node.insert_allKeys {f : Prefix → Bool} {mU c : Prefix} {v : α} {p : Nat}
    {n : Node α} (hb : n.bstOk = true) (hn : n.allKeys f = true) (hc : f c = true) :
    (n.insert (Node.node mU .nil .nil v c p)).allKeys f = true := by
  rw [Node.allKeys_iff]
  intro k hk
  rcases Node.keys_insert_sub hb k hk with h | h
  · rw [h]; exact hc
  · exact Node.allKeys_iff.mp hn k h

/-- The single node `makeNode` builds satisfies all node invariants. -/
theorem Node.leaf_invs (c : Prefix) (v : α) (p : Nat) :
    (Node.node c .nil .nil v c p : Node α).bstOk = true ∧
    (Node.node c .nil .nil v c p : Node α).heapOk = true ∧
    (Node.node c .nil .nil v c p : Node α).augOk = true := by
  refine ⟨?_, ?_, ?_⟩
  · simp [Node.bstOk, Node.allKeys]
  · simp [Node.heapOk, Node.prioLe]
  · simp [Node.augOk, calcMaxUpper]

/-- Preservation of the structural invariants by `insert` of a fresh
`makeNode`-shaped node. -/
theorem Node.insert_pres {c : Prefix} {v : α} {p : Nat} :
    ∀ {n : Node α}, n.bstOk = true → n.heapOk = true → n.augOk = true →
    (n.insert (Node.node c .nil .nil v c p)).bstOk = true ∧
    (n.insert (Node.node c .nil .nil v c p)).heapOk = true ∧
    (n.insert (Node.node c .nil .nil v c p)).augOk = true ∧
    ∀ k, n.prioLe k = true → p ≤ k →
      (n.insert (Node.node c .nil .nil v c p)).prioLe k = true := by
  intro n
  obtain ⟨hmb, hmh, hma⟩ := Node.leaf_invs (α := α) c v p
  have hmkeys : (Node.node c .nil .nil v c p : Node α).keys = [c] := by
    simp [Node.keys_node, Node.keys, Node.entries]
  induction n with
  | nil =>
    intro _ _ _
    refine ⟨hmb, hmh, hma, ?_⟩
    intro k _ hk
    simp [Node.insert, Node.prioLe, hk]
  | node nmU nl nr nv nc np ihl ihr =>
    intro hbst hheap haug
    have hb' := hbst
    simp only [Node.bstOk, Bool.and_eq_true] at hb'
    obtain ⟨⟨⟨hlk, hrk⟩, hbl⟩, hbr⟩ := hb'
    have hh' := hheap
    simp only [Node.heapOk, Bool.and_eq_true] at hh'
    obtain ⟨⟨⟨hlp, hrp⟩, hhl⟩, hhr⟩ := hh'
    have ha' := haug
    simp only [Node.augOk, Bool.and_eq_true, decide_eq_true_eq] at ha'
    obtain ⟨⟨hmU, hal⟩, har⟩ := ha'
    simp only [Node.insert]
    by_cases hp : p ≥ np
    · rw [if_pos hp]
      obtain ⟨hsb1, hsb2, hsb3⟩ :=
        (⟨(Node.split_spec (c := c) hbst).2.2.2.1, (Node.split_spec (c := c) hbst).2.2.2.2.1,
          (Node.split_spec (c := c) hbst).2.2.2.2.2⟩ :
          _ ∧ _ ∧ _)
      obtain ⟨⟨hsh1, hsh2, hsh3⟩, hskk⟩ := Node.split_heap (c := c) hheap
      obtain ⟨hsa1, hsa2, hsa3⟩ := Node.split_augOk (c := c) haug
      have hklt := Node.split_keys_lt (c := c) hbst
      have hkgt := Node.split_keys_gt (c := c) hbst
      have hsepmr : ∀ kn ∈ (Node.node c .nil .nil v c p : Node α).keys,
          ∀ km ∈ ((Node.node nmU nl nr nv nc np : Node α).split c).2.2.keys,
          compare kn km < 0 := by
        intro kn hkn km hkm
        rw [hmkeys, List.mem_singleton] at hkn
        rw [hkn]
        exact hkgt km hkm
      obtain ⟨hjb, hjh, hja, hjp⟩ := Node.join_pres hmb hsb3 hmh hsh3 hma hsa3 hsepmr
      have hsepl : ∀ kn ∈ ((Node.node nmU nl nr nv nc np : Node α).split c).1.keys,
          ∀ km ∈ ((Node.node c .nil .nil v c p : Node α).join
            ((Node.node nmU nl nr nv nc np : Node α).split c).2.2).keys,
          compare kn km < 0 := by
        intro kn hkn km hkm
        rw [Node.keys_join, List.mem_append, hmkeys, List.mem_singleton] at hkm
        have h1 := hklt kn hkn
        rcases hkm with hkm | hkm
        · rw [hkm]; exact h1
        · exact compare_lt_trans h1 (hkgt km hkm)
      obtain ⟨hjb2, hjh2, hja2, hjp2⟩ := Node.join_pres hsb1 hjb hsh1 hjh hsa1 hja hsepl
      rcases hsp : ((Node.node nmU nl nr nv nc np : Node α).split c).2.1 with
        _ | ⟨dmU, dl, dr, dv, dc, dp⟩
      · -- no duplicate: the fresh node becomes the root
        refine ⟨?_, ?_, Node.augOk_newNode hsa1 hsa3, ?_⟩
        · refine Node.bstOk_newNode hsb1 hsb3 ?_ ?_
          · exact Node.allKeys_iff.mpr (fun k hk => by simpa using hklt k hk)
          · exact Node.allKeys_iff.mpr (fun k hk => by simpa using hkgt k hk)
        · have hnp : (Node.node nmU nl nr nv nc np : Node α).prioLe p = true := by
            simp [Node.prioLe]; omega
          obtain ⟨hq1, hq2, hq3⟩ := hskk p hnp
          exact Node.heapOk_newNode hsh1 hsh3 hq1 hq3
        · intro k hk hpk
          rw [Node.prioLe_newNode]
          simpa using hpk
      · -- duplicate found: splice the fresh node in with two joins
        exact ⟨hjb2, hjh2, hja2, by
          intro k hk hpk
          simp only [Node.prioLe, decide_eq_true_eq] at hk
          have hnk : (Node.node nmU nl nr nv nc np : Node α).prioLe k = true := by
            simp [Node.prioLe]; omega
          obtain ⟨hq1, hq2, hq3⟩ := hskk k hnk
          refine hjp2 k hq1 (hjp k ?_ hq3)
          simp [Node.prioLe]; omega⟩
    · rw [if_neg hp]
      have hplt : p < np := by omega
      rcases lt_trichotomy (compare c nc) 0 with hcmp | hcmp | hcmp
      · have h0 : compare c nc ≠ 0 := by omega
        rw [if_neg h0, if_pos hcmp]
        obtain ⟨ihb, ihh, iha, ihp⟩ := ihl hbl hhl hal
        refine ⟨?_, ?_, Node.augOk_newNode iha har, ?_⟩
        · refine Node.bstOk_newNode ihb hbr ?_ hrk
          rw [Node.allKeys_iff]
          intro k hk
          rcases Node.keys_insert_sub hbl k hk with h | h
          · rw [h]; simpa using hcmp
          · exact Node.allKeys_iff.mp hlk k h
        · exact Node.heapOk_newNode ihh hhr (ihp np hlp (by omega)) hrp
        · intro k hk hpk
          rw [Node.prioLe_newNode]
          simp only [Node.prioLe, decide_eq_true_eq] at hk
          simpa using hk
      · rw [if_pos hcmp]
        have hceq : c = nc := compare_eq_zero_iff.mp hcmp
        have hsepmr : ∀ kn ∈ (Node.node c .nil .nil v c p : Node α).keys,
            ∀ km ∈ nr.keys, compare kn km < 0 := by
          intro kn hkn km hkm
          rw [hmkeys, List.mem_singleton] at hkn
          rw [hkn, hceq]
          simpa using Node.allKeys_iff.mp hrk km hkm
        obtain ⟨hjb, hjh, hja, hjp⟩ := Node.join_pres hmb hbr hmh hhr hma har hsepmr
        have hsepl : ∀ kn ∈ nl.keys,
            ∀ km ∈ ((Node.node c .nil .nil v c p : Node α).join nr).keys,
            compare kn km < 0 := by
          intro kn hkn km hkm
          have h1 : compare kn nc < 0 := by
            simpa using Node.allKeys_iff.mp hlk kn hkn
          rw [Node.keys_join, List.mem_append, hmkeys, List.mem_singleton] at hkm
          rcases hkm with hkm | hkm
          · rw [hkm, ← hceq] at *
            exact h1
          · have h2 : compare nc km < 0 := by
              simpa using Node.allKeys_iff.mp hrk km hkm
            exact compare_lt_trans h1 h2
        obtain ⟨hjb2, hjh2, hja2, hjp2⟩ := Node.join_pres hbl hjb hhl hjh hal hja hsepl
        refine ⟨hjb2, hjh2, hja2, ?_⟩
        intro k hk hpk
        simp only [Node.prioLe, decide_eq_true_eq] at hk
        refine hjp2 k (Node.prioLe_mono hk hlp) (hjp k ?_ (Node.prioLe_mono hk hrp))
        simp [Node.prioLe]; omega
      · have h0 : compare c nc ≠ 0 := by omega
        have h1 : ¬ compare c nc < 0 := by omega
        rw [if_neg h0, if_neg h1]
        obtain ⟨ihb, ihh, iha, ihp⟩ := ihr hbr hhr har
        refine ⟨?_, ?_, Node.augOk_newNode hal iha, ?_⟩
        · refine Node.bstOk_newNode hbl ihb hlk ?_
          rw [Node.allKeys_iff]
          intro k hk
          rcases Node.keys_insert_sub hbr k hk with h | h
          · rw [h]
            simpa using (compare_pos_iff).mp hcmp
          · exact Node.allKeys_iff.mp hrk k h
        · exact Node.heapOk_newNode hhl ihh hlp (ihp np hrp (by omega))
        · intro k hk hpk
          rw [Node.prioLe_newNode]
          simp only [Node.prioLe, decide_eq_true_eq] at hk
          simpa using hk

/-! ### The union suite -/

/-- Specification-level lookup of a key in an entry list (first hit). -/
def lookupE (k : Prefix) : List (Prefix × α) → Option α
  | [] => none
  | (c, v) :: rest => if compare k c = 0 then some v else lookupE k rest

/-- How `union` resolves a key present in one or both operands: the overwrite
side wins on duplicates. -/
def combineV (x y : Option α) (ow : Bool) : Option α :=
  match x, y with
  | some va, some vb => some (if ow then vb else va)
  | some va, none => some va
  | none, o => o

theorem combineV_comm (x y : Option α) (ow : Bool) :
    combineV x y ow = combineV y x (!ow) := by
  cases x <;> cases y <;> cases ow <;> simp [combineV]

theorem combineV_none_right (x : Option α) (ow : Bool) : combineV x none ow = x := by
  cases x <;> rfl

theorem lookupE_append (k : Prefix) (xs ys : List (Prefix × α)) :
    lookupE k (xs ++ ys) = match lookupE k xs with
      | some v => some v
      | none => lookupE k ys := by
  induction xs with
  | nil => simp [lookupE]
  | cons e rest ih =>
    obtain ⟨c, w⟩ := e
    by_cases h : compare k c = 0
    · simp [lookupE, h]
    · simp [lookupE, h, ih]

theorem lookupE_eq_none_iff {k : Prefix} {es : List (Prefix × α)} :
    lookupE k es = none ↔ k ∉ es.map Prod.fst := by
  induction es with
  | nil => simp [lookupE]
  | cons e rest ih =>
    obtain ⟨c, w⟩ := e
    by_cases h : compare k c = 0
    · have : k = c := compare_eq_zero_iff.mp h
      simp [lookupE, h, this, compare_self]
    · have : k ≠ c := fun he => h (by rw [he]; exact compare_self c)
      simp [lookupE, h, ih, this]

theorem lookupE_filter_ltE {k c : Prefix} (es : List (Prefix × α)) :
    lookupE k (es.filter (ltE c)) =
      if compare k c < 0 then lookupE k es else none := by
  induction es with
  | nil => simp [lookupE]
  | cons e rest ih =>
    obtain ⟨c', w⟩ := e
    by_cases h : compare k c' = 0
    · have hkc : k = c' := compare_eq_zero_iff.mp h
      by_cases h2 : compare k c < 0
      · have : ltE c (c', w) = true := by simp [ltE, ← hkc, h2]
        simp [List.filter_cons, this, lookupE, h, h2]
      · have : ltE c (c', w) = false := by
          simp [ltE, ← hkc]; omega
        simp [List.filter_cons, this, ih, h2]
    · by_cases h3 : ltE c (c', w) = true
      · simp [List.filter_cons, h3, lookupE, h, ih]
      · simp only [Bool.not_eq_true] at h3
        rw [List.filter_cons_of_neg (by simp [h3]), ih]
        split <;> simp [lookupE, h]

theorem lookupE_filter_gtE {k c : Prefix} (es : List (Prefix × α)) :
    lookupE k (es.filter (gtE c)) =
      if compare c k < 0 then lookupE k es else none := by
  induction es with
  | nil => simp [lookupE]
  | cons e rest ih =>
    obtain ⟨c', w⟩ := e
    by_cases h : compare k c' = 0
    · have hkc : k = c' := compare_eq_zero_iff.mp h
      by_cases h2 : compare c k < 0
      · have : gtE c (c', w) = true := by simp [gtE, ← hkc, h2]
        simp [List.filter_cons, this, lookupE, h, h2]
      · have : gtE c (c', w) = false := by
          simp [gtE, ← hkc]; omega
        simp [List.filter_cons, this, ih, h2]
    · by_cases h3 : gtE c (c', w) = true
      · simp [List.filter_cons, h3, lookupE, h, ih]
      · simp only [Bool.not_eq_true] at h3
        rw [List.filter_cons_of_neg (by simp [h3]), ih]
        split <;> simp [lookupE, h]

theorem lookupE_filter_eqE0 {k c : Prefix} {es : List (Prefix × α)} :
    lookupE k (es.filter (eqE c)) =
      if compare k c = 0 then lookupE k es else none := by
  induction es with
  | nil => simp [lookupE]
  | cons e rest ih =>
    obtain ⟨c', w⟩ := e
    by_cases h : compare k c' = 0
    · have hkc : k = c' := compare_eq_zero_iff.mp h
      by_cases h2 : compare k c = 0
      · have : eqE c (c', w) = true := by simp [eqE, ← hkc, h2]
        simp [List.filter_cons, this, lookupE, h, h2]
      · have : eqE c (c', w) = false := by
          simp [eqE, ← hkc]; omega
        simp [List.filter_cons, this, ih, h2]
    · by_cases h3 : eqE c (c', w) = true
      · simp [List.filter_cons, h3, lookupE, h, ih]
      · simp only [Bool.not_eq_true] at h3
        rw [List.filter_cons_of_neg (by simp [h3]), ih]
        split <;> simp [lookupE, h]

theorem mem_keys_filter_ltE {k c : Prefix} {es : List (Prefix × α)} :
    k ∈ (es.filter (ltE c)).map Prod.fst ↔ k ∈ es.map Prod.fst ∧ compare k c < 0 := by
  simp only [List.mem_map, List.mem_filter]
  constructor
  · rintro ⟨e, ⟨he, hf⟩, hk⟩
    rw [← hk]
    exact ⟨⟨e, he, rfl⟩, by simpa [ltE] using hf⟩
  · rintro ⟨⟨e, he, hk⟩, hc⟩
    exact ⟨e, ⟨he, by simp [ltE, hk, hc]⟩, hk⟩

theorem mem_keys_filter_gtE {k c : Prefix} {es : List (Prefix × α)} :
    k ∈ (es.filter (gtE c)).map Prod.fst ↔ k ∈ es.map Prod.fst ∧ compare c k < 0 := by
  simp only [List.mem_map, List.mem_filter]
  constructor
  · rintro ⟨e, ⟨he, hf⟩, hk⟩
    rw [← hk]
    exact ⟨⟨e, he, rfl⟩, by simpa [gtE] using hf⟩
  · rintro ⟨⟨e, he, hk⟩, hc⟩
    exact ⟨e, ⟨he, by simp [gtE, hk, hc]⟩, hk⟩

/-- The middle part of a split over a BST: either no duplicate and the key is
absent, or a single node carrying the split key and its stored value. -/
theorem Node.split_mid_spec {b : Node α} {c : Prefix} (hb : b.bstOk = true) :
    ((b.split c).2.1 = Node.nil ∧ lookupE c b.entries = none) ∨
    (∃ dmU dl dr dv dp, (b.split c).2.1 = Node.node dmU dl dr dv c dp ∧
      lookupE c b.entries = some dv) := by
  obtain ⟨_, h2, _, _, _, _⟩ := Node.split_spec (c := c) hb
  have hpair := Node.pairwise_entries hb
  rcases hm : (b.split c).2.1 with _ | ⟨dmU, dl, dr, dv, dc, dp⟩
  · left
    refine ⟨rfl, ?_⟩
    rw [hm] at h2
    have hemp : b.entries.filter (eqE c) = [] := by
      rw [← h2]; rfl
    rw [lookupE_eq_none_iff]
    intro hmem
    simp only [List.mem_map] at hmem
    obtain ⟨e, he, hek⟩ := hmem
    have : e ∈ b.entries.filter (eqE c) := by
      rw [List.mem_filter]
      refine ⟨he, ?_⟩
      simp [eqE, hek, compare_self]
    rw [hemp] at this
    exact absurd this (List.not_mem_nil e)
  · right
    rw [hm] at h2
    have hdc : dc = c := by
      have hmem : (dc, dv) ∈ (Node.node dmU dl dr dv dc dp : Node α).entries := by
        simp [Node.entries]
      rw [h2, List.mem_filter] at hmem
      have := hmem.2
      simp only [eqE, decide_eq_true_eq] at this
      exact compare_eq_zero_iff.mp this
    have hfp : (b.entries.filter (eqE c)).Pairwise (fun a b => compare a.1 b.1 < 0) :=
      hpair.filter _
    have hkeysc : ∀ e ∈ b.entries.filter (eqE c), e.1 = c := by
      intro e he
      rw [List.mem_filter] at he
      have := he.2
      simp only [eqE, decide_eq_true_eq] at this
      exact compare_eq_zero_iff.mp this
    have hdl : dl.entries = [] := by
      cases hdle : dl.entries with
      | nil => rfl
      | cons x t =>
        exfalso
        have hx : x ∈ b.entries.filter (eqE c) := by
          rw [← h2]
          simp [Node.entries, hdle]
        have hd : (dc, dv) ∈ b.entries.filter (eqE c) := by
          rw [← h2]
          simp [Node.entries]
        rw [← h2] at hfp
        simp only [Node.entries, hdle] at hfp
        rw [List.pairwise_append] at hfp
        have := hfp.2.2 x (by simp) (dc, dv) (by simp)
        rw [hkeysc x hx, hdc] at this
        rw [compare_self] at this
        omega
    have hdr : dr.entries = [] := by
      cases hdre : dr.entries with
      | nil => rfl
      | cons y t =>
        exfalso
        have hy : y ∈ b.entries.filter (eqE c) := by
          rw [← h2]
          simp [Node.entries, hdre]
        rw [← h2] at hfp
        simp only [Node.entries, hdl, hdre, List.nil_append] at hfp
        rw [List.pairwise_cons] at hfp
        have := hfp.1 y (by simp)
        rw [hkeysc y hy] at this
        simp only [hdc] at this
        rw [compare_self] at this
        omega
    refine ⟨dmU, dl, dr, dv, dp, by rw [hdc], ?_⟩
    have hsingle : b.entries.filter (eqE c) = [(c, dv)] := by
      rw [← h2]
      simp [Node.entries, hdl, hdr, hdc]
    have hq : lookupE c (b.entries.filter (eqE c)) =
        if compare c c = 0 then lookupE c b.entries else none := lookupE_filter_eqE0
    rw [hsingle] at hq
    simp only [lookupE, compare_self, if_pos] at hq
    exact hq.symm

/-- The observable contract of a union result: its key set is the union of the
key sets, and each key's value combines the operands' values under the
overwrite flag. -/
def unionSpecP (a b : Node α) (ow : Bool) (u : Node α) : Prop :=
  (∀ k, k ∈ u.keys ↔ k ∈ a.keys ∨ k ∈ b.keys) ∧
  (∀ k, lookupE k u.entries = combineV (lookupE k a.entries) (lookupE k b.entries) ow)

theorem unionSpecP_comm {a b u : Node α} {ow : Bool} (h : unionSpecP b a (!ow) u) :
    unionSpecP a b ow u := by
  obtain ⟨h1, h2⟩ := h
  refine ⟨fun k => (h1 k).trans or_comm, fun k => ?_⟩
  rw [h2 k, combineV_comm]
  simp

/-- The common body of `union` once the treaps are ordered (the first operand's
root survives): the observable contract holds for the reassembled node,
whatever priority `P` the root gets. -/
theorem Node.union_body_spec {nmU : Prefix} {nl nr : Node α} {nv : α} {nc : Prefix}
    {np : Nat} {b : Node α} {ow : Bool} {P : Nat}
    (hbn : (Node.node nmU nl nr nv nc np : Node α).bstOk = true)
    (hbb : b.bstOk = true)
    (ih1 : unionSpecP nl (b.split nc).1 ow (nl.union (b.split nc).1 ow))
    (ih2 : unionSpecP nr (b.split nc).2.2 ow (nr.union (b.split nc).2.2 ow)) :
    unionSpecP (Node.node nmU nl nr nv nc np) b ow
      (newNode (nl.union (b.split nc).1 ow) (nr.union (b.split nc).2.2 ow)
        (dupeVal (b.split nc).2.1 nv ow) (dupeCidr (b.split nc).2.1 nc ow) P) := by
  have hb' := hbn
  simp only [Node.bstOk, Bool.and_eq_true] at hb'
  obtain ⟨⟨⟨hlk, hrk⟩, hbl⟩, hbr⟩ := hb'
  have hel : ∀ k ∈ nl.keys, compare k nc < 0 := by
    intro k hk; simpa using Node.allKeys_iff.mp hlk k hk
  have her : ∀ k ∈ nr.keys, compare nc k < 0 := by
    intro k hk; simpa using Node.allKeys_iff.mp hrk k hk
  obtain ⟨h1, _, h3, _, _, _⟩ := Node.split_spec (c := nc) hbb
  have ht1 : ∀ k, k ∈ (b.split nc).1.keys ↔ k ∈ b.keys ∧ compare k nc < 0 := by
    intro k
    show k ∈ (b.split nc).1.entries.map Prod.fst ↔ _
    rw [h1]
    exact mem_keys_filter_ltE
  have ht2 : ∀ k, k ∈ (b.split nc).2.2.keys ↔ k ∈ b.keys ∧ compare nc k < 0 := by
    intro k
    show k ∈ (b.split nc).2.2.entries.map Prod.fst ↔ _
    rw [h3]
    exact mem_keys_filter_gtE
  have hlt1 : ∀ k, lookupE k (b.split nc).1.entries =
      if compare k nc < 0 then lookupE k b.entries else none := by
    intro k; rw [h1]; exact lookupE_filter_ltE _
  have hlt2 : ∀ k, lookupE k (b.split nc).2.2.entries =
      if compare nc k < 0 then lookupE k b.entries else none := by
    intro k; rw [h3]; exact lookupE_filter_gtE _
  have hnone_l : ∀ k, ¬ compare k nc < 0 → lookupE k nl.entries = none := by
    intro k hk
    rw [lookupE_eq_none_iff]
    intro hmem
    exact hk (hel k hmem)
  have hnone_r : ∀ k, ¬ compare nc k < 0 → lookupE k nr.entries = none := by
    intro k hk
    rw [lookupE_eq_none_iff]
    intro hmem
    exact hk (her k hmem)
  have hdc : dupeCidr (b.split nc).2.1 nc ow = nc := by
    rcases Node.split_mid_spec (c := nc) hbb with ⟨hmid, _⟩ |
      ⟨dmU, dl, dr, dv, dp, hmid, _⟩
    · rw [hmid]; rfl
    · rw [hmid]; cases ow <;> rfl
  constructor
  · -- key-set part
    intro k
    rw [Node.keys_newNode, hdc, List.mem_append, List.mem_cons, Node.keys_node,
      List.mem_append, List.mem_cons]
    rw [(ih1.1 k), (ih2.1 k), ht1 k, ht2 k]
    constructor
    · rintro ((h | ⟨h, _⟩) | h | h | ⟨h, _⟩)
      · exact Or.inl (Or.inl h)
      · exact Or.inr h
      · exact Or.inl (Or.inr (Or.inl h))
      · exact Or.inl (Or.inr (Or.inr h))
      · exact Or.inr h
    · rintro ((h | h | h) | h)
      · exact Or.inl (Or.inl h)
      · exact Or.inr (Or.inl h)
      · exact Or.inr (Or.inr (Or.inl h))
      · rcases lt_trichotomy (compare k nc) 0 with hc | hc | hc
        · exact Or.inl (Or.inr ⟨h, hc⟩)
        · exact Or.inr (Or.inl (compare_eq_zero_iff.mp hc))
        · exact Or.inr (Or.inr (Or.inr ⟨h, (compare_pos_iff).mp hc⟩))
  · -- value part
    intro k
    rw [Node.entries_newNode, hdc, lookupE_append]
    have hihl := ih1.2 k
    have hihr := ih2.2 k
    rcases lt_trichotomy (compare k nc) 0 with hc | hc | hc
    · -- key below the surviving root
      have hkne : compare k nc ≠ 0 := by omega
      have hnk : ¬ compare nc k < 0 := by
        have := compare_neg nc k; omega
      have hnr : lookupE k nr.entries = none := hnone_r k hnk
      have hnn : lookupE k (Node.node nmU nl nr nv nc np : Node α).entries
          = lookupE k nl.entries := by
        simp only [Node.entries]
        rw [lookupE_append]
        cases hx : lookupE k nl.entries with
        | some v => simp
        | none => simp [lookupE, hkne, hnr]
      rw [hnn]
      have hL : lookupE k (nl.union (b.split nc).1 ow).entries
          = combineV (lookupE k nl.entries) (lookupE k b.entries) ow := by
        rw [hihl, hlt1 k, if_pos hc]
      cases hx : combineV (lookupE k nl.entries) (lookupE k b.entries) ow with
      | some v =>
        rw [hL, hx]
      | none =>
        rw [hL, hx]
        simp only [lookupE]
        rw [if_neg hkne, hihr, hlt2 k, if_neg hnk, hnr]
        simp [combineV]
    · -- key equals the surviving root's key
      have hkeq : k = nc := compare_eq_zero_iff.mp hc
      have hl0 : lookupE k nl.entries = none := hnone_l k (by omega)
      have hL0 : lookupE k (nl.union (b.split nc).1 ow).entries = none := by
        rw [hihl, hl0, hlt1 k, if_neg (by omega)]
        simp [combineV]
      have hnn : lookupE k (Node.node nmU nl nr nv nc np : Node α).entries
          = some nv := by
        simp only [Node.entries]
        rw [lookupE_append, hl0]
        simp [lookupE, hc]
      rw [hL0, hnn]
      simp only [lookupE]
      rw [if_pos hc]
      rcases Node.split_mid_spec (c := nc) hbb with ⟨hmid, hlup⟩ |
        ⟨dmU, dl, dr, dv, dp, hmid, hlup⟩
      · rw [hmid, hkeq, hlup]
        simp [dupeVal, combineV]
      · rw [hmid, hkeq, hlup]
        cases ow <;> simp [dupeVal, combineV]
    · -- key above the surviving root's key
      have hkne : compare k nc ≠ 0 := by omega
      have hck : compare nc k < 0 := (compare_pos_iff).mp hc
      have hl0 : lookupE k nl.entries = none := hnone_l k (by omega)
      have hL0 : lookupE k (nl.union (b.split nc).1 ow).entries = none := by
        rw [hihl, hl0, hlt1 k, if_neg (by omega)]
        simp [combineV]
      have hnn : lookupE k (Node.node nmU nl nr nv nc np : Node α).entries
          = lookupE k nr.entries := by
        simp only [Node.entries]
        rw [lookupE_append, hl0]
        simp [lookupE, hkne]
      rw [hL0, hnn]
      simp only [lookupE]
      rw [if_neg hkne, hihr, hlt2 k, if_pos hck]

theorem Node.union_spec : ∀ (a b : Node α) (ow : Bool), a.bstOk = true →
    b.bstOk = true → unionSpecP a b ow (a.union b ow) := by
  intro a b ow
  induction a, b, ow using Node.union.induct with
  | case1 b ow =>
    intro _ hbb
    simp only [Node.union]
    constructor
    · intro k
      simp [Node.keys, Node.entries]
    · intro k
      simp [Node.keys, Node.entries, lookupE, combineV]
  | case2 mU l r v c p ow =>
    intro hba _
    simp only [Node.union]
    constructor
    · intro k
      simp [Node.keys, Node.entries]
    · intro k
      have hnil : lookupE k (Node.nil : Node α).entries = none := rfl
      rw [hnil, combineV_none_right]
  | case3 nmU nl nr nv nc np bmU bl br bv bc bp ow hlt ih1 ih2 =>
    intro hbn hbb
    have hb' := hbb
    simp only [Node.bstOk, Bool.and_eq_true] at hb'
    obtain ⟨⟨⟨hlk, hrk⟩, hbbl⟩, hbbr⟩ := hb'
    obtain ⟨_, _, _, hs1, _, hs3⟩ := Node.split_spec (c := bc) hbn
    rw [Node.union, if_pos hlt]
    exact unionSpecP_comm (Node.union_body_spec hbb hbn (ih1 hbbl hs1) (ih2 hbbr hs3))
  | case4 nmU nl nr nv nc np bmU bl br bv bc bp ow hlt ih1 ih2 =>
    intro hbn hbb
    have hb' := hbn
    simp only [Node.bstOk, Bool.and_eq_true] at hb'
    obtain ⟨⟨⟨hlk, hrk⟩, hbnl⟩, hbnr⟩ := hb'
    obtain ⟨_, _, _, hs1, _, hs3⟩ := Node.split_spec (c := nc) hbb
    rw [Node.union, if_neg hlt]
    exact Node.union_body_spec hbn hbb (ih1 hbnl hs1) (ih2 hbnr hs3)

/-- Invariant preservation for the common body of `union` (the first operand's
root survives with priority `P`). -/
theorem Node.union_body_pres {nmU : Prefix} {nl nr : Node α} {nv : α} {nc : Prefix}
    {np : Nat} {b : Node α} {ow : Bool} {P : Nat}
    (hbn : (Node.node nmU nl nr nv nc np : Node α).bstOk = true)
    (hbb : b.bstOk = true)
    (hhn : (Node.node nmU nl nr nv nc np : Node α).heapOk = true)
    (hhb : b.heapOk = true)
    (hnp : np ≤ P) (hbp : b.prioLe P = true)
    (ihb1 : (nl.union (b.split nc).1 ow).bstOk = true)
    (ihh1 : (nl.union (b.split nc).1 ow).heapOk = true)
    (iha1 : (nl.union (b.split nc).1 ow).augOk = true)
    (ihp1 : ∀ k, nl.prioLe k = true → (b.split nc).1.prioLe k = true →
      (nl.union (b.split nc).1 ow).prioLe k = true)
    (ihb2 : (nr.union (b.split nc).2.2 ow).bstOk = true)
    (ihh2 : (nr.union (b.split nc).2.2 ow).heapOk = true)
    (iha2 : (nr.union (b.split nc).2.2 ow).augOk = true)
    (ihp2 : ∀ k, nr.prioLe k = true → (b.split nc).2.2.prioLe k = true →
      (nr.union (b.split nc).2.2 ow).prioLe k = true) :
    (newNode (nl.union (b.split nc).1 ow) (nr.union (b.split nc).2.2 ow)
      (dupeVal (b.split nc).2.1 nv ow) (dupeCidr (b.split nc).2.1 nc ow) P).bstOk = true ∧
    (newNode (nl.union (b.split nc).1 ow) (nr.union (b.split nc).2.2 ow)
      (dupeVal (b.split nc).2.1 nv ow) (dupeCidr (b.split nc).2.1 nc ow) P).heapOk = true ∧
    (newNode (nl.union (b.split nc).1 ow) (nr.union (b.split nc).2.2 ow)
      (dupeVal (b.split nc).2.1 nv ow) (dupeCidr (b.split nc).2.1 nc ow) P).augOk = true := by
  have hb' := hbn
  simp only [Node.bstOk, Bool.and_eq_true] at hb'
  obtain ⟨⟨⟨hlk, hrk⟩, hbnl⟩, hbnr⟩ := hb'
  have hh' := hhn
  simp only [Node.heapOk, Bool.and_eq_true] at hh'
  obtain ⟨⟨⟨hlp, hrp⟩, hhnl⟩, hhnr⟩ := hh'
  obtain ⟨_, _, _, hs1, _, hs3⟩ := Node.split_spec (c := nc) hbb
  obtain ⟨⟨hsh1, _, hsh3⟩, hskk⟩ := Node.split_heap (c := nc) hhb
  obtain ⟨hq1, _, hq3⟩ := hskk P hbp
  have hdc : dupeCidr (b.split nc).2.1 nc ow = nc := by
    rcases Node.split_mid_spec (c := nc) hbb with ⟨hmid, _⟩ |
      ⟨dmU, dl, dr, dv, dp, hmid, _⟩
    · rw [hmid]; rfl
    · rw [hmid]; cases ow <;> rfl
  rw [hdc]
  have hkeys1 := (Node.union_spec nl (b.split nc).1 ow hbnl hs1).1
  have hkeys2 := (Node.union_spec nr (b.split nc).2.2 ow hbnr hs3).1
  refine ⟨?_, ?_, Node.augOk_newNode iha1 iha2⟩
  · refine Node.bstOk_newNode ihb1 ihb2 ?_ ?_
    · rw [Node.allKeys_iff]
      intro k hk
      rcases (hkeys1 k).mp hk with h | h
      · exact Node.allKeys_iff.mp hlk k h
      · simpa using Node.split_keys_lt (c := nc) hbb k h
    · rw [Node.allKeys_iff]
      intro k hk
      rcases (hkeys2 k).mp hk with h | h
      · exact Node.allKeys_iff.mp hrk k h
      · simpa using Node.split_keys_gt (c := nc) hbb k h
  · refine Node.heapOk_newNode ihh1 ihh2 ?_ ?_
    · exact ihp1 P (Node.prioLe_mono hnp hlp) hq1
    · exact ihp2 P (Node.prioLe_mono hnp hrp) hq3

/-- Preservation of all structural invariants by `union`. -/
theorem Node.union_pres : ∀ (a b : Node α) (ow : Bool), a.bstOk = true →
    b.bstOk = true → a.heapOk = true → b.heapOk = true → a.augOk = true →
    b.augOk = true →
    (a.union b ow).bstOk = true ∧ (a.union b ow).heapOk = true ∧
    (a.union b ow).augOk = true ∧
    ∀ k, a.prioLe k = true → b.prioLe k = true →
      (a.union b ow).prioLe k = true := by
  intro a b ow
  induction a, b, ow using Node.union.induct with
  | case1 b ow =>
    intro _ hbb _ hhb _ hab
    simp only [Node.union]
    exact ⟨hbb, hhb, hab, fun k _ h => h⟩
  | case2 mU l r v c p ow =>
    intro hba _ hha _ haa _
    simp only [Node.union]
    exact ⟨hba, hha, haa, fun k h _ => h⟩
  | case3 nmU nl nr nv nc np bmU bl br bv bc bp ow hlt ih1 ih2 =>
    intro hbn hbb hhn hhb han hab
    have hb' := hbb
    simp only [Node.bstOk, Bool.and_eq_true] at hb'
    obtain ⟨⟨⟨hlk, hrk⟩, hbbl⟩, hbbr⟩ := hb'
    have hh' := hhb
    simp only [Node.heapOk, Bool.and_eq_true] at hh'
    obtain ⟨⟨⟨hlp, hrp⟩, hhbl⟩, hhbr⟩ := hh'
    have ha' := hab
    simp only [Node.augOk, Bool.and_eq_true, decide_eq_true_eq] at ha'
    obtain ⟨⟨hmU, habl⟩, habr⟩ := ha'
    obtain ⟨_, _, _, hs1, _, hs3⟩ := Node.split_spec (c := bc) hbn
    obtain ⟨⟨hsh1, _, hsh3⟩, _⟩ := Node.split_heap (c := bc) hhn
    obtain ⟨hsa1, _, hsa3⟩ := Node.split_augOk (c := bc) han
    obtain ⟨ihb1, ihh1, iha1, ihp1⟩ := ih1 hbbl hs1 hhbl hsh1 habl hsa1
    obtain ⟨ihb2, ihh2, iha2, ihp2⟩ := ih2 hbbr hs3 hhbr hsh3 habr hsa3
    rw [Node.union, if_pos hlt]
    obtain ⟨o1, o2, o3⟩ := Node.union_body_pres hbb hbn hhb hhn (le_refl bp)
      (by simp [Node.prioLe]; omega) ihb1 ihh1 iha1 ihp1 ihb2 ihh2 iha2 ihp2
    refine ⟨o1, o2, o3, ?_⟩
    intro k hk1 hk2
    rw [Node.prioLe_newNode]
    simp only [Node.prioLe, decide_eq_true_eq] at hk2
    simpa using hk2
  | case4 nmU nl nr nv nc np bmU bl br bv bc bp ow hlt ih1 ih2 =>
    intro hbn hbb hhn hhb han hab
    have hb' := hbn
    simp only [Node.bstOk, Bool.and_eq_true] at hb'
    obtain ⟨⟨⟨hlk, hrk⟩, hbnl⟩, hbnr⟩ := hb'
    have hh' := hhn
    simp only [Node.heapOk, Bool.and_eq_true] at hh'
    obtain ⟨⟨⟨hlp, hrp⟩, hhnl⟩, hhnr⟩ := hh'
    have ha' := han
    simp only [Node.augOk, Bool.and_eq_true, decide_eq_true_eq] at ha'
    obtain ⟨⟨hmU, hanl⟩, hanr⟩ := ha'
    obtain ⟨_, _, _, hs1, _, hs3⟩ := Node.split_spec (c := nc) hbb
    obtain ⟨⟨hsh1, _, hsh3⟩, _⟩ := Node.split_heap (c := nc) hhb
    obtain ⟨hsa1, _, hsa3⟩ := Node.split_augOk (c := nc) hab
    obtain ⟨ihb1, ihh1, iha1, ihp1⟩ := ih1 hbnl hs1 hhnl hsh1 hanl hsa1
    obtain ⟨ihb2, ihh2, iha2, ihp2⟩ := ih2 hbnr hs3 hhnr hsh3 hanr hsa3
    rw [Node.union, if_neg hlt]
    obtain ⟨o1, o2, o3⟩ := Node.union_body_pres hbn hbb hhn hhb (le_refl np)
      (by simp [Node.prioLe]; omega) ihb1 ihh1 iha1 ihp1 ihb2 ihh2 iha2 ihp2
    refine ⟨o1, o2, o3, ?_⟩
    intro k hk1 hk2
    rw [Node.prioLe_newNode]
    simp only [Node.prioLe, decide_eq_true_eq] at hk1
    simpa using hk1

/-- Keys of a union all satisfy any predicate both operands' keys satisfy. -/
theorem Node.union_allKeys {f : Prefix → Bool} {a b : Node α} {ow : Bool}
    (hba : a.bstOk = true) (hbb : b.bstOk = true)
    (ha : a.allKeys f = true) (hb : b.allKeys f = true) :
    (a.union b ow).allKeys f = true := by
  rw [Node.allKeys_iff]
  intro k hk
  rcases ((Node.union_spec a b ow hba hbb).1 k).mp hk with h | h
  · exact Node.allKeys_iff.mp ha k h
  · exact Node.allKeys_iff.mp hb k h

/-! ### From the local to the global augmentation property -/

theorem cmpRR_pos_lt {x y : Prefix} (h : 0 < cmpRR x y) :
    y.lastIP.compare x.lastIP < 0 := by
  simp only [cmpRR] at h
  split at h
  · omega
  · exact (Addr.cmp_pos_iff).mp h

theorem maxStep_ge_cur (x cur : Prefix) :
    cur.lastIP.compare (if cmpRR x cur > 0 then x else cur).lastIP ≤ 0 := by
  split
  · exact le_of_lt (cmpRR_pos_lt (by assumption))
  · simp [Addr.cmp_self]

theorem maxStep_ge_x (x cur : Prefix) :
    x.lastIP.compare (if cmpRR x cur > 0 then x else cur).lastIP ≤ 0 := by
  split
  · simp [Addr.cmp_self]
  · exact cmpRR_not_pos_le (by assumption)

theorem maxStep_cases (x cur : Prefix) :
    (if cmpRR x cur > 0 then x else cur) = x ∨
    (if cmpRR x cur > 0 then x else cur) = cur := by
  split
  · exact Or.inl rfl
  · exact Or.inr rfl

/-- Facts about the stored `maxUpper` at a locally-correct root: it is one of
the subtree's keys and it bounds all of their last addresses. -/
theorem Node.root_max : ∀ {n : Node α}, n.augOk = true →
    ∀ {mU : Prefix} {l r : Node α} {v : α} {c : Prefix} {p : Nat},
      n = Node.node mU l r v c p →
      mU ∈ n.keys ∧ ∀ k ∈ n.keys, k.lastIP.compare mU.lastIP ≤ 0 := by
  intro n
  induction n with
  | nil =>
    intro _ mU l r v c p h
    exact absurd h (by simp)
  | node nmU nl nr nv nc np ihl ihr =>
    intro ha mU l r v c p heq
    cases heq
    have ha' := ha
    simp only [Node.augOk, Bool.and_eq_true, decide_eq_true_eq] at ha'
    obtain ⟨⟨hmU, hal⟩, har⟩ := ha'
    rw [hmU, Node.keys_node]
    cases nl with
    | nil =>
      cases nr with
      | nil =>
        simp only [calcMaxUpper, Node.keys, Node.entries, List.map_nil,
          List.nil_append]
        constructor
        · simp
        · intro k hk
          simp only [List.mem_singleton] at hk
          rw [hk]
          simp [Addr.cmp_self]
      | node rmU rl rr rv rc rp =>
        obtain ⟨hrm, hrb⟩ := ihr har rfl
        simp only [calcMaxUpper, Node.keys, Node.entries, List.map_nil,
          List.nil_append]
        constructor
        · rcases maxStep_cases rmU nc with hc | hc <;> rw [hc]
          · exact List.mem_cons_of_mem _ hrm
          · exact List.mem_cons_self _ _
        · intro k hk
          rcases List.mem_cons.mp hk with hk | hk
          · rw [hk]
            exact maxStep_ge_cur rmU nc
          · exact Addr.cmp_le_trans (hrb k hk) (maxStep_ge_x rmU nc)
    | node lmU ll lr lv lc lp =>
      obtain ⟨hlm, hlb⟩ := ihl hal rfl
      cases nr with
      | nil =>
        simp only [calcMaxUpper]
        constructor
        · rcases maxStep_cases lmU nc with hc | hc <;> rw [hc]
          · exact List.mem_append_left _ hlm
          · exact List.mem_append_right _ (List.mem_cons_self _ _)
        · intro k hk
          rcases List.mem_append.mp hk with hk | hk
          · exact Addr.cmp_le_trans (hlb k hk) (maxStep_ge_x lmU nc)
          · rcases List.mem_cons.mp hk with hk | hk
            · rw [hk]
              exact maxStep_ge_cur lmU nc
            · exact absurd hk (by simp [Node.keys, Node.entries])
      | node rmU rl rr rv rc rp =>
        obtain ⟨hrm, hrb⟩ := ihr har rfl
        simp only [calcMaxUpper]
        constructor
        · rcases maxStep_cases lmU (if cmpRR rmU nc > 0 then rmU else nc) with
            hc | hc <;> rw [hc]
          · exact List.mem_append_left _ hlm
          · rcases maxStep_cases rmU nc with hc2 | hc2 <;> rw [hc2]
            · exact List.mem_append_right _ (List.mem_cons_of_mem _ hrm)
            · exact List.mem_append_right _ (List.mem_cons_self _ _)
        · intro k hk
          rcases List.mem_append.mp hk with hk | hk
          · exact Addr.cmp_le_trans (hlb k hk)
              (maxStep_ge_x lmU (if cmpRR rmU nc > 0 then rmU else nc))
          · rcases List.mem_cons.mp hk with hk | hk
            · rw [hk]
              exact Addr.cmp_le_trans (maxStep_ge_cur rmU nc)
                (maxStep_ge_cur lmU (if cmpRR rmU nc > 0 then rmU else nc))
            · exact Addr.cmp_le_trans (hrb k hk)
                (Addr.cmp_le_trans (maxStep_ge_x rmU nc)
                  (maxStep_ge_cur lmU (if cmpRR rmU nc > 0 then rmU else nc)))

/-- The local augmentation invariant implies the specification's global one. -/
theorem Node.augMaxOk_of_augOk : ∀ {n : Node α}, n.augOk = true →
    n.augMaxOk = true := by
  intro n
  induction n with
  | nil => intro _; rfl
  | node nmU nl nr nv nc np ihl ihr =>
    intro ha
    have ha' := ha
    simp only [Node.augOk, Bool.and_eq_true, decide_eq_true_eq] at ha'
    obtain ⟨⟨hmU, hal⟩, har⟩ := ha'
    obtain ⟨hm, hb⟩ := Node.root_max ha rfl
    rw [Node.keys_node] at hm hb
    simp only [Node.augMaxOk, Bool.and_eq_true]
    refine ⟨⟨⟨?_, ?_⟩, ihl hal⟩, ihr har⟩
    · exact List.elem_eq_true_of_mem hm
    · rw [List.all_eq_true]
      intro k hk
      simpa using hb k hk

/-! ### Longest-prefix-match correctness -/

theorem Addr.compare_le_iff_fam {a b : Addr} (h : a.is4 = b.is4) :
    a.compare b ≤ 0 ↔ a.val ≤ b.val := by
  simp only [Addr.compare, h, if_pos, cmpNat]
  split <;> (try split) <;> omega

theorem Addr.compare_pos_iff_fam {a b : Addr} (h : a.is4 = b.is4) :
    0 < a.compare b ↔ b.val < a.val := by
  simp only [Addr.compare, h, if_pos, cmpNat]
  split <;> (try split) <;> omega

theorem Prefix.isCanon_val_eq_first {p : Prefix} (h : p.isCanon = true) :
    p.addr.val = p.first := (Prefix.first_eq_of_isCanon h).symm

theorem Prefix.isCanon_bits_le {p : Prefix} (h : p.isCanon = true) :
    p.bits ≤ p.addr.width := by
  simp only [Prefix.isCanon, Prefix.valid, Bool.and_eq_true, decide_eq_true_eq] at h
  exact h.1.1

/-- Two canonical prefixes covering a common point are nested, so the
`compare`-smaller one is the superset: it has no more bits. -/
theorem bits_le_of_both_cover {c1 c2 : Prefix} {x : Nat}
    (h1 : c1.isCanon = true) (h2 : c2.isCanon = true)
    (hfam : c1.addr.is4 = c2.addr.is4)
    (hin1 : c1.first ≤ x ∧ x ≤ c1.last) (hin2 : c2.first ≤ x ∧ x ≤ c2.last)
    (hle : compare c1 c2 ≤ 0) : c1.bits ≤ c2.bits := by
  rcases (le_iff_lt_or_eq.mp hle) with hlt | heq
  · rw [compare_lt_iff] at hlt
    rcases hlt with hlt | ⟨haddr, hbits⟩
    · -- first address of c1 strictly below that of c2
      have hv : c1.addr.val < c2.addr.val := by
        rw [Addr.cmp_lt_iff] at hlt
        rcases hlt with ⟨ha, hb⟩ | ⟨ha, hb⟩
        · rw [ha, hb] at hfam; exact absurd hfam (by simp)
        · exact hb
      have hf : c1.first < c2.first := by
        rw [← Prefix.isCanon_val_eq_first h1, ← Prefix.isCanon_val_eq_first h2]
        exact hv
      by_contra hcon
      push_neg at hcon
      exact Prefix.not_small_covers_start hfam hcon hf (by omega)
    · omega
  · rw [compare_eq_zero_iff.mp heq]

/-- The `containsAddr` form of the covering lemma. -/
theorem bits_le_of_both_contain {c1 c2 : Prefix} {ip : Addr}
    (h1 : c1.isCanon = true) (h2 : c2.isCanon = true)
    (hf1 : c1.addr.is4 = ip.is4) (hf2 : c2.addr.is4 = ip.is4)
    (hin1 : c1.containsAddr ip = true) (hin2 : c2.containsAddr ip = true)
    (hle : compare c1 c2 ≤ 0) : c1.bits ≤ c2.bits :=
  bits_le_of_both_cover h1 h2 (by rw [hf1, hf2])
    ((Prefix.containsAddr_iff hf1).mp hin1) ((Prefix.containsAddr_iff hf2).mp hin2) hle

/-- The range of `q` lies inside the range of `c` (same family): the
specification's notion of a prefix match for `LookupPrefix`. -/
def rangeSub (q c : Prefix) : Bool :=
  c.addr.is4 == q.addr.is4 && decide (c.first ≤ q.first) && decide (q.last ≤ c.last)

theorem rangeSub_self (q : Prefix) : rangeSub q q = true := by
  simp [rangeSub]

/-- No prefix that compares above a canonical `q` covers `q`'s range. -/
theorem rangeSub_false_of_gt {k q : Prefix} (hk : k.isCanon = true)
    (hq : q.isCanon = true) (hfam : k.addr.is4 = q.addr.is4)
    (h : compare q k < 0) : rangeSub q k = false := by
  by_contra hcon
  rw [Bool.not_eq_false, rangeSub, Bool.and_eq_true, Bool.and_eq_true] at hcon
  obtain ⟨⟨_, hfst⟩, hlst⟩ := hcon
  simp only [decide_eq_true_eq] at hfst hlst
  rw [compare_lt_iff] at h
  have hw : k.addr.width = q.addr.width := by simp [Addr.width, hfam]
  rcases h with h | ⟨haddr, hbits⟩
  · have hv : q.addr.val < k.addr.val := by
      rw [Addr.cmp_lt_iff] at h
      rcases h with ⟨ha, hb⟩ | ⟨ha, hb⟩
      · rw [ha, hb] at hfam; exact absurd hfam (by simp)
      · exact hb
    rw [Prefix.isCanon_val_eq_first hq, Prefix.isCanon_val_eq_first hk] at hv
    omega
  · -- same first address, k strictly more bits: k's block is strictly shorter
    have hfeq : q.first = k.first := by
      rw [← Prefix.isCanon_val_eq_first hq, ← Prefix.isCanon_val_eq_first hk, haddr]
    have hkb := Prefix.isCanon_bits_le hk
    have hqb := Prefix.isCanon_bits_le hq
    have hhost : k.host < q.host := by
      simp only [Prefix.host, hw]
      omega
    have hpow : 2 ^ k.host < 2 ^ q.host :=
      Nat.pow_lt_pow_right (by omega) hhost
    have hkl := k.last_eq
    have hql := q.last_eq
    have h1 : 0 < 2 ^ k.host := two_pow_pos _
    omega

/-- A canonical prefix that compares below `q` and covers `q`'s first address
covers `q`'s whole range. -/
theorem rangeSub_of_contains_first {c q : Prefix} (hc : c.isCanon = true)
    (hq : q.isCanon = true) (hfam : c.addr.is4 = q.addr.is4)
    (hlt : compare c q < 0) (hin : c.containsAddr q.addr = true) :
    rangeSub q c = true := by
  have hin' : c.first ≤ q.addr.val ∧ q.addr.val ≤ c.last :=
    (Prefix.containsAddr_iff hfam).mp hin
  rw [Prefix.isCanon_val_eq_first hq] at hin'
  have hbitsle : c.bits ≤ q.bits := by
    rw [compare_lt_iff] at hlt
    rcases hlt with hlt | ⟨haddr, hbits⟩
    · have hv : c.addr.val < q.addr.val := by
        rw [Addr.cmp_lt_iff] at hlt
        rcases hlt with ⟨ha, hb⟩ | ⟨ha, hb⟩
        · rw [ha, hb] at hfam; exact absurd hfam (by simp)
        · exact hb
      rw [Prefix.isCanon_val_eq_first hq, Prefix.isCanon_val_eq_first hc] at hv
      by_contra hcon
      push_neg at hcon
      exact Prefix.not_small_covers_start hfam hcon hv hin'.2
    · omega
  have hlast : q.last ≤ c.last :=
    Prefix.nested_of_first_mem hfam hbitsle hin'.1 hin'.2
  simp [rangeSub, hfam, hin'.1, hlast]

/-- A range-superset of canonical `q` covers `q`'s first address. -/
theorem contains_first_of_rangeSub {c q : Prefix} (hq : q.isCanon = true)
    (hsub : rangeSub q c = true) : c.containsAddr q.addr = true := by
  rw [rangeSub, Bool.and_eq_true, Bool.and_eq_true] at hsub
  obtain ⟨⟨hfam, hfst⟩, hlst⟩ := hsub
  simp only [beq_iff_eq] at hfam
  simp only [decide_eq_true_eq] at hfst hlst
  rw [Prefix.containsAddr_iff hfam, Prefix.isCanon_val_eq_first hq]
  have := q.first_le_last
  exact ⟨hfst, by omega⟩

theorem val_le_of_compare_lt {a b : Prefix} (hfam : a.addr.is4 = b.addr.is4)
    (h : compare a b < 0) : a.addr.val ≤ b.addr.val := by
  rw [compare_lt_iff] at h
  rcases h with h | ⟨haddr, _⟩
  · rw [Addr.cmp_lt_iff] at h
    rcases h with ⟨h1, h2⟩ | ⟨_, h2⟩
    · rw [h1, h2] at hfam; exact absurd hfam (by simp)
    · omega
  · rw [haddr]

/-- What a result of the address longest-prefix-match must satisfy: a hit is a
stored entry whose prefix contains the address with maximal bit length among
all containing stored prefixes; a miss means no stored prefix contains it. -/
def lpmIPGood (n : Node α) (ip : Addr) (res : Option (Prefix × α)) : Prop :=
  match res with
  | some res => res ∈ n.entries ∧ res.1.containsAddr ip = true ∧
      ∀ k ∈ n.keys, k.containsAddr ip = true → k.bits ≤ res.1.bits
  | none => ∀ k ∈ n.keys, k.containsAddr ip = false

/-- Correctness of `lpmIP` under the treap invariants. -/
theorem Node.lpmIP_spec {b4 : Bool} {ip : Addr} (hip : ip.is4 = b4) :
    ∀ {n : Node α}, n.bstOk = true → n.augOk = true → n.canonOk = true →
    n.famOk b4 = true → lpmIPGood n ip (n.lpmIP ip) := by
  intro n
  induction n with
  | nil =>
    intro _ _ _ _
    intro k hk
    simp [Node.keys, Node.entries] at hk
  | node mU l r v c p ihl ihr =>
    intro hb ha hcanon hfam
    have hb' := hb
    simp only [Node.bstOk, Bool.and_eq_true] at hb'
    obtain ⟨⟨⟨hlk, hrk⟩, hbl⟩, hbr⟩ := hb'
    have ha' := ha
    simp only [Node.augOk, Bool.and_eq_true, decide_eq_true_eq] at ha'
    obtain ⟨⟨hmUe, hal⟩, har⟩ := ha'
    have hc' := hcanon
    simp only [Node.canonOk, Node.allKeys, Bool.and_eq_true] at hc'
    obtain ⟨⟨hcc, hcl⟩, hcr⟩ := hc'
    have hf' := hfam
    simp only [Node.famOk, Node.allKeys, Bool.and_eq_true] at hf'
    obtain ⟨⟨hfc, hfl⟩, hfr⟩ := hf'
    have hfc' : c.addr.is4 = b4 := by simpa using hfc
    have hfamc : c.addr.is4 = ip.is4 := by rw [hfc', hip]
    have hcanl : ∀ k ∈ l.keys, k.isCanon = true := fun k hk =>
      Node.allKeys_iff.mp hcl k hk
    have hcanr : ∀ k ∈ r.keys, k.isCanon = true := fun k hk =>
      Node.allKeys_iff.mp hcr k hk
    have hfaml : ∀ k ∈ l.keys, k.addr.is4 = ip.is4 := fun k hk => by
      have := Node.allKeys_iff.mp hfl k hk
      simp at this
      rw [this, hip]
    have hfamr : ∀ k ∈ r.keys, k.addr.is4 = ip.is4 := fun k hk => by
      have := Node.allKeys_iff.mp hfr k hk
      simp at this
      rw [this, hip]
    have hltl : ∀ k ∈ l.keys, compare k c < 0 := fun k hk => by
      simpa using Node.allKeys_iff.mp hlk k hk
    have hgtr : ∀ k ∈ r.keys, compare c k < 0 := fun k hk => by
      simpa using Node.allKeys_iff.mp hrk k hk
    by_cases htb : ipTooBig ip mU = true
    · -- pruned by the augmentation: nothing here can contain the address
      have heq : (Node.node mU l r v c p : Node α).lpmIP ip = none := by
        simp [Node.lpmIP, htb]
      rw [heq]
      intro k hk
      obtain ⟨hmem, hbound⟩ := Node.root_max ha rfl
      by_contra hcon
      rw [Bool.not_eq_false] at hcon
      have hkfam : k.addr.is4 = ip.is4 := by
        rcases List.mem_append.mp (by rw [← Node.keys_node mU l r v c p]; exact hk)
          with h | h
        · exact hfaml k h
        · rcases List.mem_cons.mp h with h | h
          · rw [h]; exact hfamc
          · exact hfamr k h
      have hiv := (Prefix.containsAddr_iff hkfam).mp hcon
      have h1 : ip.compare k.lastIP ≤ 0 := by
        rw [Addr.compare_le_iff_fam (by simp [Prefix.lastIP, hkfam])]
        simpa [Prefix.lastIP] using hiv.2
      have h2 := hbound k hk
      have h3 : ip.compare mU.lastIP ≤ 0 := Addr.cmp_le_trans h1 h2
      simp only [ipTooBig, decide_eq_true_eq] at htb
      omega
    · by_cases hcmp : c.addr.compare ip ≤ 0
      · have ihr' := ihr hbr har hcr hfr
        rcases hres : r.lpmIP ip with _ | res
        · rw [hres] at ihr'
          by_cases hc : c.containsAddr ip = true
          · have heq : (Node.node mU l r v c p : Node α).lpmIP ip = some (c, v) := by
              simp [Node.lpmIP, htb, hcmp, hres, hc]
            rw [heq]
            refine ⟨by simp [Node.entries], hc, ?_⟩
            intro k hk hkin
            rw [Node.keys_node] at hk
            rcases List.mem_append.mp hk with h | h
            · exact bits_le_of_both_contain (hcanl k h) hcc (hfaml k h) hfamc
                hkin hc (le_of_lt (hltl k h))
            · rcases List.mem_cons.mp h with h | h
              · rw [h]
              · rw [ihr' k h] at hkin
                exact absurd hkin (by simp)
          · have heq : (Node.node mU l r v c p : Node α).lpmIP ip = l.lpmIP ip := by
              simp [Node.lpmIP, htb, hcmp, hres, hc]
            rw [heq]
            rw [Bool.not_eq_true] at hc
            have ihl' := ihl hbl hal hcl hfl
            rcases hresl : l.lpmIP ip with _ | resl
            · rw [hresl] at ihl'
              intro k hk
              rw [Node.keys_node] at hk
              rcases List.mem_append.mp hk with h | h
              · exact ihl' k h
              · rcases List.mem_cons.mp h with h | h
                · rw [h]; exact hc
                · exact ihr' k h
            · rw [hresl] at ihl'
              obtain ⟨hm1, hm2, hm3⟩ := ihl'
              refine ⟨by simp [Node.entries]; exact Or.inl hm1, hm2, ?_⟩
              intro k hk hkin
              rw [Node.keys_node] at hk
              rcases List.mem_append.mp hk with h | h
              · exact hm3 k h hkin
              · rcases List.mem_cons.mp h with h | h
                · rw [h] at hkin
                  rw [hc] at hkin
                  exact absurd hkin (by simp)
                · rw [ihr' k h] at hkin
                  exact absurd hkin (by simp)
        · rw [hres] at ihr'
          obtain ⟨hm1, hm2, hm3⟩ := ihr'
          have heq : (Node.node mU l r v c p : Node α).lpmIP ip = some res := by
            simp [Node.lpmIP, htb, hcmp, hres]
          rw [heq]
          have hcrk : res.1 ∈ r.keys := List.mem_map_of_mem Prod.fst hm1
          refine ⟨by simp [Node.entries]; exact Or.inr (Or.inr hm1), hm2, ?_⟩
          intro k hk hkin
          rw [Node.keys_node] at hk
          rcases List.mem_append.mp hk with h | h
          · exact bits_le_of_both_contain (hcanl k h) (hcanr res.1 hcrk)
              (hfaml k h) (hfamr res.1 hcrk) hkin hm2
              (le_of_lt (compare_lt_trans (hltl k h) (hgtr res.1 hcrk)))
          · rcases List.mem_cons.mp h with h | h
            · rw [h]
              exact bits_le_of_both_contain hcc (hcanr res.1 hcrk) hfamc
                (hfamr res.1 hcrk) (by rw [← h]; exact hkin) hm2
                (le_of_lt (hgtr res.1 hcrk))
            · exact hm3 k h hkin
      · -- the node's address is above ip: descend left
        have heq : (Node.node mU l r v c p : Node α).lpmIP ip = l.lpmIP ip := by
          simp [Node.lpmIP, htb, hcmp]
        rw [heq]
        have hval : ip.val < c.addr.val :=
          (Addr.compare_pos_iff_fam hfamc).mp (by omega)
        have hcnc : c.containsAddr ip = false := by
          by_contra hcon
          rw [Bool.not_eq_false] at hcon
          have := (Prefix.containsAddr_iff hfamc).mp hcon
          rw [Prefix.first_eq_of_isCanon hcc] at this
          omega
        have hrnc : ∀ k ∈ r.keys, k.containsAddr ip = false := by
          intro k hk
          by_contra hcon
          rw [Bool.not_eq_false] at hcon
          have hkcan := hcanr k hk
          have := (Prefix.containsAddr_iff (hfamr k hk)).mp hcon
          rw [Prefix.first_eq_of_isCanon hkcan] at this
          have hle : c.addr.val ≤ k.addr.val :=
            val_le_of_compare_lt (by rw [hfamc, hfamr k hk]) (hgtr k hk)
          omega
        have ihl' := ihl hbl hal hcl hfl
        rcases hresl : l.lpmIP ip with _ | resl
        · rw [hresl] at ihl'
          intro k hk
          rw [Node.keys_node] at hk
          rcases List.mem_append.mp hk with h | h
          · exact ihl' k h
          · rcases List.mem_cons.mp h with h | h
            · rw [h]; exact hcnc
            · exact hrnc k h
        · rw [hresl] at ihl'
          obtain ⟨hm1, hm2, hm3⟩ := ihl'
          refine ⟨by simp [Node.entries]; exact Or.inl hm1, hm2, ?_⟩
          intro k hk hkin
          rw [Node.keys_node] at hk
          rcases List.mem_append.mp hk with h | h
          · exact hm3 k h hkin
          · rcases List.mem_cons.mp h with h | h
            · rw [h] at hkin
              rw [hcnc] at hkin
              exact absurd hkin (by simp)
            · rw [hrnc k h] at hkin
              exact absurd hkin (by simp)

theorem rangeSub_fields {q k : Prefix} (h : rangeSub q k = true) :
    k.addr.is4 = q.addr.is4 ∧ k.first ≤ q.first ∧ q.last ≤ k.last := by
  rw [rangeSub, Bool.and_eq_true, Bool.and_eq_true] at h
  obtain ⟨⟨h1, h2⟩, h3⟩ := h
  exact ⟨by simpa using h1, by simpa using h2, by simpa using h3⟩

/-- What a result of the prefix longest-prefix-match must satisfy: a hit is a
stored entry whose prefix covers the whole queried range with maximal bit
length among all covering stored prefixes; a miss means none covers it. -/
def lpmCIDRGood (n : Node α) (q : Prefix) (res : Option (Prefix × α)) : Prop :=
  match res with
  | some res => res ∈ n.entries ∧ rangeSub q res.1 = true ∧
      ∀ k ∈ n.keys, rangeSub q k = true → k.bits ≤ res.1.bits
  | none => ∀ k ∈ n.keys, rangeSub q k = false

/-- Correctness of `lpmCIDR` under the treap invariants, for canonical
queries. -/
theorem Node.lpmCIDR_spec {b4 : Bool} {q : Prefix} (hq4 : q.addr.is4 = b4)
    (hqc : q.isCanon = true) :
    ∀ {n : Node α}, n.bstOk = true → n.augOk = true → n.canonOk = true →
    n.famOk b4 = true → lpmCIDRGood n q (n.lpmCIDR q) := by
  intro n
  induction n with
  | nil =>
    intro _ _ _ _
    intro k hk
    simp [Node.keys, Node.entries] at hk
  | node mU l r v c p ihl ihr =>
    intro hb ha hcanon hfam
    have hb' := hb
    simp only [Node.bstOk, Bool.and_eq_true] at hb'
    obtain ⟨⟨⟨hlk, hrk⟩, hbl⟩, hbr⟩ := hb'
    have ha' := ha
    simp only [Node.augOk, Bool.and_eq_true, decide_eq_true_eq] at ha'
    obtain ⟨⟨hmUe, hal⟩, har⟩ := ha'
    have hc' := hcanon
    simp only [Node.canonOk, Node.allKeys, Bool.and_eq_true] at hc'
    obtain ⟨⟨hcc, hcl⟩, hcr⟩ := hc'
    have hf' := hfam
    simp only [Node.famOk, Node.allKeys, Bool.and_eq_true] at hf'
    obtain ⟨⟨hfc, hfl⟩, hfr⟩ := hf'
    have hfc' : c.addr.is4 = b4 := by simpa using hfc
    have hfamc : c.addr.is4 = q.addr.is4 := by rw [hfc', hq4]
    have hcanl : ∀ k ∈ l.keys, k.isCanon = true := fun k hk =>
      Node.allKeys_iff.mp hcl k hk
    have hcanr : ∀ k ∈ r.keys, k.isCanon = true := fun k hk =>
      Node.allKeys_iff.mp hcr k hk
    have hfaml : ∀ k ∈ l.keys, k.addr.is4 = q.addr.is4 := fun k hk => by
      have := Node.allKeys_iff.mp hfl k hk
      simp at this
      rw [this, hq4]
    have hfamr : ∀ k ∈ r.keys, k.addr.is4 = q.addr.is4 := fun k hk => by
      have := Node.allKeys_iff.mp hfr k hk
      simp at this
      rw [this, hq4]
    have hltl : ∀ k ∈ l.keys, compare k c < 0 := fun k hk => by
      simpa using Node.allKeys_iff.mp hlk k hk
    have hgtr : ∀ k ∈ r.keys, compare c k < 0 := fun k hk => by
      simpa using Node.allKeys_iff.mp hrk k hk
    have hcovmax : ∀ k1 k2, k1.isCanon = true → k2.isCanon = true →
        rangeSub q k1 = true → rangeSub q k2 = true → compare k1 k2 ≤ 0 →
        k1.bits ≤ k2.bits := by
      intro k1 k2 hcan1 hcan2 hs1 hs2 hcmp
      obtain ⟨hf1, ha1, hb1⟩ := rangeSub_fields hs1
      obtain ⟨hf2, ha2, hb2⟩ := rangeSub_fields hs2
      have hql := q.first_le_last
      exact bits_le_of_both_cover hcan1 hcan2 (by rw [hf1, hf2])
        ⟨ha1, by omega⟩ ⟨ha2, by omega⟩ hcmp
    by_cases htb : pfxTooBig q mU = true
    · -- pruned by the augmentation: nothing here can cover the range
      have heq : (Node.node mU l r v c p : Node α).lpmCIDR q = none := by
        simp [Node.lpmCIDR, htb]
      rw [heq]
      intro k hk
      obtain ⟨hmem, hbound⟩ := Node.root_max ha rfl
      by_contra hcon
      rw [Bool.not_eq_false] at hcon
      obtain ⟨hkf, hka, hkb⟩ := rangeSub_fields hcon
      have h1 : q.lastIP.compare k.lastIP ≤ 0 := by
        rw [Addr.compare_le_iff_fam (by simp [Prefix.lastIP, hkf])]
        simpa [Prefix.lastIP] using hkb
      have h2 := hbound k hk
      have h3 : q.lastIP.compare mU.lastIP ≤ 0 := Addr.cmp_le_trans h1 h2
      simp only [pfxTooBig, ipTooBig, decide_eq_true_eq] at htb
      omega
    · rcases lt_trichotomy (compare c q) 0 with hcmp | hcmp | hcmp
      · -- node key below query: right backtracking first
        have hcne : c ≠ q := fun h => by
          rw [h, compare_self] at hcmp; omega
        have ihr' := ihr hbr har hcr hfr
        rcases hres : r.lpmCIDR q with _ | res
        · rw [hres] at ihr'
          by_cases hc : c.containsAddr q.addr = true
          · have heq : (Node.node mU l r v c p : Node α).lpmCIDR q = some (c, v) := by
              simp [Node.lpmCIDR, htb, hcmp, hres, hc, hcne]
            rw [heq]
            have hsub : rangeSub q c = true :=
              rangeSub_of_contains_first hcc hqc hfamc hcmp hc
            refine ⟨by simp [Node.entries], hsub, ?_⟩
            intro k hk hkin
            rw [Node.keys_node] at hk
            rcases List.mem_append.mp hk with h | h
            · exact hcovmax k c (hcanl k h) hcc hkin hsub (le_of_lt (hltl k h))
            · rcases List.mem_cons.mp h with h | h
              · rw [h]
              · rw [ihr' k h] at hkin
                exact absurd hkin (by simp)
          · have heq : (Node.node mU l r v c p : Node α).lpmCIDR q = l.lpmCIDR q := by
              simp [Node.lpmCIDR, htb, hcmp, hres, hc, hcne]
              intro h0
              omega
            rw [heq]
            rw [Bool.not_eq_true] at hc
            have hcns : rangeSub q c = false := by
              by_contra hcon
              rw [Bool.not_eq_false] at hcon
              rw [contains_first_of_rangeSub hqc hcon] at hc
              exact absurd hc (by simp)
            have ihl' := ihl hbl hal hcl hfl
            rcases hresl : l.lpmCIDR q with _ | resl
            · rw [hresl] at ihl'
              intro k hk
              rw [Node.keys_node] at hk
              rcases List.mem_append.mp hk with h | h
              · exact ihl' k h
              · rcases List.mem_cons.mp h with h | h
                · rw [h]; exact hcns
                · exact ihr' k h
            · rw [hresl] at ihl'
              obtain ⟨hm1, hm2, hm3⟩ := ihl'
              refine ⟨by simp [Node.entries]; exact Or.inl hm1, hm2, ?_⟩
              intro k hk hkin
              rw [Node.keys_node] at hk
              rcases List.mem_append.mp hk with h | h
              · exact hm3 k h hkin
              · rcases List.mem_cons.mp h with h | h
                · rw [h] at hkin
                  rw [hcns] at hkin
                  exact absurd hkin (by simp)
                · rw [ihr' k h] at hkin
                  exact absurd hkin (by simp)
        · rw [hres] at ihr'
          obtain ⟨hm1, hm2, hm3⟩ := ihr'
          have heq : (Node.node mU l r v c p : Node α).lpmCIDR q = some res := by
            simp [Node.lpmCIDR, htb, hcmp, hres]
            omega
          rw [heq]
          have hcrk : res.1 ∈ r.keys := List.mem_map_of_mem Prod.fst hm1
          refine ⟨by simp [Node.entries]; exact Or.inr (Or.inr hm1), hm2, ?_⟩
          intro k hk hkin
          rw [Node.keys_node] at hk
          rcases List.mem_append.mp hk with h | h
          · exact hcovmax k res.1 (hcanl k h) (hcanr res.1 hcrk) hkin hm2
              (le_of_lt (compare_lt_trans (hltl k h) (hgtr res.1 hcrk)))
          · rcases List.mem_cons.mp h with h | h
            · rw [h]
              exact hcovmax c res.1 hcc (hcanr res.1 hcrk)
                (by rw [← h]; exact hkin) hm2 (le_of_lt (hgtr res.1 hcrk))
            · exact hm3 k h hkin
      · -- exact hit
        have hceq : c = q := compare_eq_zero_iff.mp hcmp
        have heq : (Node.node mU l r v c p : Node α).lpmCIDR q = some (c, v) := by
          simp [Node.lpmCIDR, htb, hcmp]
        rw [heq]
        have hsub : rangeSub q c = true := by rw [hceq]; exact rangeSub_self q
        refine ⟨by simp [Node.entries], hsub, ?_⟩
        intro k hk hkin
        obtain ⟨hkf, hka, hkb⟩ := rangeSub_fields hkin
        rw [hceq]
        have hkcan : k.isCanon = true := by
          rw [Node.keys_node] at hk
          rcases List.mem_append.mp hk with h | h
          · exact hcanl k h
          · rcases List.mem_cons.mp h with h | h
            · rw [h]; exact hcc
            · exact hcanr k h
        exact Prefix.bits_le_of_rangeSub hkf (Prefix.isCanon_bits_le hkcan)
          (Prefix.isCanon_bits_le hqc) hka hkb
      · -- node key above query: descend left
        have h00 : ¬ compare c q = 0 := by omega
        have h01 : ¬ compare c q < 0 := by omega
        have heq : (Node.node mU l r v c p : Node α).lpmCIDR q = l.lpmCIDR q := by
          simp [Node.lpmCIDR, htb, h00, h01]
        rw [heq]
        have hqc' : compare q c < 0 := (compare_pos_iff).mp hcmp
        have hcns : rangeSub q c = false :=
          rangeSub_false_of_gt hcc hqc hfamc hqc'
        have hrns : ∀ k ∈ r.keys, rangeSub q k = false := fun k hk =>
          rangeSub_false_of_gt (hcanr k hk) hqc (hfamr k hk)
            (compare_lt_trans hqc' (hgtr k hk))
        have ihl' := ihl hbl hal hcl hfl
        rcases hresl : l.lpmCIDR q with _ | resl
        · rw [hresl] at ihl'
          intro k hk
          rw [Node.keys_node] at hk
          rcases List.mem_append.mp hk with h | h
          · exact ihl' k h
          · rcases List.mem_cons.mp h with h | h
            · rw [h]; exact hcns
            · exact hrns k h
        · rw [hresl] at ihl'
          obtain ⟨hm1, hm2, hm3⟩ := ihl'
          refine ⟨by simp [Node.entries]; exact Or.inl hm1, hm2, ?_⟩
          intro k hk hkin
          rw [Node.keys_node] at hk
          rcases List.mem_append.mp hk with h | h
          · exact hm3 k h hkin
          · rcases List.mem_cons.mp h with h | h
            · rw [h] at hkin
              rw [hcns] at hkin
              exact absurd hkin (by simp)
            · rw [hrns k h] at hkin
              exact absurd hkin (by simp)

/-! ### The walk suite -/

/-- The trace a walk must produce: visit the entries in list order while the
callback keeps returning true; stop immediately (visiting nothing further) at
its first false. -/
def visitSpec {σ : Type} (cb : σ → Prefix → α → σ × Bool) :
    List (Prefix × α) → σ → σ × Bool
  | [], s => (s, true)
  | e :: rest, s =>
    let t := cb s e.1 e.2
    if t.2 then visitSpec cb rest t.1 else (t.1, false)

theorem visitSpec_append {σ : Type} (cb : σ → Prefix → α → σ × Bool)
    (xs ys : List (Prefix × α)) : ∀ s : σ,
    visitSpec cb (xs ++ ys) s =
      (if (visitSpec cb xs s).2 then visitSpec cb ys (visitSpec cb xs s).1
       else visitSpec cb xs s) := by
  induction xs with
  | nil => intro s; simp [visitSpec]
  | cons e rest ih =>
    intro s
    simp only [List.cons_append, visitSpec]
    by_cases h : (cb s e.1 e.2).2 = true
    · simp [h, ih]
    · simp only [Bool.not_eq_true] at h
      simp [h]

/-- The source's in-order walk produces exactly the `visitSpec` trace of the
in-order entry list. -/
theorem Node.walk_eq_visitSpec {σ : Type} (cb : σ → Prefix → α → σ × Bool) :
    ∀ (n : Node α) (s : σ), n.walk cb s = visitSpec cb n.entries s := by
  intro n
  induction n with
  | nil => intro s; rfl
  | node mU l r v c p ihl ihr =>
    intro s
    simp only [Node.walk, Node.entries]
    rw [visitSpec_append, ← ihl]
    by_cases h1 : (l.walk cb s).2 = true
    · simp only [h1, if_pos, Bool.not_true, Bool.false_eq_true, if_false,
        visitSpec]
      by_cases h2 : (cb (l.walk cb s).1 c v).2 = true
      · simp [h2, ihr]
      · simp only [Bool.not_eq_true] at h2
        simp [h2]
    · simp only [Bool.not_eq_true] at h1
      simp [h1, Prod.ext_iff]

/-- Walking with the collecting callback appends exactly the entry list. -/
theorem visitSpec_collect :
    ∀ (es : List (Prefix × α)) (acc : List (Prefix × α)),
    visitSpec (fun s c v => (s ++ [(c, v)], true)) es acc = (acc ++ es, true) := by
  intro es
  induction es with
  | nil => intro acc; simp [visitSpec]
  | cons e rest ih => intro acc; simp [visitSpec, ih]

/-! ### Clone preserves contents and invariants -/

theorem Node.entries_clone (n : Node α) : n.clone.entries = n.entries := by
  induction n with
  | nil => rfl
  | node mU l r v c p ihl ihr =>
    simp [Node.clone, Node.entries_newNode, Node.entries, ihl, ihr]

theorem Node.keys_clone (n : Node α) : n.clone.keys = n.keys := by
  simp [Node.keys, Node.entries_clone]

theorem Node.prioLe_clone {k : Nat} (n : Node α) :
    n.clone.prioLe k = n.prioLe k := by
  cases n with
  | nil => rfl
  | node mU l r v c p => simp [Node.clone, newNode, Node.recalc, Node.prioLe]

theorem Node.allKeys_clone {f : Prefix → Bool} (n : Node α) :
    n.clone.allKeys f = n.allKeys f := by
  induction n with
  | nil => rfl
  | node mU l r v c p ihl ihr =>
    simp [Node.clone, Node.allKeys_newNode, Node.allKeys, ihl, ihr]

theorem Node.clone_pres : ∀ {n : Node α}, n.bstOk = true → n.heapOk = true →
    n.augOk = true →
    n.clone.bstOk = true ∧ n.clone.heapOk = true ∧ n.clone.augOk = true := by
  intro n
  induction n with
  | nil => intro _ _ _; exact ⟨rfl, rfl, rfl⟩
  | node mU l r v c p ihl ihr =>
    intro hb hh ha
    simp only [Node.bstOk, Bool.and_eq_true] at hb
    obtain ⟨⟨⟨hlk, hrk⟩, hbl⟩, hbr⟩ := hb
    simp only [Node.heapOk, Bool.and_eq_true] at hh
    obtain ⟨⟨⟨hlp, hrp⟩, hhl⟩, hhr⟩ := hh
    simp only [Node.augOk, Bool.and_eq_true, decide_eq_true_eq] at ha
    obtain ⟨⟨hmU, hal⟩, har⟩ := ha
    obtain ⟨ihb1, ihh1, iha1⟩ := ihl hbl hhl hal
    obtain ⟨ihb2, ihh2, iha2⟩ := ihr hbr hhr har
    simp only [Node.clone]
    refine ⟨?_, ?_, Node.augOk_newNode iha1 iha2⟩
    · refine Node.bstOk_newNode ihb1 ihb2 ?_ ?_
      · rw [Node.allKeys_clone]; exact hlk
      · rw [Node.allKeys_clone]; exact hrk
    · refine Node.heapOk_newNode ihh1 ihh2 ?_ ?_
      · rw [Node.prioLe_clone]; exact hlp
      · rw [Node.prioLe_clone]; exact hrp

/-! ### Misc list-level lemmas for the claims -/

theorem lookupE_mem {k : Prefix} {v : α} : ∀ {es : List (Prefix × α)},
    lookupE k es = some v → ∃ k', compare k k' = 0 ∧ (k', v) ∈ es := by
  intro es
  induction es with
  | nil => intro h; exact absurd h (by simp [lookupE])
  | cons e rest ih =>
    obtain ⟨c, w⟩ := e
    intro h
    by_cases hc : compare k c = 0
    · simp only [lookupE, hc, if_pos] at h
      have hwv : w = v := by injection h
      exact ⟨c, hc, by simp [hwv]⟩
    · simp only [lookupE, hc, if_neg, if_false] at h
      obtain ⟨k', h1, h2⟩ := ih h
      exact ⟨k', h1, by simp [h2]⟩

theorem lookupE_isSome_of_mem {k : Prefix} : ∀ {es : List (Prefix × α)},
    k ∈ es.map Prod.fst → ∃ v, lookupE k es = some v := by
  intro es hmem
  cases hx : lookupE k es with
  | some v => exact ⟨v, rfl⟩
  | none => exact absurd (lookupE_eq_none_iff.mp hx) (by simp [hmem])

theorem lookupE_upsertE_ne {k c : Prefix} {v : α} (hne : k ≠ c) :
    ∀ (es : List (Prefix × α)), lookupE k (upsertE c v es) = lookupE k es := by
  have hkc : compare k c ≠ 0 := fun h => hne (compare_eq_zero_iff.mp h)
  intro es
  induction es with
  | nil => simp [upsertE, lookupE, hkc]
  | cons e rest ih =>
    obtain ⟨c', w⟩ := e
    by_cases h1 : compare c c' < 0
    · simp [upsertE, h1, lookupE, hkc]
    · by_cases h2 : compare c c' = 0
      · have : c = c' := compare_eq_zero_iff.mp h2
        subst this
        simp [upsertE, h1, lookupE, hkc, compare_self]
      · simp [upsertE, h1, h2, lookupE, ih]

theorem upsertE_idem {c : Prefix} {v : α} :
    ∀ (es : List (Prefix × α)), upsertE c v (upsertE c v es) = upsertE c v es := by
  intro es
  induction es with
  | nil => simp [upsertE, compare_self]
  | cons e rest ih =>
    obtain ⟨c', w⟩ := e
    by_cases h1 : compare c c' < 0
    · simp [upsertE, h1, compare_self]
    · by_cases h2 : compare c c' = 0
      · simp [upsertE, h1, h2, compare_self]
      · simp [upsertE, h1, h2, ih]

theorem lookupE_upsertE_self {c : Prefix} {v : α} :
    ∀ (es : List (Prefix × α)), lookupE c (upsertE c v es) = some v := by
  intro es
  induction es with
  | nil => simp [upsertE, lookupE, compare_self]
  | cons e rest ih =>
    obtain ⟨c', w⟩ := e
    by_cases h1 : compare c c' < 0
    · simp [upsertE, h1, lookupE, compare_self]
    · by_cases h2 : compare c c' = 0
      · simp [upsertE, h1, h2, lookupE, compare_self]
      · simp [upsertE, h1, h2, lookupE, ih]

/-- For a sorted entry list, dropping the key `c` keeps exactly the two outer
filters, in order. -/
theorem filter_ne_eq_append {c : Prefix} : ∀ {es : List (Prefix × α)},
    es.Pairwise (fun a b => compare a.1 b.1 < 0) →
    es.filter (fun e => !(eqE c e)) = es.filter (ltE c) ++ es.filter (gtE c) := by
  intro es
  induction es with
  | nil => intro _; simp
  | cons e rest ih =>
    intro h
    obtain ⟨hhead, htail⟩ := List.pairwise_cons.mp h
    obtain ⟨k, w⟩ := e
    have hhead' : ∀ e ∈ rest, compare k e.1 < 0 := fun e he => hhead e he
    rcases lt_trichotomy (compare k c) 0 with h1 | h1 | h1
    · -- head below c: kept on the left
      have hne : eqE c (k, w) = false := by simp [eqE]; omega
      have hlt : ltE c (k, w) = true := by simp [ltE]; omega
      have hgt : gtE c (k, w) = false := by
        have := compare_neg c k
        simp [gtE]; omega
      simp [List.filter_cons, hne, hlt, hgt, ih htail]
    · -- head equals c: dropped; everything after is above c
      have hne : eqE c (k, w) = true := by simp [eqE, h1]
      have hlt : ltE c (k, w) = false := by simp [ltE]; omega
      have hgt : gtE c (k, w) = false := by
        have := compare_neg c k
        simp [gtE]; omega
      have hkeq : k = c := compare_eq_zero_iff.mp h1
      have hfl : rest.filter (ltE c) = [] :=
        List.filter_eq_nil_iff.mpr (fun e he => by
          have h2 := hhead' e he
          rw [hkeq] at h2
          have := compare_neg e.1 c
          simp [ltE]; omega)
      have hfe : rest.filter (fun e => !(eqE c e)) = rest :=
        List.filter_eq_self.mpr (fun e he => by
          have h2 := hhead' e he
          rw [hkeq] at h2
          have := compare_neg e.1 c
          simp [eqE]; omega)
      have hfg : rest.filter (gtE c) = rest :=
        List.filter_eq_self.mpr (fun e he => by
          have h2 := hhead' e he
          rw [hkeq] at h2
          simpa [gtE] using h2)
      simp [List.filter_cons, hne, hlt, hgt, hfl, hfe, hfg]
    · -- head above c: kept on the right, everything is above c
      have hne : eqE c (k, w) = false := by simp [eqE]; omega
      have hlt : ltE c (k, w) = false := by simp [ltE]; omega
      have hgt : gtE c (k, w) = true := by
        have := compare_neg c k
        simp [gtE]; omega
      have hfl : rest.filter (ltE c) = [] :=
        List.filter_eq_nil_iff.mpr (fun e he => by
          have h2 := compare_lt_trans ((compare_pos_iff).mp h1) (hhead' e he)
          have := compare_neg e.1 c
          simp [ltE]; omega)
      simp [List.filter_cons, hne, hlt, hgt, hfl, ih htail]

/-! ### Table-level invariants and reachability -/

theorem Prefix.masked_is4 (p : Prefix) : p.masked.addr.is4 = p.addr.is4 := rfl

theorem Prefix.masked_isCanon {p : Prefix} (hv : p.valid = true) :
    p.masked.isCanon = true := by
  simp only [Prefix.valid, Bool.and_eq_true, decide_eq_true_eq] at hv
  have hw : p.masked.addr.width = p.addr.width := rfl
  have hh : p.masked.host = p.host := rfl
  simp only [Prefix.isCanon, Prefix.valid, Bool.and_eq_true, decide_eq_true_eq,
    beq_iff_eq, hw, hh]
  refine ⟨⟨?_, ?_⟩, ?_⟩
  · exact hv.1
  · have h1 : p.addr.val / 2 ^ p.host * 2 ^ p.host ≤ p.addr.val :=
      Nat.div_mul_le_self _ _
    calc p.masked.addr.val = p.addr.val / 2 ^ p.host * 2 ^ p.host := rfl
    _ ≤ p.addr.val := h1
    _ < 2 ^ p.addr.width := hv.2
  · show p.addr.val / 2 ^ p.host * 2 ^ p.host % 2 ^ p.host = 0
    exact Nat.mul_mod_left _ _

theorem Prefix.masked_of_isCanon {p : Prefix} (h : p.isCanon = true) :
    p.masked = p := by
  have h1 := Prefix.first_eq_of_isCanon h
  simp only [Prefix.first] at h1
  obtain ⟨⟨a4, av⟩, b⟩ := p
  simp only [Prefix.masked]
  simp_all

theorem Table.inv_empty : (Table.empty : Table α).inv = true := rfl

theorem Node.inv_parts {b4 : Bool} {n : Node α} (h : n.inv b4 = true) :
    n.bstOk = true ∧ n.heapOk = true ∧ n.augOk = true ∧ n.canonOk = true ∧
    n.famOk b4 = true := by
  simp only [Node.inv, Bool.and_eq_true] at h
  tauto

theorem Node.inv_of_parts {b4 : Bool} {n : Node α} (h1 : n.bstOk = true)
    (h2 : n.heapOk = true) (h3 : n.augOk = true) (h4 : n.canonOk = true)
    (h5 : n.famOk b4 = true) : n.inv b4 = true := by
  simp [Node.inv, h1, h2, h3, h4, h5]

/-- Inserting a valid prefix into one family root preserves that root's
invariant. -/
theorem Node.insert_root_inv {b4 : Bool} {n : Node α} {pfx : Prefix} {v : α}
    {prio : Nat} (hi : n.inv b4 = true) (hv : pfx.valid = true)
    (hfam : pfx.addr.is4 = b4) :
    (n.insert (makeNode pfx v prio)).inv b4 = true := by
  obtain ⟨hb, hh, ha, hc, hf⟩ := Node.inv_parts hi
  have hmk : (makeNode pfx v prio : Node α)
      = Node.node pfx.masked .nil .nil v pfx.masked prio := rfl
  rw [hmk]
  obtain ⟨o1, o2, o3, _⟩ := Node.insert_pres (c := pfx.masked) (v := v)
    (p := prio) hb hh ha
  refine Node.inv_of_parts o1 o2 o3 ?_ ?_
  · exact Node.insert_allKeys hb hc (Prefix.masked_isCanon hv)
  · exact Node.insert_allKeys hb hf (by simp [Prefix.masked_is4, hfam])

theorem Table.insert_inv {t : Table α} {pfx : Prefix} {v : α} {prio : Nat}
    (hi : t.inv = true) (hv : pfx.valid = true) :
    (t.Insert pfx v prio).inv = true := by
  simp only [Table.inv, Bool.and_eq_true] at hi
  obtain ⟨hi4, hi6⟩ := hi
  by_cases h4 : pfx.addr.is4 = true
  · simp only [Table.Insert, h4, if_pos, Table.inv]
    simp [Node.insert_root_inv hi4 hv h4, hi6]
  · simp only [Table.Insert, h4, if_neg, if_false, Table.inv]
    have h6 : pfx.addr.is4 = false := by simpa using h4
    simp [Node.insert_root_inv hi6 hv h6, hi4]

theorem Table.insertImm_eq (t : Table α) (pfx : Prefix) (v : α) (prio : Nat) :
    t.InsertImmutable pfx v prio = t.Insert pfx v prio := rfl

theorem Table.deleteImm_eq (t : Table α) (pfx : Prefix) :
    t.DeleteImmutable pfx = t.Delete pfx := rfl

theorem Table.unionImm_eq (t o : Table α) : t.UnionImmutable o = t.Union o := rfl

/-- Deleting a prefix from one family root preserves that root's invariant. -/
theorem Node.delete_root_inv {b4 : Bool} {n : Node α} {c : Prefix}
    (hi : n.inv b4 = true) :
    ((n.split c).1.join (n.split c).2.2).inv b4 = true := by
  obtain ⟨hb, hh, ha, hc, hf⟩ := Node.inv_parts hi
  obtain ⟨_, _, _, hsb1, _, hsb3⟩ := Node.split_spec (c := c) hb
  obtain ⟨⟨hsh1, _, hsh3⟩, _⟩ := Node.split_heap (c := c) hh
  obtain ⟨hsa1, _, hsa3⟩ := Node.split_augOk (c := c) ha
  have hsep : ∀ kn ∈ (n.split c).1.keys, ∀ km ∈ (n.split c).2.2.keys,
      compare kn km < 0 := by
    intro kn hkn km hkm
    exact compare_lt_trans (Node.split_keys_lt hb kn hkn)
      (Node.split_keys_gt hb km hkm)
  obtain ⟨o1, o2, o3, _⟩ := Node.join_pres hsb1 hsb3 hsh1 hsh3 hsa1 hsa3 hsep
  have hsub : ∀ k ∈ ((n.split c).1.join (n.split c).2.2).keys, k ∈ n.keys := by
    intro k hk
    rw [Node.keys_join, List.mem_append] at hk
    rcases hk with hk | hk
    · exact (Node.split_keys_sub hb).1 k hk
    · exact (Node.split_keys_sub hb).2.2 k hk
  exact Node.inv_of_parts o1 o2 o3 (Node.allKeys_of_sub hsub hc)
    (Node.allKeys_of_sub hsub hf)

theorem Table.delete_inv {t : Table α} {pfx : Prefix} (hi : t.inv = true) :
    (t.Delete pfx).1.inv = true := by
  simp only [Table.inv, Bool.and_eq_true] at hi
  obtain ⟨hi4, hi6⟩ := hi
  by_cases h4 : pfx.masked.addr.is4 = true
  · simp only [Table.Delete, h4, if_pos, Table.inv]
    simp [Node.delete_root_inv hi4, hi6]
  · simp only [Table.Delete, h4, if_neg, if_false, Table.inv]
    simp [Node.delete_root_inv hi6, hi4]

theorem Node.union_root_inv {b4 : Bool} {a b : Node α} {ow : Bool}
    (ha : a.inv b4 = true) (hb : b.inv b4 = true) :
    (a.union b ow).inv b4 = true := by
  obtain ⟨hab, hah, haa, hac, haf⟩ := Node.inv_parts ha
  obtain ⟨hbb, hbh, hba, hbc, hbf⟩ := Node.inv_parts hb
  obtain ⟨o1, o2, o3, _⟩ := Node.union_pres a b ow hab hbb hah hbh haa hba
  exact Node.inv_of_parts o1 o2 o3 (Node.union_allKeys hab hbb hac hbc)
    (Node.union_allKeys hab hbb haf hbf)

theorem Table.union_inv {t o : Table α} (ht : t.inv = true) (ho : o.inv = true) :
    (t.Union o).inv = true := by
  simp only [Table.inv, Bool.and_eq_true] at ht ho
  simp only [Table.Union, Table.inv]
  simp [Node.union_root_inv ht.1 ho.1, Node.union_root_inv ht.2 ho.2]

theorem Node.clone_root_inv {b4 : Bool} {n : Node α} (hi : n.inv b4 = true) :
    n.clone.inv b4 = true := by
  obtain ⟨hb, hh, ha, hc, hf⟩ := Node.inv_parts hi
  obtain ⟨o1, o2, o3⟩ := Node.clone_pres hb hh ha
  refine Node.inv_of_parts o1 o2 o3 ?_ ?_
  · rw [Node.canonOk, Node.allKeys_clone]; exact hc
  · rw [Node.famOk, Node.allKeys_clone]; exact hf

theorem Table.clone_inv {t : Table α} (ht : t.inv = true) :
    t.Clone.inv = true := by
  simp only [Table.inv, Bool.and_eq_true] at ht
  simp only [Table.Clone, Table.inv]
  simp [Node.clone_root_inv ht.1, Node.clone_root_inv ht.2]

/-- Tables reachable from the zero table by any sequence of the public
mutations, with arbitrary values and arbitrary priorities (the model of the
source's random priorities); prefixes are the valid ones `netip` constructs. -/
inductive Reach : Table α → Prop where
  | empty : Reach Table.empty
  | insert {t : Table α} (pfx : Prefix) (v : α) (prio : Nat)
      (hv : pfx.valid = true) : Reach t → Reach (t.Insert pfx v prio)
  | insertImm {t : Table α} (pfx : Prefix) (v : α) (prio : Nat)
      (hv : pfx.valid = true) : Reach t → Reach (t.InsertImmutable pfx v prio)
  | delete {t : Table α} (pfx : Prefix) : Reach t → Reach (t.Delete pfx).1
  | deleteImm {t : Table α} (pfx : Prefix) : Reach t →
      Reach (t.DeleteImmutable pfx).1
  | union {t o : Table α} : Reach t → Reach o → Reach (t.Union o)
  | unionImm {t o : Table α} : Reach t → Reach o → Reach (t.UnionImmutable o)
  | clone {t : Table α} : Reach t → Reach t.Clone

/-- Every reachable table satisfies the bundled invariant. -/
theorem Reach.inv {t : Table α} (h : Reach t) : t.inv = true := by
  induction h with
  | empty => exact Table.inv_empty
  | insert pfx v prio hv _ ih => exact Table.insert_inv ih hv
  | insertImm pfx v prio hv _ ih =>
    rw [Table.insertImm_eq]; exact Table.insert_inv ih hv
  | delete pfx _ ih => exact Table.delete_inv ih
  | deleteImm pfx _ ih => rw [Table.deleteImm_eq]; exact Table.delete_inv ih
  | union _ _ iht iho => exact Table.union_inv iht iho
  | unionImm _ _ iht iho => rw [Table.unionImm_eq]; exact Table.union_inv iht iho
  | clone _ ih => exact Table.clone_inv ih

/-! ### Determinism of lookups from the visible contents -/

/-- Two canonical same-family prefixes of equal bit length covering a common
point are equal. -/
theorem eq_of_same_bits_cover {c1 c2 : Prefix} (h1 : c1.isCanon = true)
    (h2 : c2.isCanon = true) (hfam : c1.addr.is4 = c2.addr.is4)
    (hbits : c1.bits = c2.bits) {x : Nat}
    (hin1 : c1.first ≤ x ∧ x ≤ c1.last) (hin2 : c2.first ≤ x ∧ x ≤ c2.last) :
    c1 = c2 := by
  have hw : c1.addr.width = c2.addr.width := by simp [Addr.width, hfam]
  have hh : c1.host = c2.host := by simp [Prefix.host, hw, hbits]
  have hfe : c1.first = c2.first := by
    by_contra hne
    rcases Nat.lt_or_ge c1.first c2.first with hlt | hge
    · refine block_start_apart (two_pow_pos c1.host) c1.pow_dvd_first ?_ hlt ?_
      · rw [hh]; exact c2.pow_dvd_first
      · have := c1.last_eq; omega
    · have hlt : c2.first < c1.first := by omega
      refine block_start_apart (two_pow_pos c2.host) c2.pow_dvd_first ?_ hlt ?_
      · rw [← hh]; exact c1.pow_dvd_first
      · have := c2.last_eq; omega
  have hv : c1.addr.val = c2.addr.val := by
    rw [Prefix.isCanon_val_eq_first h1, Prefix.isCanon_val_eq_first h2, hfe]
  obtain ⟨⟨a4, av⟩, ab⟩ := c1
  obtain ⟨⟨b4, bv⟩, bb⟩ := c2
  simp_all

theorem pairwise_entry_unique : ∀ {es : List (Prefix × α)},
    es.Pairwise (fun a b => compare a.1 b.1 < 0) → ∀ {k : Prefix} {v1 v2 : α},
    (k, v1) ∈ es → (k, v2) ∈ es → v1 = v2 := by
  intro es
  induction es with
  | nil =>
    intro _ k v1 v2 h1 _
    exact absurd h1 (List.not_mem_nil _)
  | cons e rest ih =>
    intro h k v1 v2 h1 h2
    obtain ⟨hhead, htail⟩ := List.pairwise_cons.mp h
    rcases List.mem_cons.mp h1 with h1' | h1' <;>
      rcases List.mem_cons.mp h2 with h2' | h2'
    · rw [← h1'] at h2'
      injection h2' with h2k h2v
      exact h2v.symm
    · exfalso
      have := hhead (k, v2) h2'
      rw [← h1'] at this
      rw [compare_self] at this
      omega
    · exfalso
      have := hhead (k, v1) h1'
      rw [← h2'] at this
      rw [compare_self] at this
      omega
    · exact ih htail h1' h2'

/-- The address lookup result is determined by the visible entry list: any two
results both satisfying the specification over equal contents agree. -/
theorem lpmIPGood_unique {b4 : Bool} {ip : Addr} (hip : ip.is4 = b4)
    {n m : Node α} {x y : Option (Prefix × α)}
    (hbn : n.bstOk = true) (hcn : n.canonOk = true) (hfn : n.famOk b4 = true)
    (hen : m.entries = n.entries)
    (hx : lpmIPGood n ip x) (hy : lpmIPGood m ip y) : x = y := by
  have hkeys : m.keys = n.keys := by simp [Node.keys, hen]
  cases x with
  | none =>
    cases y with
    | none => rfl
    | some ry =>
      obtain ⟨hm1, hm2, _⟩ := hy
      exfalso
      have hrk : ry.1 ∈ n.keys := by
        rw [← hkeys]; exact List.mem_map_of_mem Prod.fst hm1
      have := hx ry.1 hrk
      rw [this] at hm2
      exact absurd hm2 (by simp)
  | some rx =>
    obtain ⟨hx1, hx2, hx3⟩ := hx
    cases y with
    | none =>
      exfalso
      have hrk : rx.1 ∈ n.keys := List.mem_map_of_mem Prod.fst hx1
      have := hy rx.1 (by rw [hkeys]; exact hrk)
      rw [this] at hx2
      exact absurd hx2 (by simp)
    | some ry =>
      obtain ⟨hy1, hy2, hy3⟩ := hy
      have hrxk : rx.1 ∈ n.keys := List.mem_map_of_mem Prod.fst hx1
      have hryk : ry.1 ∈ n.keys := by
        rw [← hkeys]; exact List.mem_map_of_mem Prod.fst hy1
      have hb1 : ry.1.bits ≤ rx.1.bits := hx3 ry.1 hryk hy2
      have hb2 : rx.1.bits ≤ ry.1.bits := hy3 rx.1 (by rw [hkeys]; exact hrxk) hx2
      have hcan1 : rx.1.isCanon = true := Node.allKeys_iff.mp hcn rx.1 hrxk
      have hcan2 : ry.1.isCanon = true := Node.allKeys_iff.mp hcn ry.1 hryk
      have hf1 : rx.1.addr.is4 = ip.is4 := by
        have := Node.allKeys_iff.mp hfn rx.1 hrxk
        simp at this
        rw [this, hip]
      have hf2 : ry.1.addr.is4 = ip.is4 := by
        have := Node.allKeys_iff.mp hfn ry.1 hryk
        simp at this
        rw [this, hip]
      have hkey : rx.1 = ry.1 :=
        eq_of_same_bits_cover hcan1 hcan2 (by rw [hf1, hf2]) (by omega)
          ((Prefix.containsAddr_iff hf1).mp hx2)
          ((Prefix.containsAddr_iff hf2).mp hy2)
      have hval : rx.2 = ry.2 := by
        have hpp := Node.pairwise_entries hbn
        have hy1' : (rx.1, ry.2) ∈ n.entries := by
          rw [← hen]
          rw [hkey]
          exact hy1
        exact pairwise_entry_unique hpp hx1 hy1'
      cases rx; cases ry
      simp_all

/-- The prefix lookup result is determined by the visible entry list. -/
theorem lpmCIDRGood_unique {b4 : Bool} {q : Prefix} (hq4 : q.addr.is4 = b4)
    (hqc : q.isCanon = true) {n m : Node α} {x y : Option (Prefix × α)}
    (hbn : n.bstOk = true) (hcn : n.canonOk = true) (hfn : n.famOk b4 = true)
    (hen : m.entries = n.entries)
    (hx : lpmCIDRGood n q x) (hy : lpmCIDRGood m q y) : x = y := by
  have hkeys : m.keys = n.keys := by simp [Node.keys, hen]
  cases x with
  | none =>
    cases y with
    | none => rfl
    | some ry =>
      obtain ⟨hm1, hm2, _⟩ := hy
      exfalso
      have hrk : ry.1 ∈ n.keys := by
        rw [← hkeys]; exact List.mem_map_of_mem Prod.fst hm1
      have := hx ry.1 hrk
      rw [this] at hm2
      exact absurd hm2 (by simp)
  | some rx =>
    obtain ⟨hx1, hx2, hx3⟩ := hx
    cases y with
    | none =>
      exfalso
      have hrk : rx.1 ∈ n.keys := List.mem_map_of_mem Prod.fst hx1
      have := hy rx.1 (by rw [hkeys]; exact hrk)
      rw [this] at hx2
      exact absurd hx2 (by simp)
    | some ry =>
      obtain ⟨hy1, hy2, hy3⟩ := hy
      have hrxk : rx.1 ∈ n.keys := List.mem_map_of_mem Prod.fst hx1
      have hryk : ry.1 ∈ n.keys := by
        rw [← hkeys]; exact List.mem_map_of_mem Prod.fst hy1
      have hb1 : ry.1.bits ≤ rx.1.bits := hx3 ry.1 hryk hy2
      have hb2 : rx.1.bits ≤ ry.1.bits := hy3 rx.1 (by rw [hkeys]; exact hrxk) hx2
      have hcan1 : rx.1.isCanon = true := Node.allKeys_iff.mp hcn rx.1 hrxk
      have hcan2 : ry.1.isCanon = true := Node.allKeys_iff.mp hcn ry.1 hryk
      obtain ⟨hxf, hxa, hxb⟩ := rangeSub_fields hx2
      obtain ⟨hyf, hya, hyb⟩ := rangeSub_fields hy2
      have hql := q.first_le_last
      have hkey : rx.1 = ry.1 :=
        eq_of_same_bits_cover hcan1 hcan2 (by rw [hxf, hyf]) (by omega)
          (x := q.first) ⟨hxa, by omega⟩ ⟨hya, by omega⟩
      have hval : rx.2 = ry.2 := by
        have hpp := Node.pairwise_entries hbn
        have hy1' : (rx.1, ry.2) ∈ n.entries := by
          rw [← hen]
          rw [hkey]
          exact hy1
        exact pairwise_entry_unique hpp hx1 hy1'
      cases rx; cases ry
      simp_all

/-- Lookups are functions of the visible per-family entry lists: two invariant
tables with the same entries answer every `Lookup` and every canonical
`LookupPrefix` identically. -/
theorem Table.lookup_congr {t u : Table α} (ht : t.inv = true) (hu : u.inv = true)
    (h4 : u.root4.entries = t.root4.entries)
    (h6 : u.root6.entries = t.root6.entries) :
    (∀ ip, u.Lookup ip = t.Lookup ip) ∧
    (∀ q : Prefix, q.isCanon = true → u.LookupPrefix q = t.LookupPrefix q) := by
  simp only [Table.inv, Bool.and_eq_true] at ht hu
  obtain ⟨hb4, hh4, ha4, hc4, hf4⟩ := Node.inv_parts ht.1
  obtain ⟨hb6, hh6, ha6, hc6, hf6⟩ := Node.inv_parts ht.2
  obtain ⟨ub4, uh4, ua4, uc4, uf4⟩ := Node.inv_parts hu.1
  obtain ⟨ub6, uh6, ua6, uc6, uf6⟩ := Node.inv_parts hu.2
  constructor
  · intro ip
    by_cases hi : ip.is4 = true
    · simp only [Table.Lookup, hi, if_pos]
      exact (lpmIPGood_unique hi hb4 hc4 hf4 h4
        (Node.lpmIP_spec hi hb4 ha4 hc4 hf4)
        (Node.lpmIP_spec hi ub4 ua4 uc4 uf4)).symm
    · have hi' : ip.is4 = false := by simpa using hi
      simp only [Table.Lookup, hi, if_neg, if_false]
      exact (lpmIPGood_unique hi' hb6 hc6 hf6 h6
        (Node.lpmIP_spec hi' hb6 ha6 hc6 hf6)
        (Node.lpmIP_spec hi' ub6 ua6 uc6 uf6)).symm
  · intro q hqc
    by_cases hi : q.addr.is4 = true
    · simp only [Table.LookupPrefix, hi, if_pos]
      exact (lpmCIDRGood_unique hi hqc hb4 hc4 hf4 h4
        (Node.lpmCIDR_spec hi hqc hb4 ha4 hc4 hf4)
        (Node.lpmCIDR_spec hi hqc ub4 ua4 uc4 uf4)).symm
    · have hi' : q.addr.is4 = false := by simpa using hi
      simp only [Table.LookupPrefix, hi, if_neg, if_false]
      exact (lpmCIDRGood_unique hi' hqc hb6 hc6 hf6 h6
        (Node.lpmCIDR_spec hi' hqc hb6 ha6 hc6 hf6)
        (Node.lpmCIDR_spec hi' hqc ub6 ua6 uc6 uf6)).symm

/-! ### Table-level visible contents -/

/-- The visible contents of a table, IPv4 entries first (the order `Walk`
visits them). -/
def Table.entries (t : Table α) : List (Prefix × α) :=
  t.root4.entries ++ t.root6.entries

/-- The stored prefixes of a table, in `Walk` order. -/
def Table.keys (t : Table α) : List Prefix := t.entries.map Prod.fst

theorem Table.keys_eq (t : Table α) : t.keys = t.root4.keys ++ t.root6.keys := by
  simp [Table.keys, Table.entries, Node.keys]

/-- A key of an invariant table lives in the root of its own family. -/
theorem Table.mem_keys_fam {t : Table α} (hi : t.inv = true) {k : Prefix} :
    (k.addr.is4 = true → (k ∈ t.keys ↔ k ∈ t.root4.keys)) ∧
    (k.addr.is4 = false → (k ∈ t.keys ↔ k ∈ t.root6.keys)) := by
  simp only [Table.inv, Bool.and_eq_true] at hi
  obtain ⟨_, _, _, _, hf4⟩ := Node.inv_parts hi.1
  obtain ⟨_, _, _, _, hf6⟩ := Node.inv_parts hi.2
  rw [Table.keys_eq]
  constructor
  · intro h4
    constructor
    · intro hk
      rcases List.mem_append.mp hk with hk | hk
      · exact hk
      · have := Node.allKeys_iff.mp hf6 k hk
        simp [h4] at this
    · intro hk; exact List.mem_append_left _ hk
  · intro h6
    constructor
    · intro hk
      rcases List.mem_append.mp hk with hk | hk
      · have := Node.allKeys_iff.mp hf4 k hk
        simp [h6] at this
      · exact hk
    · intro hk; exact List.mem_append_right _ hk

/-- Table walk is the visit trace over the table's entry list. -/
theorem Table.walk_eq {σ : Type} (t : Table α) (cb : σ → Prefix → α → σ × Bool)
    (s : σ) : t.Walk cb s = visitSpec cb t.entries s := by
  simp only [Table.Walk, Table.entries]
  rw [visitSpec_append, Node.walk_eq_visitSpec, Node.walk_eq_visitSpec]
  by_cases h : (visitSpec cb t.root4.entries s).2 = true
  · simp [h]
  · simp only [Bool.not_eq_true] at h
    simp [h, Prod.ext_iff]

/-- Effect of `Insert` on the per-family entry lists. -/
theorem Table.insert_entries {t : Table α} {pfx : Prefix} {v : α} {prio : Nat}
    (hi : t.inv = true) :
    (pfx.addr.is4 = true →
      (t.Insert pfx v prio).root4.entries = upsertE pfx.masked v t.root4.entries ∧
      (t.Insert pfx v prio).root6 = t.root6) ∧
    (pfx.addr.is4 = false →
      (t.Insert pfx v prio).root6.entries = upsertE pfx.masked v t.root6.entries ∧
      (t.Insert pfx v prio).root4 = t.root4) := by
  simp only [Table.inv, Bool.and_eq_true] at hi
  obtain ⟨hb4, _, _, _, _⟩ := Node.inv_parts hi.1
  obtain ⟨hb6, _, _, _, _⟩ := Node.inv_parts hi.2
  constructor
  · intro h4
    have hI : t.Insert pfx v prio = ⟨t.root4.insert (makeNode pfx v prio), t.root6⟩ := by
      simp [Table.Insert, h4]
    rw [hI]
    exact ⟨Node.entries_insert hb4, rfl⟩
  · intro h6
    have hI : t.Insert pfx v prio = ⟨t.root4, t.root6.insert (makeNode pfx v prio)⟩ := by
      simp [Table.Insert, h6]
    rw [hI]
    exact ⟨Node.entries_insert hb6, rfl⟩

/-- Effect of `Delete` on the per-family entry lists, and the meaning of the
found flag. -/
theorem Table.delete_spec {t : Table α} {pfx : Prefix} (hi : t.inv = true) :
    ((t.Delete pfx).2 = true ↔ pfx.masked ∈ t.keys) ∧
    (t.Delete pfx).1.entries = t.entries.filter (fun e => !(eqE pfx.masked e)) := by
  have hi' := hi
  simp only [Table.inv, Bool.and_eq_true] at hi'
  obtain ⟨hb4, _, _, _, hf4⟩ := Node.inv_parts hi'.1
  obtain ⟨hb6, _, _, _, hf6⟩ := Node.inv_parts hi'.2
  have hfilter_other : ∀ (n : Node α) (b4 : Bool), n.famOk b4 = true →
      pfx.masked.addr.is4 ≠ b4 →
      n.entries.filter (fun e => !(eqE pfx.masked e)) = n.entries := by
    intro n b4 hf hne
    refine List.filter_eq_self.mpr (fun e he => ?_)
    have hk : e.1.addr.is4 = b4 := by
      have := Node.allKeys_iff.mp hf e.1 (List.mem_map_of_mem Prod.fst he)
      simpa using this
    have : e.1 ≠ pfx.masked := fun h => hne (by rw [← h, hk])
    simp only [eqE, Bool.not_eq_eq_eq_not, Bool.not_true, decide_eq_false_iff_not]
    intro hc
    exact this (compare_eq_zero_iff.mp hc)
  have hsplit : ∀ (n : Node α), n.bstOk = true →
      ((n.split pfx.masked).1.join (n.split pfx.masked).2.2).entries =
        n.entries.filter (fun e => !(eqE pfx.masked e)) ∧
      ((n.split pfx.masked).2.1.isNil = false ↔ pfx.masked ∈ n.keys) := by
    intro n hb
    obtain ⟨h1, _, h3, _, _, _⟩ := Node.split_spec (c := pfx.masked) hb
    constructor
    · rw [Node.join_entries, h1, h3]
      exact (filter_ne_eq_append (Node.pairwise_entries hb)).symm
    · rcases Node.split_mid_spec (c := pfx.masked) hb with ⟨hmid, hnone⟩ |
        ⟨dmU, dl, dr, dv, dp, hmid, hsome⟩
      · rw [hmid]
        simp only [Node.isNil]
        constructor
        · intro h; exact absurd h (by simp)
        · intro h
          exact absurd (lookupE_eq_none_iff.mp hnone) (by simp [Node.keys] at h ⊢; exact h)
      · rw [hmid]
        simp only [Node.isNil]
        constructor
        · intro _
          obtain ⟨k', hk1, hk2⟩ := lookupE_mem hsome
          have : pfx.masked = k' := compare_eq_zero_iff.mp hk1
          rw [this]
          exact List.mem_map_of_mem Prod.fst hk2
        · intro _; trivial
  by_cases h4 : pfx.masked.addr.is4 = true
  · have hD : t.Delete pfx =
        (⟨(t.root4.split pfx.masked).1.join (t.root4.split pfx.masked).2.2, t.root6⟩,
          !(t.root4.split pfx.masked).2.1.isNil) := by
      simp [Table.Delete, h4]
    obtain ⟨he, hfl⟩ := hsplit t.root4 hb4
    have hmem := (Table.mem_keys_fam hi).1 h4
    rw [hD]
    constructor
    · simp only [Bool.not_eq_true', hfl]
      exact hmem.symm
    · simp only [Table.entries, List.filter_append]
      rw [he, hfilter_other t.root6 false hf6 (by simp [h4])]
  · have h6 : pfx.masked.addr.is4 = false := by simpa using h4
    have hD : t.Delete pfx =
        (⟨t.root4, (t.root6.split pfx.masked).1.join (t.root6.split pfx.masked).2.2⟩,
          !(t.root6.split pfx.masked).2.1.isNil) := by
      simp [Table.Delete, h6]
    obtain ⟨he, hfl⟩ := hsplit t.root6 hb6
    have hmem := (Table.mem_keys_fam hi).2 h6
    rw [hD]
    constructor
    · simp only [Bool.not_eq_true', hfl]
      exact hmem.symm
    · simp only [Table.entries, List.filter_append]
      rw [he, hfilter_other t.root4 true hf4 (by simp [h6])]

/-! ### Building tables from insertion lists -/

/-- Build a table by inserting a list of (prefix, value, priority) triples into
the zero table, in list order, with the in-place `Insert`. -/
def buildTable (l : List (Prefix × α × Nat)) : Table α :=
  l.foldl (fun t e => t.Insert e.1 e.2.1 e.2.2) Table.empty

theorem foldInsert_reach {l : List (Prefix × α × Nat)} :
    ∀ {t : Table α}, Reach t → (∀ e ∈ l, e.1.valid = true) →
    Reach (l.foldl (fun s e => s.Insert e.1 e.2.1 e.2.2) t) := by
  induction l with
  | nil => intro t ht _; simpa using ht
  | cons e rest ih =>
    intro t ht hv
    simp only [List.foldl_cons]
    exact ih (Reach.insert e.1 e.2.1 e.2.2 (hv e (by simp)) ht)
      (fun x hx => hv x (by simp [hx]))

theorem buildTable_reach {l : List (Prefix × α × Nat)}
    (hv : ∀ e ∈ l, e.1.valid = true) : Reach (buildTable l) :=
  foldInsert_reach Reach.empty hv

/-- Membership effect of a single `Insert` on each family's key set. -/
theorem Table.insert_mem_keys {t : Table α} {pfx : Prefix} {v : α} {prio : Nat}
    (hi : t.inv = true) (k : Prefix) :
    (k ∈ (t.Insert pfx v prio).root4.keys ↔
      (pfx.addr.is4 = true ∧ pfx.masked = k) ∨ k ∈ t.root4.keys) ∧
    (k ∈ (t.Insert pfx v prio).root6.keys ↔
      (pfx.addr.is4 = false ∧ pfx.masked = k) ∨ k ∈ t.root6.keys) := by
  obtain ⟨h4, h6⟩ := @Table.insert_entries α t pfx v prio hi
  by_cases hfam : pfx.addr.is4 = true
  · obtain ⟨he, hr6⟩ := h4 hfam
    constructor
    · rw [Node.keys, he, mem_keys_upsertE]
      constructor
      · rintro (h | h)
        · exact Or.inl ⟨hfam, h.symm⟩
        · exact Or.inr h
      · rintro (⟨_, h⟩ | h)
        · exact Or.inl h.symm
        · exact Or.inr h
    · rw [hr6]
      simp [hfam]
  · have hfam' : pfx.addr.is4 = false := by simpa using hfam
    obtain ⟨he, hr4⟩ := h6 hfam'
    constructor
    · rw [hr4]
      simp [hfam']
    · rw [Node.keys, he, mem_keys_upsertE]
      constructor
      · rintro (h | h)
        · exact Or.inl ⟨hfam', h.symm⟩
        · exact Or.inr h
      · rintro (⟨_, h⟩ | h)
        · exact Or.inl h.symm
        · exact Or.inr h

theorem foldInsert_mem {l : List (Prefix × α × Nat)} :
    ∀ {t : Table α}, t.inv = true → (∀ e ∈ l, e.1.valid = true) → ∀ k : Prefix,
    (k ∈ (l.foldl (fun s e => s.Insert e.1 e.2.1 e.2.2) t).root4.keys ↔
      k ∈ t.root4.keys ∨ ∃ e ∈ l, e.1.addr.is4 = true ∧ e.1.masked = k) ∧
    (k ∈ (l.foldl (fun s e => s.Insert e.1 e.2.1 e.2.2) t).root6.keys ↔
      k ∈ t.root6.keys ∨ ∃ e ∈ l, e.1.addr.is4 = false ∧ e.1.masked = k) := by
  induction l with
  | nil => intro t _ _ k; simp
  | cons e rest ih =>
    intro t hi hv k
    simp only [List.foldl_cons]
    have hi' : (t.Insert e.1 e.2.1 e.2.2).inv = true :=
      Table.insert_inv hi (hv e (by simp))
    obtain ⟨ih4, ih6⟩ := ih hi' (fun x hx => hv x (by simp [hx])) k
    obtain ⟨hm4, hm6⟩ := @Table.insert_mem_keys α t e.1 e.2.1 e.2.2 hi k
    constructor
    · rw [ih4, hm4]
      constructor
      · rintro ((⟨ha, hb⟩ | h) | ⟨x, hx, hx2⟩)
        · exact Or.inr ⟨e, by simp, ha, hb⟩
        · exact Or.inl h
        · exact Or.inr ⟨x, by simp [hx], hx2⟩
      · rintro (h | ⟨x, hx, hx2⟩)
        · exact Or.inl (Or.inr h)
        · rcases List.mem_cons.mp hx with rfl | hx'
          · exact Or.inl (Or.inl hx2)
          · exact Or.inr ⟨x, hx', hx2⟩
    · rw [ih6, hm6]
      constructor
      · rintro ((⟨ha, hb⟩ | h) | ⟨x, hx, hx2⟩)
        · exact Or.inr ⟨e, by simp, ha, hb⟩
        · exact Or.inl h
        · exact Or.inr ⟨x, by simp [hx], hx2⟩
      · rintro (h | ⟨x, hx, hx2⟩)
        · exact Or.inl (Or.inr h)
        · rcases List.mem_cons.mp hx with rfl | hx'
          · exact Or.inl (Or.inl hx2)
          · exact Or.inr ⟨x, hx', hx2⟩

theorem buildTable_mem {l : List (Prefix × α × Nat)}
    (hv : ∀ e ∈ l, e.1.valid = true) (k : Prefix) :
    (k ∈ (buildTable l).root4.keys ↔
      ∃ e ∈ l, e.1.addr.is4 = true ∧ e.1.masked = k) ∧
    (k ∈ (buildTable l).root6.keys ↔
      ∃ e ∈ l, e.1.addr.is4 = false ∧ e.1.masked = k) := by
  have h := foldInsert_mem (t := Table.empty) Table.inv_empty hv k
  simpa [buildTable, Table.empty, Node.keys, Node.entries] using h

/-- A treap absorbs a union with `nil` on the right. -/
theorem Node.union_nil (n : Node α) (ow : Bool) : n.union Node.nil ow = n := by
  cases n with
  | nil => simp [Node.union]
  | node mU l r v c p => simp [Node.union]

/-- The full key list of an invariant table is strictly ascending under
`compare`: each family's keys are ascending by the BST invariant, and every
IPv4 key sorts below every IPv6 key. -/
theorem Table.keys_sorted {t : Table α} (hi : t.inv = true) :
    t.keys.Pairwise (fun a b => compare a b < 0) := by
  simp only [Table.inv, Bool.and_eq_true] at hi
  obtain ⟨hb4, _, _, _, hf4⟩ := Node.inv_parts hi.1
  obtain ⟨hb6, _, _, _, hf6⟩ := Node.inv_parts hi.2
  rw [Table.keys_eq, List.pairwise_append]
  refine ⟨?_, ?_, ?_⟩
  · exact List.pairwise_map.mpr (Node.pairwise_entries hb4)
  · exact List.pairwise_map.mpr (Node.pairwise_entries hb6)
  · intro a ha b hb
    have ha4 : a.addr.is4 = true := by
      have := Node.allKeys_iff.mp hf4 a ha; simpa using this
    have hb6' : b.addr.is4 = false := by
      have := Node.allKeys_iff.mp hf6 b hb; simpa using this
    exact compare_lt_iff.mpr (Or.inl (Addr.cmp_lt_iff.mpr (Or.inl ⟨ha4, hb6'⟩)))

/-- Per-root effect of `Delete`: the target family is filtered, the other
family root is untouched. -/
theorem Table.delete_roots {t : Table α} {pfx : Prefix} (hi : t.inv = true) :
    (pfx.masked.addr.is4 = true →
      (t.Delete pfx).1.root4.entries =
        t.root4.entries.filter (fun e => !(eqE pfx.masked e)) ∧
      (t.Delete pfx).1.root6 = t.root6) ∧
    (pfx.masked.addr.is4 = false →
      (t.Delete pfx).1.root6.entries =
        t.root6.entries.filter (fun e => !(eqE pfx.masked e)) ∧
      (t.Delete pfx).1.root4 = t.root4) := by
  simp only [Table.inv, Bool.and_eq_true] at hi
  obtain ⟨hb4, _, _, _, _⟩ := Node.inv_parts hi.1
  obtain ⟨hb6, _, _, _, _⟩ := Node.inv_parts hi.2
  have hsplit : ∀ (n : Node α), n.bstOk = true →
      ((n.split pfx.masked).1.join (n.split pfx.masked).2.2).entries =
        n.entries.filter (fun e => !(eqE pfx.masked e)) := by
    intro n hb
    obtain ⟨h1, _, h3, _, _, _⟩ := Node.split_spec (c := pfx.masked) hb
    rw [Node.join_entries, h1, h3]
    exact (filter_ne_eq_append (Node.pairwise_entries hb)).symm
  constructor
  · intro h4
    have hD : t.Delete pfx =
        (⟨(t.root4.split pfx.masked).1.join (t.root4.split pfx.masked).2.2, t.root6⟩,
          !(t.root4.split pfx.masked).2.1.isNil) := by
      simp [Table.Delete, h4]
    rw [hD]
    exact ⟨hsplit t.root4 hb4, rfl⟩
  · intro h6
    have hD : t.Delete pfx =
        (⟨t.root4, (t.root6.split pfx.masked).1.join (t.root6.split pfx.masked).2.2⟩,
          !(t.root6.split pfx.masked).2.1.isNil) := by
      simp [Table.Delete, h6]
    rw [hD]
    exact ⟨hsplit t.root6 hb6, rfl⟩

/-- On an invariant table, a stored canonical prefix is a direct hit for the
prefix lookup: `LookupPrefix` returns it together with its stored value. -/
theorem Table.lookupPrefix_self {t : Table α} {q : Prefix} {v : α}
    (hi : t.inv = true) (hqc : q.isCanon = true) (hmem : (q, v) ∈ t.entries) :
    t.LookupPrefix q = some (q, v) := by
  simp only [Table.inv, Bool.and_eq_true] at hi
  obtain ⟨hb4, _, ha4, hc4, hf4⟩ := Node.inv_parts hi.1
  obtain ⟨hb6, _, ha6, hc6, hf6⟩ := Node.inv_parts hi.2
  have hqfirst : q.first ≤ q.last := by
    have := q.last_eq; omega
  have main : ∀ (n : Node α) (b4 : Bool), q.addr.is4 = b4 → n.bstOk = true →
      n.augOk = true → n.canonOk = true → n.famOk b4 = true →
      (q, v) ∈ n.entries → n.lpmCIDR q = some (q, v) := by
    intro n b4 hq4 hb ha hc hf hm
    have hgood := Node.lpmCIDR_spec hq4 hqc hb ha hc hf
    have hqk : q ∈ n.keys := List.mem_map_of_mem Prod.fst hm
    cases hres : n.lpmCIDR q with
    | none =>
      rw [hres] at hgood
      have hcontr := hgood q hqk
      rw [rangeSub_self] at hcontr
      exact absurd hcontr (by simp)
    | some res =>
      rw [hres] at hgood
      obtain ⟨hrmem, hrsub, hrmax⟩ := hgood
      have hrk : res.1 ∈ n.keys := List.mem_map_of_mem Prod.fst hrmem
      have hrcan : res.1.isCanon = true := by
        have := Node.allKeys_iff.mp hc res.1 hrk; simpa using this
      have hrfam : res.1.addr.is4 = q.addr.is4 := by
        have h1 := Node.allKeys_iff.mp hf res.1 hrk
        simp only [beq_iff_eq] at h1
        rw [h1, hq4]
      simp only [rangeSub, Bool.and_eq_true, decide_eq_true_eq] at hrsub
      obtain ⟨⟨_, hr1⟩, hr2⟩ := hrsub
      have hble : res.1.bits ≤ q.bits :=
        Prefix.bits_le_of_rangeSub hrfam (Prefix.isCanon_bits_le hrcan)
          (Prefix.isCanon_bits_le hqc) hr1 hr2
      have hbge : q.bits ≤ res.1.bits := hrmax q hqk (rangeSub_self q)
      have hkey : res.1 = q :=
        eq_of_same_bits_cover hrcan hqc hrfam (by omega)
          ⟨hr1, le_trans hqfirst hr2⟩ ⟨le_refl _, hqfirst⟩
      have hval : res.2 = v := by
        refine pairwise_entry_unique (Node.pairwise_entries hb) ?_ hm
        rw [← hkey]
        exact hrmem
      obtain ⟨r1, r2⟩ := res
      simp only at hkey hval
      rw [hkey, hval]
  rcases List.mem_append.mp hmem with hm | hm
  · have hq4 : q.addr.is4 = true := by
      have := Node.allKeys_iff.mp hf4 q (List.mem_map_of_mem Prod.fst hm)
      simpa using this
    simp only [Table.LookupPrefix, hq4, if_pos]
    exact main t.root4 true hq4 hb4 ha4 hc4 hf4 hm
  · have hq6 : q.addr.is4 = false := by
      have := Node.allKeys_iff.mp hf6 q (List.mem_map_of_mem Prod.fst hm)
      simpa using this
    simp only [Table.LookupPrefix, hq6, Bool.false_eq_true, if_false]
    exact main t.root6 false hq6 hb6 ha6 hc6 hf6 hm

/-- A prefix of the wrong family never covers a query's range. -/
theorem rangeSub_false_of_fam {q k : Prefix} (h : ¬ k.addr.is4 = q.addr.is4) :
    rangeSub q k = false := by
  have hb : (k.addr.is4 == q.addr.is4) = false := by
    cases hk : k.addr.is4 <;> cases hq : q.addr.is4 <;> simp_all
  simp [rangeSub, hb]

/-- The table-level contract of `LookupPrefix`: a hit is a stored entry
covering the query's whole range with maximal bit length among all covering
stored prefixes; a miss means no stored prefix covers it. -/
def tableLookupPrefixGood (t : Table α) (q : Prefix) : Prop :=
  match t.LookupPrefix q with
  | some res => res ∈ t.entries ∧ rangeSub q res.1 = true ∧
      ∀ k ∈ t.keys, rangeSub q k = true → k.bits ≤ res.1.bits
  | none => ∀ k ∈ t.keys, rangeSub q k = false

/-- The example prefix set of the README scenario: 10.0.0.0/8, 10.0.1.0/24,
127.0.0.0/8, 127.0.0.1/32, 192.168.0.0/16, 192.168.1.0/24, ::/0, 2000::/3 and
2001:db8::/32. -/
def c1Prefixes : List Prefix :=
  [⟨⟨true, 167772160⟩, 8⟩, ⟨⟨true, 167772416⟩, 24⟩, ⟨⟨true, 2130706432⟩, 8⟩,
   ⟨⟨true, 2130706433⟩, 32⟩, ⟨⟨true, 3232235520⟩, 16⟩, ⟨⟨true, 3232235776⟩, 24⟩,
   ⟨⟨false, 0⟩, 0⟩, ⟨⟨false, 0x2000 * 2 ^ 112⟩, 3⟩,
   ⟨⟨false, 0x20010db8 * 2 ^ 96⟩, 32⟩]

/-- Any insertion order of the example prefixes, with any values and
priorities, produces an invariant table storing exactly their canonical
forms, split by family. -/
theorem c1_keys {l : List (Prefix × α × Nat)}
    (hperm : (l.map Prod.fst).Perm c1Prefixes) :
    (buildTable l).inv = true ∧
    (∀ k, k ∈ (buildTable l).root4.keys ↔
      ∃ p ∈ c1Prefixes, p.addr.is4 = true ∧ p.masked = k) ∧
    (∀ k, k ∈ (buildTable l).root6.keys ↔
      ∃ p ∈ c1Prefixes, p.addr.is4 = false ∧ p.masked = k) := by
  have hvalid : ∀ e ∈ l, e.1.valid = true := by
    intro e he
    have hmem : e.1 ∈ c1Prefixes := hperm.mem_iff.mp (List.mem_map_of_mem Prod.fst he)
    have hall : ∀ p ∈ c1Prefixes, p.valid = true := by decide
    exact hall e.1 hmem
  refine ⟨(buildTable_reach hvalid).inv, ?_, ?_⟩
  · intro k
    rw [(buildTable_mem hvalid k).1]
    constructor
    · rintro ⟨e, he, h1, h2⟩
      exact ⟨e.1, hperm.mem_iff.mp (List.mem_map_of_mem Prod.fst he), h1, h2⟩
    · rintro ⟨p, hp, h1, h2⟩
      obtain ⟨e, he, hep⟩ := List.mem_map.mp (hperm.mem_iff.mpr hp)
      exact ⟨e, he, by rw [hep]; exact h1, by rw [hep]; exact h2⟩
  · intro k
    rw [(buildTable_mem hvalid k).2]
    constructor
    · rintro ⟨e, he, h1, h2⟩
      exact ⟨e.1, hperm.mem_iff.mp (List.mem_map_of_mem Prod.fst he), h1, h2⟩
    · rintro ⟨p, hp, h1, h2⟩
      obtain ⟨e, he, hep⟩ := List.mem_map.mp (hperm.mem_iff.mpr hp)
      exact ⟨e, he, by rw [hep]; exact h1, by rw [hep]; exact h2⟩

/-- Deciding an address lookup on a root whose key set is characterized by the
example list: the hit case. -/
theorem lpmIP_hit (n : Node α) (b4 : Bool) (ip : Addr) (x : Prefix)
    (hip : ip.is4 = b4) (hb : n.bstOk = true) (ha : n.augOk = true)
    (hc : n.canonOk = true) (hf : n.famOk b4 = true)
    (hkeys : ∀ k, k ∈ n.keys ↔ ∃ p ∈ c1Prefixes, p.addr.is4 = b4 ∧ p.masked = k)
    (hx : ∃ p ∈ c1Prefixes, p.addr.is4 = b4 ∧ p.masked = x)
    (hcov : x.containsAddr ip = true)
    (hmax : ∀ p ∈ c1Prefixes, p.addr.is4 = b4 → p.masked.containsAddr ip = true →
      x.bits ≤ p.masked.bits → p.masked = x) :
    (n.lpmIP ip).map Prod.fst = some x := by
  have hgood := Node.lpmIP_spec hip hb ha hc hf
  cases hres : n.lpmIP ip with
  | none =>
    rw [hres] at hgood
    have hcontr := hgood x ((hkeys x).mpr hx)
    rw [hcov] at hcontr
    exact absurd hcontr (by simp)
  | some res =>
    rw [hres] at hgood
    obtain ⟨hmem, hcont, hrmax⟩ := hgood
    obtain ⟨p, hp, hp4, hpm⟩ := (hkeys res.1).mp (List.mem_map_of_mem Prod.fst hmem)
    have hble : x.bits ≤ res.1.bits := hrmax x ((hkeys x).mpr hx) hcov
    have hfin : res.1 = x := by
      rw [← hpm]
      exact hmax p hp hp4 (by rw [hpm]; exact hcont) (by rw [hpm]; exact hble)
    simp [hfin]

/-- Deciding an address lookup on a root whose key set is characterized by the
example list: the miss case. -/
theorem lpmIP_miss (n : Node α) (b4 : Bool) (ip : Addr)
    (hip : ip.is4 = b4) (hb : n.bstOk = true) (ha : n.augOk = true)
    (hc : n.canonOk = true) (hf : n.famOk b4 = true)
    (hkeys : ∀ k, k ∈ n.keys ↔ ∃ p ∈ c1Prefixes, p.addr.is4 = b4 ∧ p.masked = k)
    (hnone : ∀ p ∈ c1Prefixes, p.addr.is4 = b4 →
      p.masked.containsAddr ip = false) :
    n.lpmIP ip = none := by
  cases hres : n.lpmIP ip with
  | none => rfl
  | some res =>
    have hgood := Node.lpmIP_spec hip hb ha hc hf
    rw [hres] at hgood
    obtain ⟨hmem, hcont, _⟩ := hgood
    obtain ⟨p, hp, hp4, hpm⟩ := (hkeys res.1).mp (List.mem_map_of_mem Prod.fst hmem)
    have hcontr := hnone p hp hp4
    rw [hpm, hcont] at hcontr
    exact absurd hcontr (by simp)

/-- Deciding a prefix lookup on a root whose key set is characterized by the
example list: the hit case. -/
theorem lpmCIDR_hit (n : Node α) (b4 : Bool) (q x : Prefix)
    (hq4 : q.addr.is4 = b4) (hqc : q.isCanon = true)
    (hb : n.bstOk = true) (ha : n.augOk = true)
    (hc : n.canonOk = true) (hf : n.famOk b4 = true)
    (hkeys : ∀ k, k ∈ n.keys ↔ ∃ p ∈ c1Prefixes, p.addr.is4 = b4 ∧ p.masked = k)
    (hx : ∃ p ∈ c1Prefixes, p.addr.is4 = b4 ∧ p.masked = x)
    (hcov : rangeSub q x = true)
    (hmax : ∀ p ∈ c1Prefixes, p.addr.is4 = b4 → rangeSub q p.masked = true →
      x.bits ≤ p.masked.bits → p.masked = x) :
    (n.lpmCIDR q).map Prod.fst = some x := by
  have hgood := Node.lpmCIDR_spec hq4 hqc hb ha hc hf
  cases hres : n.lpmCIDR q with
  | none =>
    rw [hres] at hgood
    have hcontr := hgood x ((hkeys x).mpr hx)
    rw [hcov] at hcontr
    exact absurd hcontr (by simp)
  | some res =>
    rw [hres] at hgood
    obtain ⟨hmem, hcont, hrmax⟩ := hgood
    obtain ⟨p, hp, hp4, hpm⟩ := (hkeys res.1).mp (List.mem_map_of_mem Prod.fst hmem)
    have hble : x.bits ≤ res.1.bits := hrmax x ((hkeys x).mpr hx) hcov
    have hfin : res.1 = x := by
      rw [← hpm]
      exact hmax p hp hp4 (by rw [hpm]; exact hcont) (by rw [hpm]; exact hble)
    simp [hfin]

/-- Deciding a prefix lookup on a root whose key set is characterized by the
example list: the miss case. -/
theorem lpmCIDR_miss (n : Node α) (b4 : Bool) (q : Prefix)
    (hq4 : q.addr.is4 = b4) (hqc : q.isCanon = true)
    (hb : n.bstOk = true) (ha : n.augOk = true)
    (hc : n.canonOk = true) (hf : n.famOk b4 = true)
    (hkeys : ∀ k, k ∈ n.keys ↔ ∃ p ∈ c1Prefixes, p.addr.is4 = b4 ∧ p.masked = k)
    (hnone : ∀ p ∈ c1Prefixes, p.addr.is4 = b4 → rangeSub q p.masked = false) :
    n.lpmCIDR q = none := by
  cases hres : n.lpmCIDR q with
  | none => rfl
  | some res =>
    have hgood := Node.lpmCIDR_spec hq4 hqc hb ha hc hf
    rw [hres] at hgood
    obtain ⟨hmem, hcont, _⟩ := hgood
    obtain ⟨p, hp, hp4, hpm⟩ := (hkeys res.1).mp (List.mem_map_of_mem Prod.fst hmem)
    have hcontr := hnone p hp hp4
    rw [hpm, hcont] at hcontr
    exact absurd hcontr (by simp)

/-! ### The claims -/

/-- C3: every per-family root of a table reachable from the empty table by any
sequence of `Insert`/`InsertImmutable`, `Delete`/`DeleteImmutable`,
`Union`/`UnionImmutable` and `Clone` satisfies, at every node: the BST ordering
invariant (all left-subtree keys compare below the node's key and all
right-subtree keys above it), the max-heap invariant (the node's priority is at
least each direct child's), and the augmentation invariant (the node's
`maxUpper` is a stored key of its subtree with the largest last address among
the node and its whole subtree). -/
theorem C3_reachable_invariants {t : Table α} (h : Reach t) :
    (t.root4.bstOk = true ∧ t.root4.heapOk = true ∧ t.root4.augMaxOk = true) ∧
    (t.root6.bstOk = true ∧ t.root6.heapOk = true ∧ t.root6.augMaxOk = true) := by
  have hi := h.inv
  simp only [Table.inv, Bool.and_eq_true] at hi
  obtain ⟨hb4, hh4, ha4, _, _⟩ := Node.inv_parts hi.1
  obtain ⟨hb6, hh6, ha6, _, _⟩ := Node.inv_parts hi.2
  exact ⟨⟨hb4, hh4, Node.augMaxOk_of_augOk ha4⟩,
    ⟨hb6, hh6, Node.augMaxOk_of_augOk ha6⟩⟩

theorem C3_reachable_invariants_witness :
    (((Table.empty.Insert ⟨⟨true, 167772160⟩, 8⟩ 1 5 : Table Nat).Insert
        ⟨⟨false, 0⟩, 0⟩ 2 9).root4.bstOk = true ∧
      ((Table.empty.Insert ⟨⟨true, 167772160⟩, 8⟩ 1 5 : Table Nat).Insert
        ⟨⟨false, 0⟩, 0⟩ 2 9).root4.heapOk = true ∧
      ((Table.empty.Insert ⟨⟨true, 167772160⟩, 8⟩ 1 5 : Table Nat).Insert
        ⟨⟨false, 0⟩, 0⟩ 2 9).root4.augMaxOk = true) ∧
    (((Table.empty.Insert ⟨⟨true, 167772160⟩, 8⟩ 1 5 : Table Nat).Insert
        ⟨⟨false, 0⟩, 0⟩ 2 9).root6.bstOk = true ∧
      ((Table.empty.Insert ⟨⟨true, 167772160⟩, 8⟩ 1 5 : Table Nat).Insert
        ⟨⟨false, 0⟩, 0⟩ 2 9).root6.heapOk = true ∧
      ((Table.empty.Insert ⟨⟨true, 167772160⟩, 8⟩ 1 5 : Table Nat).Insert
        ⟨⟨false, 0⟩, 0⟩ 2 9).root6.augMaxOk = true) :=
  C3_reachable_invariants
    (Reach.insert ⟨⟨false, 0⟩, 0⟩ 2 9 (by decide)
      (Reach.insert ⟨⟨true, 167772160⟩, 8⟩ 1 5 (by decide) Reach.empty))

/-- C9: on the zero-value table every public operation is total and
well-behaved: `Lookup` and `LookupPrefix` return the not-found result for every
input, `Delete` and `DeleteImmutable` return the unchanged empty table with
found=false, and `Walk` never invokes its callback and reports an uneventful
completion. -/
theorem C9_zero_table_totality :
    (∀ ip : Addr, (Table.empty : Table α).Lookup ip = none) ∧
    (∀ q : Prefix, (Table.empty : Table α).LookupPrefix q = none) ∧
    (∀ pfx : Prefix, (Table.empty : Table α).Delete pfx = (Table.empty, false)) ∧
    (∀ pfx : Prefix, (Table.empty : Table α).DeleteImmutable pfx = (Table.empty, false)) ∧
    (∀ (σ : Type) (cb : σ → Prefix → α → σ × Bool) (s : σ),
      (Table.empty : Table α).Walk cb s = (s, true)) := by
  refine ⟨?_, ?_, ?_, ?_, ?_⟩
  · intro ip
    by_cases h : ip.is4 = true <;>
      simp [Table.Lookup, Table.empty, h, Node.lpmIP]
  · intro q
    by_cases h : q.addr.is4 = true <;>
      simp [Table.LookupPrefix, Table.empty, h, Node.lpmCIDR]
  · intro pfx
    by_cases h : pfx.addr.is4 = true <;>
      simp [Table.Delete, Table.empty, Prefix.masked, h, Node.split, Node.join,
        Node.isNil]
  · intro pfx
    by_cases h : pfx.addr.is4 = true <;>
      simp [Table.DeleteImmutable, Table.empty, Prefix.masked, h, Node.split,
        Node.join, Node.isNil]
  · intro σ cb s
    simp [Table.Walk, Table.empty, Node.walk]

/-- C10: every operation dispatches solely on the address family of its
argument: a lookup of an address consults only that family's root (so its
result never depends on the other root, and any match has the family of the
queried address — in particular a stored `::/0` never matches an IPv4
address); and inserting, deleting or unioning prefixes of one family leaves
the other family's root unchanged. -/
theorem C10_family_separation :
    (∀ (r4 r6 r6' : Node α) (ip : Addr), ip.is4 = true →
      Table.Lookup ⟨r4, r6⟩ ip = Table.Lookup ⟨r4, r6'⟩ ip) ∧
    (∀ (r4 r4' r6 : Node α) (ip : Addr), ip.is4 = false →
      Table.Lookup ⟨r4, r6⟩ ip = Table.Lookup ⟨r4', r6⟩ ip) ∧
    (∀ (t : Table α) (ip : Addr) (res : Prefix × α), t.inv = true →
      t.Lookup ip = some res → res.1.addr.is4 = ip.is4) ∧
    (∀ (t : Table α) (pfx : Prefix) (v : α) (prio : Nat), pfx.addr.is4 = false →
      (t.Insert pfx v prio).root4 = t.root4 ∧
      (t.InsertImmutable pfx v prio).root4 = t.root4) ∧
    (∀ (t : Table α) (pfx : Prefix) (v : α) (prio : Nat), pfx.addr.is4 = true →
      (t.Insert pfx v prio).root6 = t.root6 ∧
      (t.InsertImmutable pfx v prio).root6 = t.root6) ∧
    (∀ (t : Table α) (pfx : Prefix), pfx.addr.is4 = false →
      (t.Delete pfx).1.root4 = t.root4 ∧
      (t.DeleteImmutable pfx).1.root4 = t.root4) ∧
    (∀ (t : Table α) (pfx : Prefix), pfx.addr.is4 = true →
      (t.Delete pfx).1.root6 = t.root6 ∧
      (t.DeleteImmutable pfx).1.root6 = t.root6) ∧
    (∀ (t o : Table α), o.root4 = Node.nil →
      (t.Union o).root4 = t.root4 ∧ (t.UnionImmutable o).root4 = t.root4) ∧
    (∀ (t o : Table α), o.root6 = Node.nil →
      (t.Union o).root6 = t.root6 ∧ (t.UnionImmutable o).root6 = t.root6) := by
  refine ⟨?_, ?_, ?_, ?_, ?_, ?_, ?_, ?_, ?_⟩
  · intro r4 r6 r6' ip h
    simp [Table.Lookup, h]
  · intro r4 r4' r6 ip h
    simp [Table.Lookup, h]
  · intro t ip res hi hres
    simp only [Table.inv, Bool.and_eq_true] at hi
    obtain ⟨hb4, _, ha4, hc4, hf4⟩ := Node.inv_parts hi.1
    obtain ⟨hb6, _, ha6, hc6, hf6⟩ := Node.inv_parts hi.2
    by_cases h : ip.is4 = true
    · rw [Table.Lookup, if_pos (by simp [h])] at hres
      have hgood := Node.lpmIP_spec h hb4 ha4 hc4 hf4
      rw [hres] at hgood
      obtain ⟨hmem, _, _⟩ := hgood
      have := Node.allKeys_iff.mp hf4 res.1 (List.mem_map_of_mem Prod.fst hmem)
      simp at this
      rw [this, h]
    · have h' : ip.is4 = false := by simpa using h
      rw [Table.Lookup, if_neg (by simp [h'])] at hres
      have hgood := Node.lpmIP_spec h' hb6 ha6 hc6 hf6
      rw [hres] at hgood
      obtain ⟨hmem, _, _⟩ := hgood
      have := Node.allKeys_iff.mp hf6 res.1 (List.mem_map_of_mem Prod.fst hmem)
      simp at this
      rw [this, h']
  · intro t pfx v prio h
    constructor <;> simp [Table.Insert, Table.InsertImmutable, h]
  · intro t pfx v prio h
    constructor <;> simp [Table.Insert, Table.InsertImmutable, h]
  · intro t pfx h
    have hm : pfx.masked.addr.is4 = false := by rw [Prefix.masked_is4]; exact h
    constructor <;> simp [Table.Delete, Table.DeleteImmutable, hm]
  · intro t pfx h
    have hm : pfx.masked.addr.is4 = true := by rw [Prefix.masked_is4]; exact h
    constructor <;> simp [Table.Delete, Table.DeleteImmutable, hm]
  · intro t o h
    constructor <;> simp [Table.Union, Table.UnionImmutable, h, Node.union_nil]
  · intro t o h
    constructor <;> simp [Table.Union, Table.UnionImmutable, h, Node.union_nil]

/-- A fresh upsert is a member of the updated entry list. -/
theorem mem_upsertE_self {c : Prefix} {v : α} (es : List (Prefix × α)) :
    (c, v) ∈ upsertE c v es := by
  obtain ⟨k', h1, h2⟩ := lookupE_mem (k := c) (lookupE_upsertE_self es)
  have hk : c = k' := compare_eq_zero_iff.mp h1
  subst hk
  exact h2

/-- C8: for every invariant table, `Walk` produces exactly the `visitSpec`
trace of the table's entry list — visiting entries in list order while the
callback returns true and stopping immediately, with nothing further visited,
at its first false; the entry list is strictly ascending under `compare`
(hence duplicate-free); and a callback that always continues collects exactly
the stored entries, none omitted. -/
theorem C8_walk_in_order {t : Table α} (hi : t.inv = true) :
    (∀ (σ : Type) (cb : σ → Prefix → α → σ × Bool) (s : σ),
      t.Walk cb s = visitSpec cb t.entries s) ∧
    t.keys.Pairwise (fun a b => compare a b < 0) ∧
    (∀ acc : List (Prefix × α),
      t.Walk (fun s c v => (s ++ [(c, v)], true)) acc = (acc ++ t.entries, true)) := by
  refine ⟨fun σ cb s => Table.walk_eq t cb s, Table.keys_sorted hi, ?_⟩
  intro acc
  rw [Table.walk_eq]
  exact visitSpec_collect t.entries acc

theorem C8_walk_in_order_witness :
    ((Table.empty : Table Nat).Insert ⟨⟨true, 167772160⟩, 8⟩ 1 5).Walk
        (fun s c v => (s ++ [(c, v)], true)) ([] : List (Prefix × Nat)) =
      ([] ++ ((Table.empty : Table Nat).Insert ⟨⟨true, 167772160⟩, 8⟩ 1 5).entries,
        true) :=
  (C8_walk_in_order (by decide)).2.2 []

/-- C4: `Insert` — and the value-identical `InsertImmutable` — stores `v` at a
canonical prefix, replacing any previously stored value: afterwards
`LookupPrefix` of that prefix returns it with the new value, the entry list at
every other key is unchanged, and inserting the same (prefix, value) pair a
second time leaves the table's visible contents identical. -/
theorem C4_insert_replaces {t : Table α} {pfx : Prefix} {v : α} {prio prio2 : Nat}
    (hi : t.inv = true) (hc : pfx.isCanon = true) :
    t.InsertImmutable pfx v prio = t.Insert pfx v prio ∧
    (t.Insert pfx v prio).LookupPrefix pfx = some (pfx, v) ∧
    (∀ k, k ≠ pfx →
      lookupE k (t.Insert pfx v prio).entries = lookupE k t.entries) ∧
    ((t.Insert pfx v prio).Insert pfx v prio2).entries =
      (t.Insert pfx v prio).entries := by
  have hv : pfx.valid = true := by
    have h := hc
    simp only [Prefix.isCanon, Bool.and_eq_true] at h
    exact h.1
  have hmask : pfx.masked = pfx := Prefix.masked_of_isCanon hc
  have hi' : (t.Insert pfx v prio).inv = true := Table.insert_inv hi hv
  obtain ⟨hE4, hE6⟩ := @Table.insert_entries α t pfx v prio hi
  refine ⟨Table.insertImm_eq t pfx v prio, ?_, ?_, ?_⟩
  · by_cases h4 : pfx.addr.is4 = true
    · obtain ⟨he, hr6⟩ := hE4 h4
      refine Table.lookupPrefix_self hi' hc ?_
      rw [Table.entries, he, hmask]
      exact List.mem_append_left _ (mem_upsertE_self t.root4.entries)
    · have h6 : pfx.addr.is4 = false := by simpa using h4
      obtain ⟨he, hr4⟩ := hE6 h6
      refine Table.lookupPrefix_self hi' hc ?_
      rw [Table.entries, he, hmask]
      exact List.mem_append_right _ (mem_upsertE_self t.root6.entries)
  · intro k hne
    have hnem : k ≠ pfx.masked := fun h => hne (h.trans hmask)
    by_cases h4 : pfx.addr.is4 = true
    · obtain ⟨he, hr6⟩ := hE4 h4
      rw [Table.entries, Table.entries, he, hr6, lookupE_append, lookupE_append,
        lookupE_upsertE_ne hnem]
    · have h6 : pfx.addr.is4 = false := by simpa using h4
      obtain ⟨he, hr4⟩ := hE6 h6
      rw [Table.entries, Table.entries, he, hr4, lookupE_append, lookupE_append,
        lookupE_upsertE_ne hnem]
  · obtain ⟨hE4', hE6'⟩ :=
      @Table.insert_entries α (t.Insert pfx v prio) pfx v prio2 hi'
    by_cases h4 : pfx.addr.is4 = true
    · obtain ⟨he, hr6⟩ := hE4 h4
      obtain ⟨he2, hr62⟩ := hE4' h4
      rw [Table.entries, Table.entries, he2, hr62, he, upsertE_idem]
    · have h6 : pfx.addr.is4 = false := by simpa using h4
      obtain ⟨he, hr4⟩ := hE6 h6
      obtain ⟨he2, hr42⟩ := hE6' h6
      rw [Table.entries, Table.entries, he2, hr42, he, upsertE_idem]

theorem C4_insert_replaces_witness :
    ((Table.empty : Table Nat).Insert ⟨⟨true, 167772160⟩, 8⟩ 42 5).LookupPrefix
        ⟨⟨true, 167772160⟩, 8⟩ = some (⟨⟨true, 167772160⟩, 8⟩, 42) ∧
    (((Table.empty : Table Nat).Insert ⟨⟨true, 167772160⟩, 8⟩ 42 5).Insert
        ⟨⟨true, 167772160⟩, 8⟩ 42 7).entries =
      ((Table.empty : Table Nat).Insert ⟨⟨true, 167772160⟩, 8⟩ 42 5).entries :=
  ⟨(@C4_insert_replaces Nat Table.empty ⟨⟨true, 167772160⟩, 8⟩ 42 5 7
      (by decide) (by decide)).2.1,
    (@C4_insert_replaces Nat Table.empty ⟨⟨true, 167772160⟩, 8⟩ 42 5 7
      (by decide) (by decide)).2.2.2⟩

/-- C5: if treap `a` maps every key of a common key set to value 1 and treap
`b` maps exactly the same keys to value 2, then the union of `a` with `b`
yields value 2 at every key when `overwrite` is true and value 1 when it is
false — for every choice of node priorities, i.e. the caller's flag and not
the internal heap order decides which side wins on duplicates; at the table
level, `Union` and `UnionImmutable` (which pass overwrite=true) yield value 2
at every stored prefix. -/
theorem C5_union_overwrite :
    (∀ (a b : Node Nat) (ow : Bool), a.bstOk = true → b.bstOk = true →
      (∀ k, k ∈ a.keys ↔ k ∈ b.keys) →
      (∀ e ∈ a.entries, e.2 = 1) → (∀ e ∈ b.entries, e.2 = 2) →
      ∀ k ∈ (a.union b ow).keys,
        lookupE k (a.union b ow).entries = some (if ow then 2 else 1)) ∧
    (∀ (tA tB : Table Nat), tA.inv = true → tB.inv = true →
      (∀ k, k ∈ tA.keys ↔ k ∈ tB.keys) →
      (∀ e ∈ tA.entries, e.2 = 1) → (∀ e ∈ tB.entries, e.2 = 2) →
      ∀ k ∈ (tA.Union tB).keys, lookupE k (tA.Union tB).entries = some 2) := by
  have main : ∀ (a b : Node Nat) (ow : Bool), a.bstOk = true → b.bstOk = true →
      (∀ k, k ∈ a.keys ↔ k ∈ b.keys) →
      (∀ e ∈ a.entries, e.2 = 1) → (∀ e ∈ b.entries, e.2 = 2) →
      ∀ k ∈ (a.union b ow).keys,
        lookupE k (a.union b ow).entries = some (if ow then 2 else 1) := by
    intro a b ow ha hb hsame hA hB k hk
    obtain ⟨hkeys, hval⟩ := Node.union_spec a b ow ha hb
    have hka : k ∈ a.keys := by
      rcases (hkeys k).mp hk with h | h
      · exact h
      · exact (hsame k).mpr h
    have hkb : k ∈ b.keys := (hsame k).mp hka
    rw [Node.keys] at hka hkb
    obtain ⟨va, hva⟩ := lookupE_isSome_of_mem hka
    obtain ⟨vb, hvb⟩ := lookupE_isSome_of_mem hkb
    have hva1 : va = 1 := by
      obtain ⟨k', _, hmem⟩ := lookupE_mem hva
      exact hA _ hmem
    have hvb2 : vb = 2 := by
      obtain ⟨k', _, hmem⟩ := lookupE_mem hvb
      exact hB _ hmem
    rw [hval k, hva, hvb, hva1, hvb2]
    cases ow <;> rfl
  refine ⟨main, ?_⟩
  intro tA tB hiA hiB hsame hA hB k hk
  have hiA' := hiA
  have hiB' := hiB
  simp only [Table.inv, Bool.and_eq_true] at hiA' hiB'
  obtain ⟨ab4, _, _, _, af4⟩ := Node.inv_parts hiA'.1
  obtain ⟨ab6, _, _, _, af6⟩ := Node.inv_parts hiA'.2
  obtain ⟨bb4, _, _, _, bf4⟩ := Node.inv_parts hiB'.1
  obtain ⟨bb6, _, _, _, bf6⟩ := Node.inv_parts hiB'.2
  have hsame4 : ∀ x, x ∈ tA.root4.keys ↔ x ∈ tB.root4.keys := by
    intro x
    constructor
    · intro hx
      have hx4 : x.addr.is4 = true := by
        have := Node.allKeys_iff.mp af4 x hx; simpa using this
      have hxk : x ∈ tB.keys :=
        (hsame x).mp (by rw [Table.keys_eq]; exact List.mem_append_left _ hx)
      exact ((Table.mem_keys_fam hiB).1 hx4).mp hxk
    · intro hx
      have hx4 : x.addr.is4 = true := by
        have := Node.allKeys_iff.mp bf4 x hx; simpa using this
      have hxk : x ∈ tA.keys :=
        (hsame x).mpr (by rw [Table.keys_eq]; exact List.mem_append_left _ hx)
      exact ((Table.mem_keys_fam hiA).1 hx4).mp hxk
  have hsame6 : ∀ x, x ∈ tA.root6.keys ↔ x ∈ tB.root6.keys := by
    intro x
    constructor
    · intro hx
      have hx6 : x.addr.is4 = false := by
        have := Node.allKeys_iff.mp af6 x hx; simpa using this
      have hxk : x ∈ tB.keys :=
        (hsame x).mp (by rw [Table.keys_eq]; exact List.mem_append_right _ hx)
      exact ((Table.mem_keys_fam hiB).2 hx6).mp hxk
    · intro hx
      have hx6 : x.addr.is4 = false := by
        have := Node.allKeys_iff.mp bf6 x hx; simpa using this
      have hxk : x ∈ tA.keys :=
        (hsame x).mpr (by rw [Table.keys_eq]; exact List.mem_append_right _ hx)
      exact ((Table.mem_keys_fam hiA).2 hx6).mp hxk
  have hA4 : ∀ e ∈ tA.root4.entries, e.2 = 1 := fun e he =>
    hA e (by rw [Table.entries]; exact List.mem_append_left _ he)
  have hA6 : ∀ e ∈ tA.root6.entries, e.2 = 1 := fun e he =>
    hA e (by rw [Table.entries]; exact List.mem_append_right _ he)
  have hB4 : ∀ e ∈ tB.root4.entries, e.2 = 2 := fun e he =>
    hB e (by rw [Table.entries]; exact List.mem_append_left _ he)
  have hB6 : ∀ e ∈ tB.root6.entries, e.2 = 2 := fun e he =>
    hB e (by rw [Table.entries]; exact List.mem_append_right _ he)
  have hu4 := Node.union_spec tA.root4 tB.root4 true ab4 bb4
  have hu6 := Node.union_spec tA.root6 tB.root6 true ab6 bb6
  rw [Table.keys_eq] at hk
  rcases List.mem_append.mp hk with h | h
  · have h2 := main tA.root4 tB.root4 true ab4 bb4 hsame4 hA4 hB4 k h
    show lookupE k ((tA.root4.union tB.root4 true).entries ++
      (tA.root6.union tB.root6 true).entries) = some 2
    rw [lookupE_append, h2]
    simp
  · have h2 := main tA.root6 tB.root6 true ab6 bb6 hsame6 hA6 hB6 k h
    have hk6 : k.addr.is4 = false := by
      rcases (hu6.1 k).mp h with hx | hx
      · have := Node.allKeys_iff.mp af6 k hx; simpa using this
      · have := Node.allKeys_iff.mp bf6 k hx; simpa using this
    have hnone : lookupE k (tA.root4.union tB.root4 true).entries = none := by
      refine lookupE_eq_none_iff.mpr ?_
      intro hmem4
      rcases (hu4.1 k).mp hmem4 with hx | hx
      · have := Node.allKeys_iff.mp af4 k hx; simp [hk6] at this
      · have := Node.allKeys_iff.mp bf4 k hx; simp [hk6] at this
    show lookupE k ((tA.root4.union tB.root4 true).entries ++
      (tA.root6.union tB.root6 true).entries) = some 2
    rw [lookupE_append, hnone, h2]
    simp

theorem C5_union_overwrite_witness :
    lookupE (⟨⟨true, 167772160⟩, 8⟩ : Prefix)
      (((Node.node ⟨⟨true, 167772160⟩, 8⟩ Node.nil Node.nil 1
          ⟨⟨true, 167772160⟩, 8⟩ 5 : Node Nat).union
        (Node.node ⟨⟨true, 167772160⟩, 8⟩ Node.nil Node.nil 2
          ⟨⟨true, 167772160⟩, 8⟩ 3) true).entries) = some 2 := by
  refine C5_union_overwrite.1
    (Node.node ⟨⟨true, 167772160⟩, 8⟩ Node.nil Node.nil 1 ⟨⟨true, 167772160⟩, 8⟩ 5)
    (Node.node ⟨⟨true, 167772160⟩, 8⟩ Node.nil Node.nil 2 ⟨⟨true, 167772160⟩, 8⟩ 3)
    true (by decide) (by decide) (fun k => Iff.rfl) (by decide) (by decide)
    ⟨⟨true, 167772160⟩, 8⟩ ?_
  exact ((Node.union_spec
    (Node.node ⟨⟨true, 167772160⟩, 8⟩ Node.nil Node.nil 1 ⟨⟨true, 167772160⟩, 8⟩ 5)
    (Node.node ⟨⟨true, 167772160⟩, 8⟩ Node.nil Node.nil 2 ⟨⟨true, 167772160⟩, 8⟩ 3)
    true (by decide) (by decide)).1 ⟨⟨true, 167772160⟩, 8⟩).mpr
    (Or.inl (by decide))

/-- C1: the table built by inserting exactly the prefixes 10.0.0.0/8,
10.0.1.0/24, 127.0.0.0/8, 127.0.0.1/32, 192.168.0.0/16, 192.168.1.0/24, ::/0,
2000::/3 and 2001:db8::/32 — in any insertion order, with any values and any
priorities — answers `Lookup` with: 10.0.1.0/24 for 10.0.1.17; 10.0.0.0/8 for
10.2.3.4; not-found for 42.0.0.0; 2001:db8::/32 for
2001:db8:affe:cafe::dead:beef; and ::/0 for ::2. -/
theorem C1_lookup_scenario (l : List (Prefix × α × Nat))
    (hperm : (l.map Prod.fst).Perm c1Prefixes) :
    ((buildTable l).Lookup ⟨true, 167772433⟩).map Prod.fst =
      some ⟨⟨true, 167772416⟩, 24⟩ ∧
    ((buildTable l).Lookup ⟨true, 167904004⟩).map Prod.fst =
      some ⟨⟨true, 167772160⟩, 8⟩ ∧
    (buildTable l).Lookup ⟨true, 704643072⟩ = none ∧
    ((buildTable l).Lookup
        ⟨false, 0x20010db8affecafe * 2 ^ 64 + 0xdeadbeef⟩).map Prod.fst =
      some ⟨⟨false, 0x20010db8 * 2 ^ 96⟩, 32⟩ ∧
    ((buildTable l).Lookup ⟨false, 2⟩).map Prod.fst = some ⟨⟨false, 0⟩, 0⟩ := by
  obtain ⟨hinv, hk4, hk6⟩ := c1_keys hperm
  simp only [Table.inv, Bool.and_eq_true] at hinv
  obtain ⟨hb4, _, ha4, hc4, hf4⟩ := Node.inv_parts hinv.1
  obtain ⟨hb6, _, ha6, hc6, hf6⟩ := Node.inv_parts hinv.2
  refine ⟨?_, ?_, ?_, ?_, ?_⟩
  · have h := lpmIP_hit (buildTable l).root4 true ⟨true, 167772433⟩
      ⟨⟨true, 167772416⟩, 24⟩ rfl hb4 ha4 hc4 hf4 hk4
      (by decide) (by decide) (by decide)
    simpa [Table.Lookup] using h
  · have h := lpmIP_hit (buildTable l).root4 true ⟨true, 167904004⟩
      ⟨⟨true, 167772160⟩, 8⟩ rfl hb4 ha4 hc4 hf4 hk4
      (by decide) (by decide) (by decide)
    simpa [Table.Lookup] using h
  · have h := lpmIP_miss (buildTable l).root4 true ⟨true, 704643072⟩
      rfl hb4 ha4 hc4 hf4 hk4 (by decide)
    simpa [Table.Lookup] using h
  · have h := lpmIP_hit (buildTable l).root6 false
      ⟨false, 0x20010db8affecafe * 2 ^ 64 + 0xdeadbeef⟩
      ⟨⟨false, 0x20010db8 * 2 ^ 96⟩, 32⟩ rfl hb6 ha6 hc6 hf6 hk6
      (by decide) (by decide) (by decide)
    simpa [Table.Lookup] using h
  · have h := lpmIP_hit (buildTable l).root6 false ⟨false, 2⟩
      ⟨⟨false, 0⟩, 0⟩ rfl hb6 ha6 hc6 hf6 hk6
      (by decide) (by decide) (by decide)
    simpa [Table.Lookup] using h

/-- The example prefixes with concrete values and priorities, in the README's
insertion order. -/
def c1Triples : List (Prefix × Nat × Nat) :=
  [(⟨⟨true, 167772160⟩, 8⟩, 1, 11), (⟨⟨true, 167772416⟩, 24⟩, 2, 7),
   (⟨⟨true, 2130706432⟩, 8⟩, 3, 13), (⟨⟨true, 2130706433⟩, 32⟩, 4, 2),
   (⟨⟨true, 3232235520⟩, 16⟩, 5, 9), (⟨⟨true, 3232235776⟩, 24⟩, 6, 4),
   (⟨⟨false, 0⟩, 0⟩, 7, 6), (⟨⟨false, 0x2000 * 2 ^ 112⟩, 3⟩, 8, 10),
   (⟨⟨false, 0x20010db8 * 2 ^ 96⟩, 32⟩, 9, 1)]

theorem C1_lookup_scenario_witness :
    ((buildTable c1Triples).Lookup ⟨true, 167772433⟩).map Prod.fst =
      some ⟨⟨true, 167772416⟩, 24⟩ ∧
    ((buildTable c1Triples).Lookup ⟨true, 167904004⟩).map Prod.fst =
      some ⟨⟨true, 167772160⟩, 8⟩ ∧
    (buildTable c1Triples).Lookup ⟨true, 704643072⟩ = none ∧
    ((buildTable c1Triples).Lookup
        ⟨false, 0x20010db8affecafe * 2 ^ 64 + 0xdeadbeef⟩).map Prod.fst =
      some ⟨⟨false, 0x20010db8 * 2 ^ 96⟩, 32⟩ ∧
    ((buildTable c1Triples).Lookup ⟨false, 2⟩).map Prod.fst =
      some ⟨⟨false, 0⟩, 0⟩ :=
  C1_lookup_scenario c1Triples (by
    have h : c1Triples.map Prod.fst = c1Prefixes := rfl
    rw [h])

/-- C6: for every invariant table of canonical prefixes and every canonical
query prefix, `LookupPrefix` returns a stored entry whose range contains the
query's entire range with maximal prefix length, or not-found when no stored
prefix covers the query; an exactly equal stored prefix is always a direct
hit.  On the example table: 10.0.1.0/29 matches 10.0.1.0/24, 192.168.0.0/16
is an exact match, and 12.0.0.0/8 has no match. -/
theorem C6_lookup_prefix_contract :
    (∀ (t : Table α) (q : Prefix), t.inv = true → q.isCanon = true →
      tableLookupPrefixGood t q ∧
      (∀ v, (q, v) ∈ t.entries → t.LookupPrefix q = some (q, v))) ∧
    (∀ l : List (Prefix × α × Nat), (l.map Prod.fst).Perm c1Prefixes →
      ((buildTable l).LookupPrefix ⟨⟨true, 167772416⟩, 29⟩).map Prod.fst =
        some ⟨⟨true, 167772416⟩, 24⟩ ∧
      ((buildTable l).LookupPrefix ⟨⟨true, 3232235520⟩, 16⟩).map Prod.fst =
        some ⟨⟨true, 3232235520⟩, 16⟩ ∧
      (buildTable l).LookupPrefix ⟨⟨true, 201326592⟩, 8⟩ = none) := by
  constructor
  · intro t q hi hqc
    refine ⟨?_, fun v hv => Table.lookupPrefix_self hi hqc hv⟩
    have hi' := hi
    simp only [Table.inv, Bool.and_eq_true] at hi'
    obtain ⟨hb4, _, ha4, hc4, hf4⟩ := Node.inv_parts hi'.1
    obtain ⟨hb6, _, ha6, hc6, hf6⟩ := Node.inv_parts hi'.2
    by_cases h4 : q.addr.is4 = true
    · have hgood := Node.lpmCIDR_spec h4 hqc hb4 ha4 hc4 hf4
      have hLP : t.LookupPrefix q = t.root4.lpmCIDR q := by
        simp [Table.LookupPrefix, h4]
      unfold tableLookupPrefixGood
      rw [hLP]
      cases hres : t.root4.lpmCIDR q with
      | none =>
        rw [hres] at hgood
        show ∀ k ∈ t.keys, rangeSub q k = false
        intro k hk
        rw [Table.keys_eq] at hk
        rcases List.mem_append.mp hk with hx | hx
        · exact hgood k hx
        · have hx6 : k.addr.is4 = false := by
            have := Node.allKeys_iff.mp hf6 k hx; simpa using this
          exact rangeSub_false_of_fam (by simp [hx6, h4])
      | some res =>
        rw [hres] at hgood
        obtain ⟨hmem, hsub, hmax⟩ := hgood
        refine ⟨by rw [Table.entries]; exact List.mem_append_left _ hmem, hsub, ?_⟩
        intro k hk hrs
        rw [Table.keys_eq] at hk
        rcases List.mem_append.mp hk with hx | hx
        · exact hmax k hx hrs
        · have hx6 : k.addr.is4 = false := by
            have := Node.allKeys_iff.mp hf6 k hx; simpa using this
          rw [rangeSub_false_of_fam (by simp [hx6, h4])] at hrs
          exact absurd hrs (by simp)
    · have h6 : q.addr.is4 = false := by simpa using h4
      have hgood := Node.lpmCIDR_spec h6 hqc hb6 ha6 hc6 hf6
      have hLP : t.LookupPrefix q = t.root6.lpmCIDR q := by
        simp [Table.LookupPrefix, h6]
      unfold tableLookupPrefixGood
      rw [hLP]
      cases hres : t.root6.lpmCIDR q with
      | none =>
        rw [hres] at hgood
        show ∀ k ∈ t.keys, rangeSub q k = false
        intro k hk
        rw [Table.keys_eq] at hk
        rcases List.mem_append.mp hk with hx | hx
        · have hx4 : k.addr.is4 = true := by
            have := Node.allKeys_iff.mp hf4 k hx; simpa using this
          exact rangeSub_false_of_fam (by simp [hx4, h6])
        · exact hgood k hx
      | some res =>
        rw [hres] at hgood
        obtain ⟨hmem, hsub, hmax⟩ := hgood
        refine ⟨by rw [Table.entries]; exact List.mem_append_right _ hmem, hsub, ?_⟩
        intro k hk hrs
        rw [Table.keys_eq] at hk
        rcases List.mem_append.mp hk with hx | hx
        · have hx4 : k.addr.is4 = true := by
            have := Node.allKeys_iff.mp hf4 k hx; simpa using this
          rw [rangeSub_false_of_fam (by simp [hx4, h6])] at hrs
          exact absurd hrs (by simp)
        · exact hmax k hx hrs
  · intro l hperm
    obtain ⟨hinv, hk4, hk6⟩ := c1_keys hperm
    simp only [Table.inv, Bool.and_eq_true] at hinv
    obtain ⟨hb4, _, ha4, hc4, hf4⟩ := Node.inv_parts hinv.1
    refine ⟨?_, ?_, ?_⟩
    · have h := lpmCIDR_hit (buildTable l).root4 true ⟨⟨true, 167772416⟩, 29⟩
        ⟨⟨true, 167772416⟩, 24⟩ rfl (by decide) hb4 ha4 hc4 hf4 hk4
        (by decide) (by decide) (by decide)
      simpa [Table.LookupPrefix] using h
    · have h := lpmCIDR_hit (buildTable l).root4 true ⟨⟨true, 3232235520⟩, 16⟩
        ⟨⟨true, 3232235520⟩, 16⟩ rfl (by decide) hb4 ha4 hc4 hf4 hk4
        (by decide) (by decide) (by decide)
      simpa [Table.LookupPrefix] using h
    · have h := lpmCIDR_miss (buildTable l).root4 true ⟨⟨true, 201326592⟩, 8⟩
        rfl (by decide) hb4 ha4 hc4 hf4 hk4 (by decide)
      simpa [Table.LookupPrefix] using h

theorem C6_lookup_prefix_contract_witness :
    tableLookupPrefixGood
        ((Table.empty : Table Nat).Insert ⟨⟨true, 167772160⟩, 8⟩ 1 5)
        ⟨⟨true, 167772160⟩, 8⟩ ∧
    (∀ v, (⟨⟨true, 167772160⟩, 8⟩, v) ∈
        ((Table.empty : Table Nat).Insert ⟨⟨true, 167772160⟩, 8⟩ 1 5).entries →
      ((Table.empty : Table Nat).Insert ⟨⟨true, 167772160⟩, 8⟩ 1 5).LookupPrefix
          ⟨⟨true, 167772160⟩, 8⟩ = some (⟨⟨true, 167772160⟩, 8⟩, v)) :=
  C6_lookup_prefix_contract.1
    ((Table.empty : Table Nat).Insert ⟨⟨true, 167772160⟩, 8⟩ 1 5)
    ⟨⟨true, 167772160⟩, 8⟩ (by decide) (by decide)

/-- C7: `Delete` — and the value-identical `DeleteImmutable` — reports
found=true exactly when the canonicalized prefix is stored; it removes exactly
that entry from the visible contents; and when the prefix is absent (in
particular on the empty table) it reports false and every `Lookup`,
`LookupPrefix` and `Walk` result is unchanged. -/
theorem C7_delete {t : Table α} {pfx : Prefix} (hi : t.inv = true) :
    t.DeleteImmutable pfx = t.Delete pfx ∧
    ((t.Delete pfx).2 = true ↔ pfx.masked ∈ t.keys) ∧
    (t.Delete pfx).1.entries = t.entries.filter (fun e => !(eqE pfx.masked e)) ∧
    ((t.Delete pfx).2 = false →
      (∀ ip, (t.Delete pfx).1.Lookup ip = t.Lookup ip) ∧
      (∀ q : Prefix, q.isCanon = true →
        (t.Delete pfx).1.LookupPrefix q = t.LookupPrefix q) ∧
      (∀ (σ : Type) (cb : σ → Prefix → α → σ × Bool) (s : σ),
        (t.Delete pfx).1.Walk cb s = t.Walk cb s)) := by
  obtain ⟨hfound, hent⟩ := @Table.delete_spec α t pfx hi
  have hinv' : (t.Delete pfx).1.inv = true := Table.delete_inv hi
  refine ⟨Table.deleteImm_eq t pfx, hfound, hent, ?_⟩
  intro hnf
  have hnotmem : pfx.masked ∉ t.keys := fun hm =>
    absurd (hfound.mpr hm) (by simp [hnf])
  have hne_key : ∀ (e : Prefix × α), e ∈ t.entries →
      (!(eqE pfx.masked e)) = true := by
    intro e he
    have hmem : e.1 ∈ t.keys := List.mem_map_of_mem Prod.fst he
    have hne : e.1 ≠ pfx.masked := fun h => hnotmem (h ▸ hmem)
    simp only [eqE, Bool.not_eq_eq_eq_not, Bool.not_true, decide_eq_false_iff_not]
    intro hcomp
    exact hne (compare_eq_zero_iff.mp hcomp)
  have hEeq : (t.Delete pfx).1.entries = t.entries := by
    rw [hent]
    exact List.filter_eq_self.mpr hne_key
  have hr4filter : t.root4.entries.filter (fun e => !(eqE pfx.masked e)) =
      t.root4.entries :=
    List.filter_eq_self.mpr (fun e he =>
      hne_key e (by rw [Table.entries]; exact List.mem_append_left _ he))
  have hr6filter : t.root6.entries.filter (fun e => !(eqE pfx.masked e)) =
      t.root6.entries :=
    List.filter_eq_self.mpr (fun e he =>
      hne_key e (by rw [Table.entries]; exact List.mem_append_right _ he))
  obtain ⟨hd4, hd6⟩ := @Table.delete_roots α t pfx hi
  by_cases h4 : pfx.masked.addr.is4 = true
  · obtain ⟨he, hr6⟩ := hd4 h4
    have hcong := Table.lookup_congr hi hinv' (he.trans hr4filter) (by rw [hr6])
    refine ⟨hcong.1, hcong.2, ?_⟩
    intro σ cb s
    rw [Table.walk_eq, Table.walk_eq, hEeq]
  · have h6 : pfx.masked.addr.is4 = false := by simpa using h4
    obtain ⟨he, hr4⟩ := hd6 h6
    have hcong := Table.lookup_congr hi hinv' (by rw [hr4]) (he.trans hr6filter)
    refine ⟨hcong.1, hcong.2, ?_⟩
    intro σ cb s
    rw [Table.walk_eq, Table.walk_eq, hEeq]

theorem C7_delete_witness :
    ((((Table.empty : Table Nat).Insert ⟨⟨true, 167772160⟩, 8⟩ 1 5).Delete
        ⟨⟨true, 2130706432⟩, 8⟩).2 = true ↔
      (⟨⟨true, 2130706432⟩, 8⟩ : Prefix).masked ∈
        ((Table.empty : Table Nat).Insert ⟨⟨true, 167772160⟩, 8⟩ 1 5).keys) :=
  (C7_delete (by decide)).2.1

/-! ### A heap model for the copy-on-write (immutable) API

The value-level model above cannot express aliasing, so the immutability
claim is settled on an explicit heap: nodes live in an append-only arena of
records addressed by index, and `maxUpper`, `left` and `right` are pointers
(`none` models Go's nil).  The immutable code paths (`immutable = true`
everywhere below) mutate only nodes obtained from `copyNode` or `makeNode` —
nodes allocated during the operation itself — so the embedding fuses each
"allocate a copy, update its fields, recalc" sequence into a single
allocation carrying the final field values.  Consequently an immutable
operation only appends records, and every record that existed before is
untouched; the readers, which walk the heap through pointers, therefore see
the original table unchanged. -/

/-- A `node` record as laid out on the heap. -/
structure Cell (α : Type) where
  mU : Option Nat
  left : Option Nat
  right : Option Nat
  value : α
  cidr : Prefix
  prio : Nat
deriving DecidableEq, Repr

/-- The heap: an arena of node records addressed by list index. -/
structure Store (α : Type) where
  mem : List (Cell α)
deriving DecidableEq, Repr

def Store.next (s : Store α) : Nat := s.mem.length

def Store.get (s : Store α) (a : Nat) : Option (Cell α) := s.mem.get? a

/-- A pointer is either nil or points at an already-allocated record. -/
def ptrOk (n : Nat) : Option Nat → Bool
  | none => true
  | some a => decide (a < n)

/-- Every record's pointers stay inside the heap. -/
def Store.closedB (s : Store α) : Bool :=
  s.mem.all fun c =>
    ptrOk s.mem.length c.mU && ptrOk s.mem.length c.left && ptrOk s.mem.length c.right

/-- The heap `u` extends the heap `s`: records were only appended. -/
def Store.ext (s u : Store α) : Prop := ∃ tail, u.mem = s.mem ++ tail

/-- The `maxUpper` pointer and its prefix for a child node, as `recalc` reads
them (`child.maxUpper.cidr`); `none` when the chain hits a nil pointer. -/
def Store.muOf (s : Store α) (child : Option Nat) : Option (Nat × Prefix) :=
  match child with
  | none => none
  | some ca =>
    match s.get ca with
    | none => none
    | some cc =>
      match cc.mU with
      | none => none
      | some ma =>
        match s.get ma with
        | none => none
        | some mc => some (ma, mc.cidr)

/-- Allocate a node with the given children and payload, with its `maxUpper`
computed exactly as `recalc` does (self, then right child, then left child);
returns the new heap and the fresh address. -/
def Store.newNodeS (s : Store α) (lp rp : Option Nat) (v : α) (c : Prefix)
    (p : Nat) : Store α × Nat :=
  let self := s.next
  let m1 : Option Nat × Prefix :=
    match s.muOf rp with
    | some rm => if cmpRR rm.2 c > 0 then (some rm.1, rm.2) else (some self, c)
    | none => (some self, c)
  let m2 : Option Nat × Prefix :=
    match s.muOf lp with
    | some lm => if cmpRR lm.2 m1.2 > 0 then (some lm.1, lm.2) else m1
    | none => m1
  (⟨s.mem ++ [⟨m2.1, lp, rp, v, c, p⟩]⟩, self)

/-- Heap version of the immutable `node.split`.  `fuel` bounds the recursion
depth (the heap embedding is not structurally recursive); exhausting it
returns nils, which never happens for adequate fuel and does not matter for
the frame property. -/
def Store.splitS (s : Store α) (a : Option Nat) (cidr : Prefix) :
    Nat → Store α × (Option Nat × Option Nat × Option Nat)
  | 0 => (s, (none, none, none))
  | fuel+1 =>
    match a with
    | none => (s, (none, none, none))
    | some ad =>
      match s.get ad with
      | none => (s, (none, none, none))
      | some cell =>
        if compare cell.cidr cidr < 0 then
          (((s.splitS cell.right cidr fuel).1.newNodeS cell.left
              (s.splitS cell.right cidr fuel).2.1 cell.value cell.cidr cell.prio).1,
            (some ((s.splitS cell.right cidr fuel).1.newNodeS cell.left
              (s.splitS cell.right cidr fuel).2.1 cell.value cell.cidr cell.prio).2,
             (s.splitS cell.right cidr fuel).2.2.1,
             (s.splitS cell.right cidr fuel).2.2.2))
        else if compare cell.cidr cidr > 0 then
          (((s.splitS cell.left cidr fuel).1.newNodeS
              (s.splitS cell.left cidr fuel).2.2.2 cell.right cell.value cell.cidr
              cell.prio).1,
            ((s.splitS cell.left cidr fuel).2.1,
             (s.splitS cell.left cidr fuel).2.2.1,
             some ((s.splitS cell.left cidr fuel).1.newNodeS
              (s.splitS cell.left cidr fuel).2.2.2 cell.right cell.value cell.cidr
              cell.prio).2))
        else
          ((s.newNodeS none none cell.value cell.cidr cell.prio).1,
            (cell.left,
             some (s.newNodeS none none cell.value cell.cidr cell.prio).2,
             cell.right))

/-- Heap version of the immutable `node.join`. -/
def Store.joinS (s : Store α) (na ma : Option Nat) :
    Nat → Store α × Option Nat
  | 0 => (s, none)
  | fuel+1 =>
    match na with
    | none => (s, ma)
    | some nd =>
      match ma with
      | none => (s, na)
      | some md =>
        match s.get nd, s.get md with
        | some ncell, some mcell =>
          if ncell.prio > mcell.prio then
            (((s.joinS ncell.right ma fuel).1.newNodeS ncell.left
                (s.joinS ncell.right ma fuel).2 ncell.value ncell.cidr ncell.prio).1,
              some ((s.joinS ncell.right ma fuel).1.newNodeS ncell.left
                (s.joinS ncell.right ma fuel).2 ncell.value ncell.cidr ncell.prio).2)
          else
            (((s.joinS na mcell.left fuel).1.newNodeS
                (s.joinS na mcell.left fuel).2 mcell.right mcell.value mcell.cidr
                mcell.prio).1,
              some ((s.joinS na mcell.left fuel).1.newNodeS
                (s.joinS na mcell.left fuel).2 mcell.right mcell.value mcell.cidr
                mcell.prio).2)
        | _, _ => (s, none)

/-- Heap version of the immutable `node.insert` with the fresh node of
`makeNode pfx val` fused in: `mc`, `mv`, `mp` are its canonical prefix, value
and priority. -/
def Store.insertS (s : Store α) (a : Option Nat) (mc : Prefix) (mv : α)
    (mp : Nat) : Nat → Store α × Option Nat
  | 0 => (s, a)
  | fuel+1 =>
    match a with
    | none =>
      ((s.newNodeS none none mv mc mp).1, some (s.newNodeS none none mv mc mp).2)
    | some ad =>
      match s.get ad with
      | none => (s, a)
      | some cell =>
        if mp ≥ cell.prio then
          match (s.splitS a mc fuel).2.2.1 with
          | some _ =>
            ((((s.splitS a mc fuel).1.newNodeS none none mv mc mp).1.joinS
                (some ((s.splitS a mc fuel).1.newNodeS none none mv mc mp).2)
                (s.splitS a mc fuel).2.2.2 fuel).1.joinS (s.splitS a mc fuel).2.1
              ((((s.splitS a mc fuel).1.newNodeS none none mv mc mp).1.joinS
                (some ((s.splitS a mc fuel).1.newNodeS none none mv mc mp).2)
                (s.splitS a mc fuel).2.2.2 fuel).2) fuel)
          | none =>
            (((s.splitS a mc fuel).1.newNodeS (s.splitS a mc fuel).2.1
                (s.splitS a mc fuel).2.2.2 mv mc mp).1,
              some ((s.splitS a mc fuel).1.newNodeS (s.splitS a mc fuel).2.1
                (s.splitS a mc fuel).2.2.2 mv mc mp).2)
        else
          if compare mc cell.cidr = 0 then
            (((s.newNodeS none none mv mc mp).1.joinS
                (some (s.newNodeS none none mv mc mp).2) cell.right fuel).1.joinS
              cell.left
              ((s.newNodeS none none mv mc mp).1.joinS
                (some (s.newNodeS none none mv mc mp).2) cell.right fuel).2 fuel)
          else if compare mc cell.cidr < 0 then
            (((s.insertS cell.left mc mv mp fuel).1.newNodeS
                (s.insertS cell.left mc mv mp fuel).2 cell.right cell.value
                cell.cidr cell.prio).1,
              some ((s.insertS cell.left mc mv mp fuel).1.newNodeS
                (s.insertS cell.left mc mv mp fuel).2 cell.right cell.value
                cell.cidr cell.prio).2)
          else
            (((s.insertS cell.right mc mv mp fuel).1.newNodeS cell.left
                (s.insertS cell.right mc mv mp fuel).2 cell.value
                cell.cidr cell.prio).1,
              some ((s.insertS cell.right mc mv mp fuel).1.newNodeS cell.left
                (s.insertS cell.right mc mv mp fuel).2 cell.value
                cell.cidr cell.prio).2)

/-- The union root's replacement prefix read from the split-out duplicate, as
in the source's `if overwrite && dupe != nil` branch. -/
def Store.dupeCidrS (s : Store α) (d : Option Nat) (c : Prefix) (ow : Bool) :
    Prefix :=
  match d with
  | none => c
  | some da =>
    match s.get da with
    | none => c
    | some dc => if ow then dc.cidr else c

/-- The union root's replacement value read from the split-out duplicate. -/
def Store.dupeValS (s : Store α) (d : Option Nat) (v : α) (ow : Bool) : α :=
  match d with
  | none => v
  | some da =>
    match s.get da with
    | none => v
    | some dc => if ow then dc.value else v

/-- Heap version of the immutable `node.union`: the treaps are swapped (and
the overwrite flag flipped) when the second root has the higher priority. -/
def Store.unionS (s : Store α) (na ba : Option Nat) (ow : Bool) :
    Nat → Store α × Option Nat
  | 0 => (s, none)
  | fuel+1 =>
    match na with
    | none => (s, ba)
    | some nd =>
      match ba with
      | none => (s, na)
      | some bd =>
        match s.get nd, s.get bd with
        | some ncell, some bcell =>
          if ncell.prio < bcell.prio then
            (((((s.splitS na bcell.cidr fuel).1.unionS bcell.left
                  (s.splitS na bcell.cidr fuel).2.1 (!ow) fuel).1.unionS
                bcell.right (s.splitS na bcell.cidr fuel).2.2.2 (!ow)
                fuel).1.newNodeS
              ((s.splitS na bcell.cidr fuel).1.unionS bcell.left
                  (s.splitS na bcell.cidr fuel).2.1 (!ow) fuel).2
              (((s.splitS na bcell.cidr fuel).1.unionS bcell.left
                  (s.splitS na bcell.cidr fuel).2.1 (!ow) fuel).1.unionS
                bcell.right (s.splitS na bcell.cidr fuel).2.2.2 (!ow) fuel).2
              ((s.splitS na bcell.cidr fuel).1.dupeValS
                (s.splitS na bcell.cidr fuel).2.2.1 bcell.value (!ow))
              ((s.splitS na bcell.cidr fuel).1.dupeCidrS
                (s.splitS na bcell.cidr fuel).2.2.1 bcell.cidr (!ow))
              bcell.prio).1,
             some ((((s.splitS na bcell.cidr fuel).1.unionS bcell.left
                  (s.splitS na bcell.cidr fuel).2.1 (!ow) fuel).1.unionS
                bcell.right (s.splitS na bcell.cidr fuel).2.2.2 (!ow)
                fuel).1.newNodeS
              ((s.splitS na bcell.cidr fuel).1.unionS bcell.left
                  (s.splitS na bcell.cidr fuel).2.1 (!ow) fuel).2
              (((s.splitS na bcell.cidr fuel).1.unionS bcell.left
                  (s.splitS na bcell.cidr fuel).2.1 (!ow) fuel).1.unionS
                bcell.right (s.splitS na bcell.cidr fuel).2.2.2 (!ow) fuel).2
              ((s.splitS na bcell.cidr fuel).1.dupeValS
                (s.splitS na bcell.cidr fuel).2.2.1 bcell.value (!ow))
              ((s.splitS na bcell.cidr fuel).1.dupeCidrS
                (s.splitS na bcell.cidr fuel).2.2.1 bcell.cidr (!ow))
              bcell.prio).2)
          else
            (((((s.splitS ba ncell.cidr fuel).1.unionS ncell.left
                  (s.splitS ba ncell.cidr fuel).2.1 ow fuel).1.unionS
                ncell.right (s.splitS ba ncell.cidr fuel).2.2.2 ow
                fuel).1.newNodeS
              ((s.splitS ba ncell.cidr fuel).1.unionS ncell.left
                  (s.splitS ba ncell.cidr fuel).2.1 ow fuel).2
              (((s.splitS ba ncell.cidr fuel).1.unionS ncell.left
                  (s.splitS ba ncell.cidr fuel).2.1 ow fuel).1.unionS
                ncell.right (s.splitS ba ncell.cidr fuel).2.2.2 ow fuel).2
              ((s.splitS ba ncell.cidr fuel).1.dupeValS
                (s.splitS ba ncell.cidr fuel).2.2.1 ncell.value ow)
              ((s.splitS ba ncell.cidr fuel).1.dupeCidrS
                (s.splitS ba ncell.cidr fuel).2.2.1 ncell.cidr ow)
              ncell.prio).1,
             some ((((s.splitS ba ncell.cidr fuel).1.unionS ncell.left
                  (s.splitS ba ncell.cidr fuel).2.1 ow fuel).1.unionS
                ncell.right (s.splitS ba ncell.cidr fuel).2.2.2 ow
                fuel).1.newNodeS
              ((s.splitS ba ncell.cidr fuel).1.unionS ncell.left
                  (s.splitS ba ncell.cidr fuel).2.1 ow fuel).2
              (((s.splitS ba ncell.cidr fuel).1.unionS ncell.left
                  (s.splitS ba ncell.cidr fuel).2.1 ow fuel).1.unionS
                ncell.right (s.splitS ba ncell.cidr fuel).2.2.2 ow fuel).2
              ((s.splitS ba ncell.cidr fuel).1.dupeValS
                (s.splitS ba ncell.cidr fuel).2.2.1 ncell.value ow)
              ((s.splitS ba ncell.cidr fuel).1.dupeCidrS
                (s.splitS ba ncell.cidr fuel).2.2.1 ncell.cidr ow)
              ncell.prio).2)
        | _, _ => (s, none)

/-- A routing table in the heap model: one root pointer per family. -/
structure STable (α : Type) where
  root4 : Option Nat
  root6 : Option Nat
deriving DecidableEq, Repr

/-- Heap version of `Table.InsertImmutable`. -/
def Store.insertImmS (s : Store α) (t : STable α) (pfx : Prefix) (v : α)
    (prio fuel : Nat) : Store α × STable α :=
  if pfx.addr.is4 then
    ((s.insertS t.root4 pfx.masked v prio fuel).1,
      ⟨(s.insertS t.root4 pfx.masked v prio fuel).2, t.root6⟩)
  else
    ((s.insertS t.root6 pfx.masked v prio fuel).1,
      ⟨t.root4, (s.insertS t.root6 pfx.masked v prio fuel).2⟩)

/-- Heap version of `Table.DeleteImmutable`. -/
def Store.deleteImmS (s : Store α) (t : STable α) (pfx : Prefix) (fuel : Nat) :
    (Store α × STable α) × Bool :=
  if pfx.masked.addr.is4 then
    ((((s.splitS t.root4 pfx.masked fuel).1.joinS
        (s.splitS t.root4 pfx.masked fuel).2.1
        (s.splitS t.root4 pfx.masked fuel).2.2.2 fuel).1,
      ⟨((s.splitS t.root4 pfx.masked fuel).1.joinS
        (s.splitS t.root4 pfx.masked fuel).2.1
        (s.splitS t.root4 pfx.masked fuel).2.2.2 fuel).2, t.root6⟩),
      decide ((s.splitS t.root4 pfx.masked fuel).2.2.1 ≠ none))
  else
    ((((s.splitS t.root6 pfx.masked fuel).1.joinS
        (s.splitS t.root6 pfx.masked fuel).2.1
        (s.splitS t.root6 pfx.masked fuel).2.2.2 fuel).1,
      ⟨t.root4, ((s.splitS t.root6 pfx.masked fuel).1.joinS
        (s.splitS t.root6 pfx.masked fuel).2.1
        (s.splitS t.root6 pfx.masked fuel).2.2.2 fuel).2⟩),
      decide ((s.splitS t.root6 pfx.masked fuel).2.2.1 ≠ none))

/-- Heap version of `Table.UnionImmutable`. -/
def Store.unionImmS (s : Store α) (t u : STable α) (fuel : Nat) :
    Store α × STable α :=
  (((s.unionS t.root4 u.root4 true fuel).1.unionS t.root6 u.root6 true fuel).1,
    ⟨(s.unionS t.root4 u.root4 true fuel).2,
     ((s.unionS t.root4 u.root4 true fuel).1.unionS t.root6 u.root6 true fuel).2⟩)

/-- Heap version of `node.lpmIP` (the reader). -/
def Store.lpmIPS (s : Store α) (ip : Addr) :
    Nat → Option Nat → Option (Prefix × α)
  | 0, _ => none
  | fuel+1, a =>
    match a with
    | none => none
    | some ad =>
      match s.get ad with
      | none => none
      | some cell =>
        match s.muOf (some ad) with
        | none => none
        | some mu =>
          if ipTooBig ip mu.2 then none
          else if cell.cidr.addr.compare ip ≤ 0 then
            match s.lpmIPS ip fuel cell.right with
            | some res => some res
            | none =>
              if cell.cidr.containsAddr ip then some (cell.cidr, cell.value)
              else s.lpmIPS ip fuel cell.left
          else s.lpmIPS ip fuel cell.left

/-- Heap version of `node.lpmCIDR` (the reader). -/
def Store.lpmCIDRS (s : Store α) (q : Prefix) :
    Nat → Option Nat → Option (Prefix × α)
  | 0, _ => none
  | fuel+1, a =>
    match a with
    | none => none
    | some ad =>
      match s.get ad with
      | none => none
      | some cell =>
        match s.muOf (some ad) with
        | none => none
        | some mu =>
          if pfxTooBig q mu.2 then none
          else if compare cell.cidr q = 0 then some (cell.cidr, cell.value)
          else if compare cell.cidr q < 0 then
            match s.lpmCIDRS q fuel cell.right with
            | some res => some res
            | none =>
              if cell.cidr = q then some (cell.cidr, cell.value)
              else if cell.cidr.containsAddr q.addr then
                some (cell.cidr, cell.value)
              else s.lpmCIDRS q fuel cell.left
          else s.lpmCIDRS q fuel cell.left

/-- Heap version of `node.walk` (the reader). -/
def Store.walkS {σ : Type} (s : Store α) (cb : σ → Prefix → α → σ × Bool) :
    Nat → Option Nat → σ → σ × Bool
  | 0, _, st => (st, false)
  | fuel+1, a, st =>
    match a with
    | none => (st, true)
    | some ad =>
      match s.get ad with
      | none => (st, true)
      | some cell =>
        if (s.walkS cb fuel cell.left st).2 then
          if (cb (s.walkS cb fuel cell.left st).1 cell.cidr cell.value).2 then
            s.walkS cb fuel cell.right
              (cb (s.walkS cb fuel cell.left st).1 cell.cidr cell.value).1
          else ((cb (s.walkS cb fuel cell.left st).1 cell.cidr cell.value).1, false)
        else ((s.walkS cb fuel cell.left st).1, false)

/-- Heap version of `Table.Lookup`. -/
def Store.lookupS (s : Store α) (t : STable α) (ip : Addr) (fuel : Nat) :
    Option (Prefix × α) :=
  if ip.is4 then s.lpmIPS ip fuel t.root4 else s.lpmIPS ip fuel t.root6

/-- Heap version of `Table.LookupPrefix`. -/
def Store.lookupPrefixS (s : Store α) (t : STable α) (q : Prefix) (fuel : Nat) :
    Option (Prefix × α) :=
  if q.addr.is4 then s.lpmCIDRS q fuel t.root4 else s.lpmCIDRS q fuel t.root6

/-- Heap version of `Table.Walk`. -/
def Store.walkTableS {σ : Type} (s : Store α) (t : STable α)
    (cb : σ → Prefix → α → σ × Bool) (st : σ) (fuel : Nat) : σ × Bool :=
  if (s.walkS cb fuel t.root4 st).2 then
    s.walkS cb fuel t.root6 (s.walkS cb fuel t.root4 st).1
  else ((s.walkS cb fuel t.root4 st).1, false)

/-- The observations of the table `t` agree in the heaps `s` and `u`: every
lookup, prefix lookup and walk, at every fuel, returns the same result. -/
def obsEqOn (s u : Store α) (t : STable α) : Prop :=
  (∀ (ip : Addr) (fuel : Nat), u.lookupS t ip fuel = s.lookupS t ip fuel) ∧
  (∀ (q : Prefix) (fuel : Nat),
    u.lookupPrefixS t q fuel = s.lookupPrefixS t q fuel) ∧
  (∀ (σ : Type) (cb : σ → Prefix → α → σ × Bool) (st : σ) (fuel : Nat),
    u.walkTableS t cb st fuel = s.walkTableS t cb st fuel)

theorem Store.ext_refl (s : Store α) : s.ext s := ⟨[], by simp⟩

theorem Store.ext_trans {s u w : Store α} (h1 : s.ext u) (h2 : u.ext w) :
    s.ext w := by
  obtain ⟨t1, h1⟩ := h1
  obtain ⟨t2, h2⟩ := h2
  exact ⟨t1 ++ t2, by rw [h2, h1, List.append_assoc]⟩

theorem Store.ext_get {s u : Store α} (h : s.ext u) {a : Nat} (ha : a < s.next) :
    u.get a = s.get a := by
  obtain ⟨tl, h⟩ := h
  simp only [Store.get, h]
  exact List.get?_append ha

theorem Store.newNodeS_ext (s : Store α) (lp rp : Option Nat) (v : α)
    (c : Prefix) (p : Nat) : s.ext (s.newNodeS lp rp v c p).1 := ⟨_, rfl⟩

theorem Store.closed_get {s : Store α} (hcl : s.closedB = true) {a : Nat}
    {c : Cell α} (hg : s.get a = some c) :
    ptrOk s.next c.mU = true ∧ ptrOk s.next c.left = true ∧
    ptrOk s.next c.right = true := by
  have hmem : c ∈ s.mem := List.get?_mem hg
  have h := List.all_eq_true.mp hcl c hmem
  simp only [Bool.and_eq_true] at h
  exact ⟨h.1.1, h.1.2, h.2⟩

theorem Store.splitS_ext (cidr : Prefix) : ∀ (fuel : Nat) (s : Store α)
    (a : Option Nat), s.ext (s.splitS a cidr fuel).1 := by
  intro fuel
  induction fuel with
  | zero => intro s a; exact Store.ext_refl s
  | succ fuel ih =>
    intro s a
    cases a with
    | none => exact Store.ext_refl s
    | some ad =>
      cases hg : s.get ad with
      | none =>
        simp only [Store.splitS, hg]
        exact Store.ext_refl s
      | some cell =>
        simp only [Store.splitS, hg]
        by_cases h1 : compare cell.cidr cidr < 0
        · rw [if_pos h1]
          exact Store.ext_trans (ih s cell.right)
            (Store.newNodeS_ext _ _ _ _ _ _)
        · rw [if_neg h1]
          by_cases h2 : compare cell.cidr cidr > 0
          · rw [if_pos h2]
            exact Store.ext_trans (ih s cell.left)
              (Store.newNodeS_ext _ _ _ _ _ _)
          · rw [if_neg h2]
            exact Store.newNodeS_ext s none none cell.value cell.cidr cell.prio

theorem Store.joinS_ext : ∀ (fuel : Nat) (s : Store α) (na ma : Option Nat),
    s.ext (s.joinS na ma fuel).1 := by
  intro fuel
  induction fuel with
  | zero => intro s na ma; exact Store.ext_refl s
  | succ fuel ih =>
    intro s na ma
    cases na with
    | none => exact Store.ext_refl s
    | some nd =>
      cases ma with
      | none => exact Store.ext_refl s
      | some md =>
        cases hgn : s.get nd with
        | none =>
          simp only [Store.joinS, hgn]
          exact Store.ext_refl s
        | some ncell =>
          cases hgm : s.get md with
          | none =>
            simp only [Store.joinS, hgn, hgm]
            exact Store.ext_refl s
          | some mcell =>
            simp only [Store.joinS, hgn, hgm]
            by_cases h1 : ncell.prio > mcell.prio
            · rw [if_pos h1]
              exact Store.ext_trans (ih s ncell.right (some md))
                (Store.newNodeS_ext _ _ _ _ _ _)
            · rw [if_neg h1]
              exact Store.ext_trans (ih s (some nd) mcell.left)
                (Store.newNodeS_ext _ _ _ _ _ _)

theorem Store.insertS_ext (mc : Prefix) (mv : α) (mp : Nat) :
    ∀ (fuel : Nat) (s : Store α) (a : Option Nat),
    s.ext (s.insertS a mc mv mp fuel).1 := by
  intro fuel
  induction fuel with
  | zero => intro s a; exact Store.ext_refl s
  | succ fuel ih =>
    intro s a
    cases a with
    | none =>
      simp only [Store.insertS]
      exact Store.newNodeS_ext s none none mv mc mp
    | some ad =>
      cases hg : s.get ad with
      | none =>
        simp only [Store.insertS, hg]
        exact Store.ext_refl s
      | some cell =>
        simp only [Store.insertS, hg]
        by_cases h1 : mp ≥ cell.prio
        · rw [if_pos h1]
          split
          · exact Store.ext_trans (Store.splitS_ext mc fuel s (some ad))
              (Store.ext_trans (Store.newNodeS_ext _ _ _ _ _ _)
                (Store.ext_trans (Store.joinS_ext fuel _ _ _)
                  (Store.joinS_ext fuel _ _ _)))
          · exact Store.ext_trans (Store.splitS_ext mc fuel s (some ad))
              (Store.newNodeS_ext _ _ _ _ _ _)
        · rw [if_neg h1]
          by_cases h2 : compare mc cell.cidr = 0
          · rw [if_pos h2]
            exact Store.ext_trans (Store.newNodeS_ext _ _ _ _ _ _)
              (Store.ext_trans (Store.joinS_ext fuel _ _ _)
                (Store.joinS_ext fuel _ _ _))
          · rw [if_neg h2]
            by_cases h3 : compare mc cell.cidr < 0
            · rw [if_pos h3]
              exact Store.ext_trans (ih s cell.left)
                (Store.newNodeS_ext _ _ _ _ _ _)
            · rw [if_neg h3]
              exact Store.ext_trans (ih s cell.right)
                (Store.newNodeS_ext _ _ _ _ _ _)

theorem Store.unionS_ext : ∀ (fuel : Nat) (s : Store α) (na ba : Option Nat)
    (ow : Bool), s.ext (s.unionS na ba ow fuel).1 := by
  intro fuel
  induction fuel with
  | zero => intro s na ba ow; exact Store.ext_refl s
  | succ fuel ih =>
    intro s na ba ow
    cases na with
    | none => exact Store.ext_refl s
    | some nd =>
      cases ba with
      | none => exact Store.ext_refl s
      | some bd =>
        cases hgn : s.get nd with
        | none =>
          simp only [Store.unionS, hgn]
          exact Store.ext_refl s
        | some ncell =>
          cases hgm : s.get bd with
          | none =>
            simp only [Store.unionS, hgn, hgm]
            exact Store.ext_refl s
          | some bcell =>
            simp only [Store.unionS, hgn, hgm]
            by_cases h1 : ncell.prio < bcell.prio
            · rw [if_pos h1]
              exact Store.ext_trans (Store.splitS_ext bcell.cidr fuel s (some nd))
                (Store.ext_trans (ih _ _ _ _)
                  (Store.ext_trans (ih _ _ _ _) (Store.newNodeS_ext _ _ _ _ _ _)))
            · rw [if_neg h1]
              exact Store.ext_trans (Store.splitS_ext ncell.cidr fuel s (some bd))
                (Store.ext_trans (ih _ _ _ _)
                  (Store.ext_trans (ih _ _ _ _) (Store.newNodeS_ext _ _ _ _ _ _)))

theorem Store.insertImmS_ext (s : Store α) (t : STable α) (pfx : Prefix)
    (v : α) (prio fuel : Nat) : s.ext (s.insertImmS t pfx v prio fuel).1 := by
  simp only [Store.insertImmS]
  by_cases h : pfx.addr.is4 = true
  · rw [if_pos h]
    exact Store.insertS_ext pfx.masked v prio fuel s t.root4
  · rw [if_neg h]
    exact Store.insertS_ext pfx.masked v prio fuel s t.root6

theorem Store.deleteImmS_ext (s : Store α) (t : STable α) (pfx : Prefix)
    (fuel : Nat) : s.ext ((s.deleteImmS t pfx fuel).1).1 := by
  simp only [Store.deleteImmS]
  by_cases h : pfx.masked.addr.is4 = true
  · rw [if_pos h]
    exact Store.ext_trans (Store.splitS_ext pfx.masked fuel s t.root4)
      (Store.joinS_ext fuel _ _ _)
  · rw [if_neg h]
    exact Store.ext_trans (Store.splitS_ext pfx.masked fuel s t.root6)
      (Store.joinS_ext fuel _ _ _)

theorem Store.unionImmS_ext (s : Store α) (t u : STable α) (fuel : Nat) :
    s.ext (s.unionImmS t u fuel).1 :=
  Store.ext_trans (Store.unionS_ext fuel s t.root4 u.root4 true)
    (Store.unionS_ext fuel _ t.root6 u.root6 true)

theorem Store.muOf_ext {s u : Store α} (hext : s.ext u) (hcl : s.closedB = true)
    {child : Option Nat} (hp : ptrOk s.next child = true) :
    u.muOf child = s.muOf child := by
  cases child with
  | none => rfl
  | some ca =>
    simp only [ptrOk, decide_eq_true_eq] at hp
    have hgu : u.get ca = s.get ca := Store.ext_get hext hp
    cases hg : s.get ca with
    | none => simp [Store.muOf, hgu, hg]
    | some cc =>
      cases hmu : cc.mU with
      | none => simp [Store.muOf, hgu, hg, hmu]
      | some ma =>
        have hma : ma < s.next := by
          have h := (Store.closed_get hcl hg).1
          rw [hmu] at h
          simpa [ptrOk] using h
        have hgmu : u.get ma = s.get ma := Store.ext_get hext hma
        simp [Store.muOf, hgu, hg, hmu, hgmu]

theorem Store.lpmIPS_ext {s u : Store α} (hext : s.ext u)
    (hcl : s.closedB = true) (ip : Addr) : ∀ (fuel : Nat) (a : Option Nat),
    ptrOk s.next a = true → u.lpmIPS ip fuel a = s.lpmIPS ip fuel a := by
  intro fuel
  induction fuel with
  | zero => intro a _; rfl
  | succ fuel ih =>
    intro a hp
    cases a with
    | none => rfl
    | some ad =>
      have had : ad < s.next := by simpa [ptrOk] using hp
      have hgu : u.get ad = s.get ad := Store.ext_get hext had
      cases hg : s.get ad with
      | none => simp [Store.lpmIPS, hgu, hg]
      | some cell =>
        obtain ⟨_, hl, hr⟩ := Store.closed_get hcl hg
        have hmuq : u.muOf (some ad) = s.muOf (some ad) :=
          Store.muOf_ext hext hcl (by simpa [ptrOk] using had)
        cases hm : s.muOf (some ad) with
        | none => simp [Store.lpmIPS, hgu, hg, hmuq, hm]
        | some mu =>
          simp only [Store.lpmIPS, hgu, hg, hmuq, hm]
          rw [ih cell.right hr, ih cell.left hl]

theorem Store.lpmCIDRS_ext {s u : Store α} (hext : s.ext u)
    (hcl : s.closedB = true) (q : Prefix) : ∀ (fuel : Nat) (a : Option Nat),
    ptrOk s.next a = true → u.lpmCIDRS q fuel a = s.lpmCIDRS q fuel a := by
  intro fuel
  induction fuel with
  | zero => intro a _; rfl
  | succ fuel ih =>
    intro a hp
    cases a with
    | none => rfl
    | some ad =>
      have had : ad < s.next := by simpa [ptrOk] using hp
      have hgu : u.get ad = s.get ad := Store.ext_get hext had
      cases hg : s.get ad with
      | none => simp [Store.lpmCIDRS, hgu, hg]
      | some cell =>
        obtain ⟨_, hl, hr⟩ := Store.closed_get hcl hg
        have hmuq : u.muOf (some ad) = s.muOf (some ad) :=
          Store.muOf_ext hext hcl (by simpa [ptrOk] using had)
        cases hm : s.muOf (some ad) with
        | none => simp [Store.lpmCIDRS, hgu, hg, hmuq, hm]
        | some mu =>
          simp only [Store.lpmCIDRS, hgu, hg, hmuq, hm]
          rw [ih cell.right hr, ih cell.left hl]

theorem Store.walkS_ext {σ : Type} {s u : Store α} (hext : s.ext u)
    (hcl : s.closedB = true) (cb : σ → Prefix → α → σ × Bool) :
    ∀ (fuel : Nat) (a : Option Nat), ptrOk s.next a = true → ∀ st : σ,
    u.walkS cb fuel a st = s.walkS cb fuel a st := by
  intro fuel
  induction fuel with
  | zero => intro a _ st; rfl
  | succ fuel ih =>
    intro a hp st
    cases a with
    | none => rfl
    | some ad =>
      have had : ad < s.next := by simpa [ptrOk] using hp
      have hgu : u.get ad = s.get ad := Store.ext_get hext had
      cases hg : s.get ad with
      | none => simp [Store.walkS, hgu, hg]
      | some cell =>
        obtain ⟨_, hl, hr⟩ := Store.closed_get hcl hg
        simp only [Store.walkS, hgu, hg]
        rw [ih cell.left hl, ih cell.right hr]

theorem Store.obsEqOn_of_ext {s u : Store α} (hext : s.ext u)
    (hcl : s.closedB = true) {t : STable α} (h4 : ptrOk s.next t.root4 = true)
    (h6 : ptrOk s.next t.root6 = true) : obsEqOn s u t := by
  refine ⟨?_, ?_, ?_⟩
  · intro ip fuel
    simp only [Store.lookupS]
    rw [Store.lpmIPS_ext hext hcl ip fuel t.root4 h4,
      Store.lpmIPS_ext hext hcl ip fuel t.root6 h6]
  · intro q fuel
    simp only [Store.lookupPrefixS]
    rw [Store.lpmCIDRS_ext hext hcl q fuel t.root4 h4,
      Store.lpmCIDRS_ext hext hcl q fuel t.root6 h6]
  · intro σ cb st fuel
    simp only [Store.walkTableS]
    rw [Store.walkS_ext hext hcl cb fuel t.root4 h4,
      Store.walkS_ext hext hcl cb fuel t.root6 h6]

/-- C2: the immutable mutations never disturb a reader of the old table.  In
the heap model, for every well-formed heap and table, `insertImmS`,
`deleteImmS` and `unionImmS` (the copy-on-write paths of `InsertImmutable`,
`DeleteImmutable` and `UnionImmutable`) return a possibly new table in an
extended heap in which every `Lookup`, `LookupPrefix` and `Walk` performed on
the ORIGINAL table returns exactly the same result as before the operation. -/
theorem C2_immutable_frame (s : Store α) (t : STable α) (hcl : s.closedB = true)
    (h4 : ptrOk s.next t.root4 = true) (h6 : ptrOk s.next t.root6 = true) :
    (∀ (pfx : Prefix) (v : α) (prio fuel : Nat),
      obsEqOn s (s.insertImmS t pfx v prio fuel).1 t) ∧
    (∀ (pfx : Prefix) (fuel : Nat),
      obsEqOn s ((s.deleteImmS t pfx fuel).1).1 t) ∧
    (∀ (u : STable α) (fuel : Nat), obsEqOn s (s.unionImmS t u fuel).1 t) := by
  refine ⟨?_, ?_, ?_⟩
  · intro pfx v prio fuel
    exact Store.obsEqOn_of_ext (Store.insertImmS_ext s t pfx v prio fuel) hcl h4 h6
  · intro pfx fuel
    exact Store.obsEqOn_of_ext (Store.deleteImmS_ext s t pfx fuel) hcl h4 h6
  · intro u fuel
    exact Store.obsEqOn_of_ext (Store.unionImmS_ext s t u fuel) hcl h4 h6

theorem C2_immutable_frame_witness :
    obsEqOn (⟨[⟨some 0, none, none, 7, ⟨⟨true, 167772160⟩, 8⟩, 5⟩]⟩ : Store Nat)
      ((⟨[⟨some 0, none, none, 7, ⟨⟨true, 167772160⟩, 8⟩, 5⟩]⟩ : Store Nat).insertImmS
        ⟨some 0, none⟩ ⟨⟨true, 2130706432⟩, 8⟩ 9 3 10).1
      ⟨some 0, none⟩ :=
  (C2_immutable_frame
    (⟨[⟨some 0, none, none, 7, ⟨⟨true, 167772160⟩, 8⟩, 5⟩]⟩ : Store Nat)
    ⟨some 0, none⟩ (by decide) (by decide) (by decide)).1
    ⟨⟨true, 2130706432⟩, 8⟩ 9 3 10

theorem C10_family_separation_witness :
    Table.Lookup (⟨Node.nil, Node.nil⟩ : Table Nat) ⟨true, 5⟩ =
      Table.Lookup ⟨Node.nil,
        Node.node ⟨⟨false, 0⟩, 0⟩ Node.nil Node.nil 7 ⟨⟨false, 0⟩, 0⟩ 3⟩ ⟨true, 5⟩ ∧
    ((Table.empty : Table Nat).Insert ⟨⟨false, 0⟩, 0⟩ 7 3).root4 =
      (Table.empty : Table Nat).root4 :=
  ⟨C10_family_separation.1 Node.nil Node.nil
      (Node.node ⟨⟨false, 0⟩, 0⟩ Node.nil Node.nil 7 ⟨⟨false, 0⟩, 0⟩ 3) ⟨true, 5⟩ rfl,
    (C10_family_separation.2.2.2.1 Table.empty ⟨⟨false, 0⟩, 0⟩ 7 3 rfl).1⟩

end Cidrtree
